import Mathlib

/-!
# B+ tree index (`index/b_plus_tree.cpp`)

A shallow embedding of the tree coordinator `BPlusTree` of
`src/index/b_plus_tree.cpp`.  The coordinator is translated function by
function; pointers to pages are the ids of the frames they were fetched from,
and every dereference reads the page store of the buffer pool.  The page id in
a node header is written by `Init` only, with the id of the page's own frame,
so `node->GetPageId()` is the id the pointer stands for.  A result of
`none` stands for behaviour the program does not define: dereferencing a null
page, reading a slot outside `[0, size)`, reinterpreting a page as the wrong
node kind, or running out of the recursion budget `fuel`.

The node classes, the buffer pool and the root registry are not part of the
translated file; they are modelled from the specification and marked so.
-/

namespace BPlusTreeIndex

/-! ## Identifiers -/

abbrev page_id_t := Int
abbrev index_id_t := Nat
abbrev GenericKey := Nat
abbrev RowId := Nat

/-- Modelled from the spec: the sentinel page id meaning "no page". -/
def INVALID_PAGE_ID : page_id_t := -1

/-- Modelled from the spec: the well-known page that holds the root registry. -/
def INDEX_ROOTS_PAGE_ID : page_id_t := 1

/-! ## Node pages -/

/-- Modelled from the spec: a leaf node, common header plus `next_page_id` and the
slot array of `(Key, RowId)`; `size` is the length of `slots`. -/
structure LeafPage where
  parent_page_id : page_id_t
  max_size : Nat
  next_page_id : page_id_t
  slots : List (GenericKey × RowId)
deriving DecidableEq

/-- Modelled from the spec: an internal node, common header plus the slot array of
`(Key, PageId)`; the key of slot 0 is unused. -/
structure InternalPage where
  parent_page_id : page_id_t
  max_size : Nat
  slots : List (GenericKey × page_id_t)
deriving DecidableEq

/-- Modelled from the spec: a page interpreted as either a leaf or an internal node
(the `page_type` tag of the common header). -/
inductive BPlusTreePage where
  | leaf (l : LeafPage)
  | internal (n : InternalPage)
deriving DecidableEq

namespace BPlusTreePage

def IsLeafPage : BPlusTreePage → Bool
  | leaf _ => true
  | internal _ => false

def GetParentPageId : BPlusTreePage → page_id_t
  | leaf l => l.parent_page_id
  | internal n => n.parent_page_id

def SetParentPageId : BPlusTreePage → page_id_t → BPlusTreePage
  | leaf l, p => leaf { l with parent_page_id := p }
  | internal n, p => internal { n with parent_page_id := p }

/-- Modelled from the spec: the root is the node whose parent is INVALID. -/
def IsRootPage (p : BPlusTreePage) : Bool :=
  p.GetParentPageId == INVALID_PAGE_ID

def GetSize : BPlusTreePage → Nat
  | leaf l => l.slots.length
  | internal n => n.slots.length

end BPlusTreePage

namespace LeafPage

/-- Modelled from the spec: `Init(page_id, parent_id, key_size, max_size)` of a leaf:
an empty slot array and no successor. -/
def Init (parent_id : page_id_t) (max_size : Nat) : LeafPage :=
  { parent_page_id := parent_id, max_size := max_size,
    next_page_id := INVALID_PAGE_ID, slots := [] }

def GetSize (l : LeafPage) : Nat := l.slots.length

def GetMaxSize (l : LeafPage) : Nat := l.max_size

/-- Modelled from the spec: `min_size = ⌈max_size / 2⌉` for leaves. -/
def GetMinSize (l : LeafPage) : Nat := (l.max_size + 1) / 2

def IsRootPage (l : LeafPage) : Bool := l.parent_page_id == INVALID_PAGE_ID

/-- Modelled from the spec: `key_at(i)`; a slot outside `[0, size)` has no defined
content. -/
def KeyAt (l : LeafPage) (i : Nat) : Option GenericKey :=
  (l.slots.get? i).map Prod.fst

/-- Modelled from the spec: `key_index(key)`, the smallest index with
`key_at(i) ≥ key` (the size when there is none). -/
def KeyIndex (l : LeafPage) (key : GenericKey) : Nat :=
  l.slots.findIdx (fun e => decide (key ≤ e.1))

/-- Modelled from the spec: `lookup(key) → (found, row)`. -/
def Lookup (l : LeafPage) (key : GenericKey) : Option RowId :=
  (l.slots.find? (fun e => e.1 == key)).map Prod.snd

/-- Modelled from the spec: `insert(key, row)`: a duplicate is refused, otherwise the
entry is placed at its sorted position. -/
def Insert (l : LeafPage) (key : GenericKey) (value : RowId) : LeafPage × Bool :=
  if (l.Lookup key).isSome then (l, false)
  else
    ({ l with slots := l.slots.take (l.KeyIndex key) ++ (key, value) :: l.slots.drop (l.KeyIndex key) },
      true)

/-- Modelled from the spec: `remove_and_delete_record(key)`: false when the key is
absent, otherwise the entry is removed and the rest shifted left. -/
def RemoveAndDeleteRecord (l : LeafPage) (key : GenericKey) : LeafPage × Bool :=
  if (l.Lookup key).isSome then
    ({ l with slots := l.slots.eraseP (fun e => e.1 == key) }, true)
  else (l, false)

/-- Modelled from the spec: `move_half_to(dst)`: the upper half of the slots
(`⌈size/2⌉` onwards) goes to `dst`, which takes over the successor link, and
this leaf links to `dst` (the page `dst_id`).  Returns `(this, dst)`. -/
def MoveHalfTo (l dst : LeafPage) (dst_id : page_id_t) : LeafPage × LeafPage :=
  ({ l with slots := l.slots.take ((l.slots.length + 1) / 2), next_page_id := dst_id },
   { dst with slots := dst.slots ++ l.slots.drop ((l.slots.length + 1) / 2),
              next_page_id := l.next_page_id })

/-- Modelled from the spec: `move_all_to(dst)`: all entries are appended to `dst`,
which takes over the successor link.  Returns `(this, dst)`. -/
def MoveAllTo (l dst : LeafPage) : LeafPage × LeafPage :=
  ({ l with slots := [] },
   { dst with slots := dst.slots ++ l.slots, next_page_id := l.next_page_id })

/-- Modelled from the spec: `move_first_to_end_of(dst)`.  Returns `(this, dst)`. -/
def MoveFirstToEndOf (l dst : LeafPage) : Option (LeafPage × LeafPage) :=
  match l.slots with
  | [] => none
  | e :: rest => some ({ l with slots := rest }, { dst with slots := dst.slots ++ [e] })

/-- Modelled from the spec: `move_last_to_front_of(dst)`.  Returns `(this, dst)`. -/
def MoveLastToFrontOf (l dst : LeafPage) : Option (LeafPage × LeafPage) :=
  match l.slots.getLast? with
  | none => none
  | some e => some ({ l with slots := l.slots.dropLast }, { dst with slots := e :: dst.slots })

end LeafPage

namespace InternalPage

/-- Modelled from the spec: `Init(page_id, parent_id, key_size, max_size)` of an
internal node: an empty slot array. -/
def Init (parent_id : page_id_t) (max_size : Nat) : InternalPage :=
  { parent_page_id := parent_id, max_size := max_size, slots := [] }

def GetSize (n : InternalPage) : Nat := n.slots.length

def GetMaxSize (n : InternalPage) : Nat := n.max_size

/-- Modelled from the spec: `min_size = ⌈(max_size+1)/2⌉` for internals. -/
def GetMinSize (n : InternalPage) : Nat := (n.max_size + 2) / 2

def IsRootPage (n : InternalPage) : Bool := n.parent_page_id == INVALID_PAGE_ID

/-- Modelled from the spec: `key_at(i)`; a slot outside `[0, size)` has no defined
content. -/
def KeyAt (n : InternalPage) (i : Nat) : Option GenericKey :=
  (n.slots.get? i).map Prod.fst

/-- Modelled from the spec: `value_at(i)`, the child pointer of slot `i`. -/
def ValueAt (n : InternalPage) (i : Nat) : Option page_id_t :=
  (n.slots.get? i).map Prod.snd

/-- Modelled from the spec: `set_key_at(i, k)`. -/
def SetKeyAt (n : InternalPage) (i : Nat) (key : GenericKey) : Option InternalPage :=
  match n.slots.get? i with
  | none => none
  | some e => some { n with slots := n.slots.set i (key, e.2) }

/-- Modelled from the spec: `value_index(child_id)`, a linear scan; undefined when
no slot holds the child. -/
def ValueIndex (n : InternalPage) (child : page_id_t) : Option Nat :=
  if n.slots.findIdx (fun e => e.2 == child) < n.slots.length then
    some (n.slots.findIdx (fun e => e.2 == child))
  else none

/-- Modelled from the spec: `lookup(key)`: the child of the greatest `k_i ≤ key`
among the keys of slots `[1, size)`, the child of slot 0 when `key < k_1`. -/
def Lookup (n : InternalPage) (key : GenericKey) : Option page_id_t :=
  n.ValueAt ((n.slots.tail.takeWhile (fun e => decide (e.1 ≤ key))).length)

/-- Modelled from the spec: `insert_node_after(old_child, key, new_child)`: the new
entry goes right after the slot holding `old_child`. -/
def InsertNodeAfter (n : InternalPage) (old_value : page_id_t) (key : GenericKey)
    (new_value : page_id_t) : Option InternalPage :=
  match n.ValueIndex old_value with
  | none => none
  | some i => some { n with slots := n.slots.take (i + 1) ++ (key, new_value) :: n.slots.drop (i + 1) }

/-- Modelled from the spec: `populate_new_root(left, separator, right)`: size 2, slot 0
holds `left` (its key is unused, written as 0), slot 1 holds `(separator, right)`. -/
def PopulateNewRoot (n : InternalPage) (old_value : page_id_t) (key : GenericKey)
    (new_value : page_id_t) : InternalPage :=
  { n with slots := [(0, old_value), (key, new_value)] }

/-- Modelled from the spec: `remove(i)`: shift left from `i+1`, decrement size. -/
def Remove (n : InternalPage) (i : Nat) : Option InternalPage :=
  if i < n.slots.length then some { n with slots := n.slots.eraseIdx i } else none

/-- Modelled from the spec: the helper of `adjust_root` that empties an internal root
left with one child and returns that child. -/
def RemoveAndReturnOnlyChild (n : InternalPage) : Option (InternalPage × page_id_t) :=
  match n.ValueAt 0 with
  | none => none
  | some c => some ({ n with slots := [] }, c)

end InternalPage

/-! ## Buffer pool and root registry -/

/-- Modelled from the spec: the calls the tree makes on the buffer pool, in order;
`delete` records the pin count the page had when it was freed. -/
inductive PoolEvent where
  | fetch (id : page_id_t)
  | new (id : page_id_t)
  | unpin (id : page_id_t) (dirty : Bool)
  | delete (id : page_id_t) (pins : Nat)
deriving DecidableEq

/-- Modelled from the spec: the buffer pool (`fetch`, `new_page`, `unpin`,
`delete_page`) together with the content of the root registry page.  The pool
never runs out of pages and hands out fresh page ids in increasing order. -/
structure BufferPoolManager where
  pages : page_id_t → Option BPlusTreePage
  pin_count : page_id_t → Nat
  next_page_id : page_id_t
  roots : index_id_t → Option page_id_t
  log : List PoolEvent

namespace BufferPoolManager

/-- Modelled from the spec: `fetch(page_id) → page` (pin++); `none` is the null page
returned for an id that names no page. -/
def FetchPage (bpm : BufferPoolManager) (id : page_id_t) :
    Option (BufferPoolManager × BPlusTreePage) :=
  match bpm.pages id with
  | none => none
  | some p =>
    some ({ bpm with
              pin_count := fun i => if i = id then bpm.pin_count id + 1 else bpm.pin_count i,
              log := bpm.log ++ [PoolEvent.fetch id] }, p)

/-- Modelled from the spec: `new_page(out: page_id) → page` (allocates, returns
pinned).  The page has no content until the caller initialises it. -/
def NewPage (bpm : BufferPoolManager) : BufferPoolManager × page_id_t :=
  ({ bpm with
       pin_count := fun i => if i = bpm.next_page_id then 1 else bpm.pin_count i,
       next_page_id := bpm.next_page_id + 1,
       log := bpm.log ++ [PoolEvent.new bpm.next_page_id] }, bpm.next_page_id)

/-- Modelled from the spec: `unpin(page_id, dirty)` (pin--). -/
def UnpinPage (bpm : BufferPoolManager) (id : page_id_t) (dirty : Bool) : BufferPoolManager :=
  { bpm with
      pin_count := fun i => if i = id then bpm.pin_count id - 1 else bpm.pin_count i,
      log := bpm.log ++ [PoolEvent.unpin id dirty] }

/-- Modelled from the spec: `delete_page(page_id)` marks the page free.  The spec
leaves `pin = 0` to the callers and counts a deleted page as released, so the
page is freed whatever its pin count was; the count is kept in the log. -/
def DeletePage (bpm : BufferPoolManager) (id : page_id_t) : BufferPoolManager :=
  { bpm with
      pages := fun i => if i = id then none else bpm.pages i,
      pin_count := fun i => if i = id then 0 else bpm.pin_count i,
      log := bpm.log ++ [PoolEvent.delete id (bpm.pin_count id)] }

/-- In-place mutation of the page held in frame `id`. -/
def write (bpm : BufferPoolManager) (id : page_id_t) (p : BPlusTreePage) : BufferPoolManager :=
  { bpm with pages := fun i => if i = id then some p else bpm.pages i }

/-- Dereference of a `LeafPage *` pointing into frame `id`. -/
def leafAt (bpm : BufferPoolManager) (id : page_id_t) : Option LeafPage :=
  match bpm.pages id with
  | some (BPlusTreePage.leaf l) => some l
  | _ => none

/-- Dereference of an `InternalPage *` pointing into frame `id`. -/
def internalAt (bpm : BufferPoolManager) (id : page_id_t) : Option InternalPage :=
  match bpm.pages id with
  | some (BPlusTreePage.internal n) => some n
  | _ => none

/-- Modelled from the spec: the fetch of the registry page (pin++). -/
def FetchIndexRoots (bpm : BufferPoolManager) : BufferPoolManager :=
  { bpm with
      pin_count := fun i =>
        if i = INDEX_ROOTS_PAGE_ID then bpm.pin_count INDEX_ROOTS_PAGE_ID + 1 else bpm.pin_count i,
      log := bpm.log ++ [PoolEvent.fetch INDEX_ROOTS_PAGE_ID] }

/-- Modelled from the spec: `get_root(index_id, out: page_id) → bool`. -/
def GetRootId (bpm : BufferPoolManager) (index_id : index_id_t) : Option page_id_t :=
  bpm.roots index_id

/-- Modelled from the spec: registry `insert(index_id, page_id)`, first-time
registration: an id that is already registered keeps its entry. -/
def RootsInsert (bpm : BufferPoolManager) (index_id : index_id_t) (root : page_id_t) :
    BufferPoolManager :=
  match bpm.roots index_id with
  | some _ => bpm
  | none => { bpm with roots := fun i => if i = index_id then some root else bpm.roots i }

/-- Modelled from the spec: registry `update(index_id, page_id)`, rewriting the entry
of a registered id. -/
def RootsUpdate (bpm : BufferPoolManager) (index_id : index_id_t) (root : page_id_t) :
    BufferPoolManager :=
  match bpm.roots index_id with
  | some _ => { bpm with roots := fun i => if i = index_id then some root else bpm.roots i }
  | none => bpm

/-- Modelled from the spec: `check_all_unpinned() → bool`, as a proposition. -/
def CheckAllUnpinned (bpm : BufferPoolManager) : Prop :=
  ∀ id, bpm.pin_count id = 0

/-- Modelled from the spec: the child re-parenting of the internal move helpers:
fetch the child, set its parent, unpin it dirty. -/
def reparent (bpm : BufferPoolManager) (parent : page_id_t) (child : page_id_t) :
    Option BufferPoolManager :=
  match bpm.FetchPage child with
  | none => none
  | some (bpm1, p) => some ((bpm1.write child (p.SetParentPageId parent)).UnpinPage child true)

/-- Re-parenting of a run of children, left to right. -/
def reparentAll (bpm : BufferPoolManager) (parent : page_id_t) :
    List page_id_t → Option BufferPoolManager
  | [] => some bpm
  | c :: cs =>
    match bpm.reparent parent c with
    | none => none
    | some bpm1 => reparentAll bpm1 parent cs

/-- Modelled from the spec: internal `move_half_to(dst)`: the slots from `⌈size/2⌉`
onwards go to `dst` and the moved children get `dst` as parent. -/
def InternalMoveHalfTo (bpm : BufferPoolManager) (src dst : page_id_t) :
    Option BufferPoolManager :=
  match bpm.internalAt src, bpm.internalAt dst with
  | some n, some d =>
    let h := (n.slots.length + 1) / 2
    let bpm1 := bpm.write dst (BPlusTreePage.internal { d with slots := d.slots ++ n.slots.drop h })
    let bpm2 := bpm1.write src (BPlusTreePage.internal { n with slots := n.slots.take h })
    bpm2.reparentAll dst ((n.slots.drop h).map Prod.snd)
  | _, _ => none

/-- Modelled from the spec: internal `move_all_to(dst, middle_key)`: every entry is
appended to `dst`, `middle_key` standing for the key of slot 0, and the moved
children get `dst` as parent. -/
def InternalMoveAllTo (bpm : BufferPoolManager) (src dst : page_id_t) (middle_key : GenericKey) :
    Option BufferPoolManager :=
  match bpm.internalAt src, bpm.internalAt dst with
  | some n, some d =>
    match n.slots with
    | [] => none
    | e :: rest =>
      let bpm1 := bpm.write dst
        (BPlusTreePage.internal { d with slots := d.slots ++ (middle_key, e.2) :: rest })
      let bpm2 := bpm1.write src (BPlusTreePage.internal { n with slots := [] })
      bpm2.reparentAll dst (n.slots.map Prod.snd)
  | _, _ => none

/-- Modelled from the spec: internal `move_first_to_end_of(dst, middle_key)`: the
first child goes to the end of `dst` under the key `middle_key`. -/
def InternalMoveFirstToEndOf (bpm : BufferPoolManager) (src dst : page_id_t)
    (middle_key : GenericKey) : Option BufferPoolManager :=
  match bpm.internalAt src, bpm.internalAt dst with
  | some n, some d =>
    match n.slots with
    | [] => none
    | e :: rest =>
      let bpm1 := bpm.write dst
        (BPlusTreePage.internal { d with slots := d.slots ++ [(middle_key, e.2)] })
      let bpm2 := bpm1.write src (BPlusTreePage.internal { n with slots := rest })
      bpm2.reparent dst e.2
  | _, _ => none

/-- Modelled from the spec: internal `move_last_to_front_of(dst, middle_key)`: the
last entry goes to the front of `dst`, whose former slot 0 takes the key
`middle_key`. -/
def InternalMoveLastToFrontOf (bpm : BufferPoolManager) (src dst : page_id_t)
    (middle_key : GenericKey) : Option BufferPoolManager :=
  match bpm.internalAt src, bpm.internalAt dst with
  | some n, some d =>
    match n.slots.getLast? with
    | none => none
    | some e =>
      let shifted := match d.slots with
        | [] => []
        | f :: rest => (middle_key, f.2) :: rest
      let bpm1 := bpm.write dst (BPlusTreePage.internal { d with slots := e :: shifted })
      let bpm2 := bpm1.write src (BPlusTreePage.internal { n with slots := n.slots.dropLast })
      bpm2.reparent dst e.2
  | _, _ => none

end BufferPoolManager

/-! ## The tree coordinator -/

structure BPlusTree where
  index_id_ : index_id_t
  root_page_id_ : page_id_t
  buffer_pool_manager_ : BufferPoolManager
  leaf_max_size_ : Nat
  internal_max_size_ : Nat

namespace BufferPoolManager

/-- Modelled from the spec: a pool that holds no tree page yet; the ids up to the
registry page are taken, no index is registered. -/
def fresh : BufferPoolManager :=
  { pages := fun _ => none, pin_count := fun _ => 0, next_page_id := 2,
    roots := fun _ => none, log := [] }

end BufferPoolManager

namespace BPlusTree

/-- State update of the pool the tree works on. -/
def withPool (t : BPlusTree) (bpm : BufferPoolManager) : BPlusTree :=
  { t with buffer_pool_manager_ := bpm }

/-- The constructor `BPlusTree::BPlusTree`. -/
def create (index_id : index_id_t) (bpm : BufferPoolManager) (leaf_max_size internal_max_size : Nat) :
    BPlusTree :=
  let bpm1 := bpm.FetchIndexRoots
  { index_id_ := index_id,
    root_page_id_ := match bpm1.GetRootId index_id with
      | some page_id => page_id
      | none => INVALID_PAGE_ID,
    buffer_pool_manager_ := bpm1.UnpinPage INDEX_ROOTS_PAGE_ID false,
    leaf_max_size_ := leaf_max_size,
    internal_max_size_ := internal_max_size }

def IsEmpty (t : BPlusTree) : Bool := t.root_page_id_ == INVALID_PAGE_ID

/-- Source `BPlusTree::UpdateRootPageId(insert_record)`. -/
def UpdateRootPageId (t : BPlusTree) (insert_record : Bool) : BPlusTree :=
  let bpm1 := t.buffer_pool_manager_.FetchIndexRoots
  let bpm2 := if insert_record then bpm1.RootsInsert t.index_id_ t.root_page_id_
              else bpm1.RootsUpdate t.index_id_ t.root_page_id_
  t.withPool (bpm2.UnpinPage INDEX_ROOTS_PAGE_ID true)

/-- Source `BPlusTree::FindLeafPage(key, page_id, leftMost)`; the result is the tree with
the leaf pinned and the id of the leaf. -/
def FindLeafPage : Nat → BPlusTree → GenericKey → page_id_t → Bool → Option (BPlusTree × page_id_t)
  | 0, _, _, _, _ => none
  | fuel + 1, t, key, page_id, leftMost =>
    if t.IsEmpty then none
    else
      match t.buffer_pool_manager_.FetchPage page_id with
      | none => none
      | some (bpm1, BPlusTreePage.leaf _) => some (t.withPool bpm1, page_id)
      | some (bpm1, BPlusTreePage.internal internal_page) =>
        if leftMost then
          match internal_page.ValueAt 0 with
          | none => none
          | some leftMostPageId =>
            FindLeafPage fuel (t.withPool (bpm1.UnpinPage page_id false)) key leftMostPageId leftMost
        else
          match internal_page.Lookup key with
          | none => none
          | some pageId =>
            FindLeafPage fuel (t.withPool (bpm1.UnpinPage page_id false)) key pageId leftMost

/-- Source `BPlusTree::GetValue(key, result)`; returns the tree, the found flag and the
result vector. -/
def GetValue (fuel : Nat) (t : BPlusTree) (key : GenericKey) (result : List RowId) :
    Option (BPlusTree × Bool × List RowId) :=
  if t.IsEmpty then some (t, false, result)
  else
    match FindLeafPage fuel t key t.root_page_id_ false with
    | none => none
    | some (t1, leaf) =>
      match t1.buffer_pool_manager_.leafAt leaf with
      | none => none
      | some l =>
        match l.Lookup key with
        | some id => some (t1.withPool (t1.buffer_pool_manager_.UnpinPage leaf false), true, result ++ [id])
        | none => some (t1.withPool (t1.buffer_pool_manager_.UnpinPage leaf false), false, result)

/-- Source `BPlusTree::StartNewTree(key, value)`. -/
def StartNewTree (t : BPlusTree) (key : GenericKey) (value : RowId) : BPlusTree :=
  let t1 : BPlusTree :=
    { t with root_page_id_ := t.buffer_pool_manager_.NewPage.2,
             buffer_pool_manager_ := t.buffer_pool_manager_.NewPage.1 }
  let leaf := LeafPage.Init INVALID_PAGE_ID t1.leaf_max_size_
  let t2 := t1.withPool
    (t1.buffer_pool_manager_.write t1.root_page_id_ (BPlusTreePage.leaf (leaf.Insert key value).1))
  let t3 := t2.UpdateRootPageId true
  t3.withPool (t3.buffer_pool_manager_.UnpinPage t3.root_page_id_ true)

/-- Source `BPlusTree::Split(LeafPage *node)`; returns the tree and the id of the new leaf. -/
def SplitLeaf (t : BPlusTree) (node : page_id_t) : Option (BPlusTree × page_id_t) :=
  let bpm1 := t.buffer_pool_manager_.NewPage.1
  let new_page_id := t.buffer_pool_manager_.NewPage.2
  match bpm1.leafAt node with
  | none => none
  | some n =>
    let new_page := LeafPage.Init n.parent_page_id t.leaf_max_size_
    let moved := n.MoveHalfTo new_page new_page_id
    let bpm2 := (bpm1.write new_page_id (BPlusTreePage.leaf moved.2)).write node
      (BPlusTreePage.leaf moved.1)
    some (t.withPool (bpm2.UnpinPage new_page_id true), new_page_id)

/-- Source `BPlusTree::Split(InternalPage *node)`; returns the tree and the id of the new
internal node. -/
def SplitInternal (t : BPlusTree) (node : page_id_t) : Option (BPlusTree × page_id_t) :=
  let bpm1 := t.buffer_pool_manager_.NewPage.1
  let new_page_id := t.buffer_pool_manager_.NewPage.2
  match bpm1.internalAt node with
  | none => none
  | some n =>
    let bpm2 := bpm1.write new_page_id
      (BPlusTreePage.internal (InternalPage.Init n.parent_page_id t.internal_max_size_))
    match bpm2.InternalMoveHalfTo node new_page_id with
    | none => none
    | some bpm3 => some (t.withPool (bpm3.UnpinPage new_page_id true), new_page_id)

/-- Source `BPlusTree::InsertIntoParent(old_node, key, new_node)`. -/
def InsertIntoParent : Nat → BPlusTree → page_id_t → GenericKey → page_id_t → Option BPlusTree
  | 0, _, _, _, _ => none
  | fuel + 1, t, old_node, key, new_node =>
    match t.buffer_pool_manager_.pages old_node with
    | none => none
    | some old_page =>
      if old_page.IsRootPage then
        let bpm1 := t.buffer_pool_manager_.NewPage.1
        let new_page_id := t.buffer_pool_manager_.NewPage.2
        let root := (InternalPage.Init INVALID_PAGE_ID t.internal_max_size_).PopulateNewRoot
          old_node key new_node
        let bpm2 := bpm1.write new_page_id (BPlusTreePage.internal root)
        let bpm3 := bpm2.write old_node (old_page.SetParentPageId new_page_id)
        match bpm3.pages new_node with
        | none => none
        | some new_page =>
          let bpm4 := bpm3.write new_node (new_page.SetParentPageId new_page_id)
          let t1 : BPlusTree := { t with root_page_id_ := new_page_id, buffer_pool_manager_ := bpm4 }
          let t2 := t1.UpdateRootPageId false
          some (t2.withPool (t2.buffer_pool_manager_.UnpinPage new_page_id true))
      else
        let parent_page_id := old_page.GetParentPageId
        match t.buffer_pool_manager_.FetchPage parent_page_id with
        | some (bpm1, BPlusTreePage.internal parent_page) =>
          match parent_page.InsertNodeAfter old_node key new_node with
          | none => none
          | some parent1 =>
            let bpm2 := bpm1.write parent_page_id (BPlusTreePage.internal parent1)
            if parent1.GetSize > parent1.GetMaxSize then
              match SplitInternal (t.withPool bpm2) parent_page_id with
              | none => none
              | some (t1, new_parent_page) =>
                match (t1.buffer_pool_manager_.internalAt new_parent_page).bind (fun n => n.KeyAt 0) with
                | none => none
                | some key1 =>
                  match InsertIntoParent fuel t1 parent_page_id key1 new_parent_page with
                  | none => none
                  | some t2 => some (t2.withPool (t2.buffer_pool_manager_.UnpinPage parent_page_id true))
            else some (t.withPool (bpm2.UnpinPage parent_page_id true))
        | _ => none

/-- Source `BPlusTree::InsertIntoLeaf(key, value)`. -/
def InsertIntoLeaf (fuel : Nat) (t : BPlusTree) (key : GenericKey) (value : RowId) :
    Option (BPlusTree × Bool) :=
  match FindLeafPage fuel t key t.root_page_id_ false with
  | none => none
  | some (t1, leaf) =>
    match t1.buffer_pool_manager_.leafAt leaf with
    | none => none
    | some l =>
      if (l.Lookup key).isSome then
        some (t1.withPool (t1.buffer_pool_manager_.UnpinPage leaf false), false)
      else if (l.Insert key value).2 then
        let l1 := (l.Insert key value).1
        let t2 := t1.withPool (t1.buffer_pool_manager_.write leaf (BPlusTreePage.leaf l1))
        if l1.GetSize > l1.GetMaxSize then
          match SplitLeaf t2 leaf with
          | none => none
          | some (t3, new_leaf) =>
            match (t3.buffer_pool_manager_.leafAt new_leaf).bind (fun n => n.KeyAt 0) with
            | none => none
            | some key1 =>
              match InsertIntoParent fuel t3 leaf key1 new_leaf with
              | none => none
              | some t4 => some (t4.withPool (t4.buffer_pool_manager_.UnpinPage leaf true), true)
        else some (t2.withPool (t2.buffer_pool_manager_.UnpinPage leaf true), true)
      else some (t1.withPool (t1.buffer_pool_manager_.UnpinPage leaf false), false)

/-- Source `BPlusTree::Insert(key, value)`. -/
def Insert (fuel : Nat) (t : BPlusTree) (key : GenericKey) (value : RowId) :
    Option (BPlusTree × Bool) :=
  if t.IsEmpty then some (t.StartNewTree key value, true)
  else InsertIntoLeaf fuel t key value

/-- Source `BPlusTree::AdjustRoot(old_root_node)`. -/
def AdjustRoot (t : BPlusTree) (old_root_node : page_id_t) : Option (BPlusTree × Bool) :=
  match t.buffer_pool_manager_.pages old_root_node with
  | none => none
  | some (BPlusTreePage.leaf root_node) =>
    if root_node.GetSize = 0 then
      let t1 : BPlusTree := { t with root_page_id_ := INVALID_PAGE_ID }
      some (t1.UpdateRootPageId false, true)
    else some (t, false)
  | some (BPlusTreePage.internal root_node) =>
    if root_node.GetSize = 1 then
      match root_node.RemoveAndReturnOnlyChild with
      | none => none
      | some (root1, new_root_id) =>
        let bpm1 := t.buffer_pool_manager_.write old_root_node (BPlusTreePage.internal root1)
        match bpm1.FetchPage new_root_id with
        | none => none
        | some (bpm2, page) =>
          let bpm3 := bpm2.write new_root_id (page.SetParentPageId INVALID_PAGE_ID)
          let t1 : BPlusTree :=
            { t with root_page_id_ := new_root_id,
                     buffer_pool_manager_ := bpm3.UnpinPage new_root_id true }
          some (t1.UpdateRootPageId false, true)
    else some (t, false)

/-- Source `BPlusTree::Redistribute(LeafPage *neighbor_node, LeafPage *node, parent, index)`. -/
def RedistributeLeaf (t : BPlusTree) (neighbor_node node parent : page_id_t) (index : Nat) :
    Option BPlusTree :=
  let bpm := t.buffer_pool_manager_
  match bpm.leafAt neighbor_node, bpm.leafAt node, bpm.internalAt parent with
  | some nb, some nd, some p =>
    if index = 0 then
      match nb.MoveFirstToEndOf nd with
      | none => none
      | some (nb1, nd1) =>
        match (nb1.KeyAt 0).bind (fun k => p.SetKeyAt 1 k) with
        | none => none
        | some p1 =>
          some (t.withPool (((bpm.write node (BPlusTreePage.leaf nd1)).write neighbor_node
            (BPlusTreePage.leaf nb1)).write parent (BPlusTreePage.internal p1)))
    else
      match nb.MoveLastToFrontOf nd with
      | none => none
      | some (nb1, nd1) =>
        match (nd1.KeyAt 0).bind (fun k => p.SetKeyAt index k) with
        | none => none
        | some p1 =>
          some (t.withPool (((bpm.write node (BPlusTreePage.leaf nd1)).write neighbor_node
            (BPlusTreePage.leaf nb1)).write parent (BPlusTreePage.internal p1)))
  | _, _, _ => none

/-- Source `BPlusTree::Redistribute(InternalPage *neighbor_node, InternalPage *node, parent, index)`. -/
def RedistributeInternal (t : BPlusTree) (neighbor_node node parent : page_id_t) (index : Nat) :
    Option BPlusTree :=
  let bpm := t.buffer_pool_manager_
  match bpm.internalAt parent with
  | none => none
  | some p =>
    if index = 0 then
      match (p.KeyAt 1).bind (fun k => bpm.InternalMoveFirstToEndOf neighbor_node node k) with
      | none => none
      | some bpm1 =>
        match bpm1.internalAt neighbor_node, bpm1.internalAt parent with
        | some nb1, some p1 =>
          match (nb1.KeyAt 0).bind (fun k => p1.SetKeyAt 1 k) with
          | none => none
          | some p2 => some (t.withPool (bpm1.write parent (BPlusTreePage.internal p2)))
        | _, _ => none
    else
      match (p.KeyAt index).bind (fun k => bpm.InternalMoveLastToFrontOf neighbor_node node k) with
      | none => none
      | some bpm1 =>
        match bpm1.internalAt neighbor_node, bpm1.internalAt parent with
        | some nb1, some p1 =>
          match (nb1.KeyAt nb1.GetSize).bind (fun k => p1.SetKeyAt index k) with
          | none => none
          | some p2 => some (t.withPool (bpm1.write parent (BPlusTreePage.internal p2)))
        | _, _ => none

/-- Source `BPlusTree::Coalesce(InternalPage *&neighbor_node, InternalPage *&node, parent, index)`;
`cor` is the recursive call `CoalesceOrRedistribute(parent)`. -/
def CoalesceInternal (cor : BPlusTree → page_id_t → Option (BPlusTree × Bool)) (t : BPlusTree)
    (neighbor_node node parent : page_id_t) (index : Nat) : Option (BPlusTree × Bool) :=
  let bpm := t.buffer_pool_manager_
  match bpm.internalAt parent with
  | none => none
  | some p =>
    let merged : Option BufferPoolManager :=
      if index = 0 then
        match (p.KeyAt 1).bind (fun k => bpm.InternalMoveAllTo neighbor_node node k) with
        | none => none
        | some bpm1 =>
          match (bpm1.internalAt parent).bind (fun p1 => p1.Remove 1) with
          | none => none
          | some p2 =>
            some ((bpm1.write parent (BPlusTreePage.internal p2)).DeletePage neighbor_node)
      else
        match (p.KeyAt index).bind (fun k => bpm.InternalMoveAllTo node neighbor_node k) with
        | none => none
        | some bpm1 =>
          match (bpm1.internalAt parent).bind (fun p1 => p1.Remove index) with
          | none => none
          | some p2 =>
            some ((bpm1.write parent (BPlusTreePage.internal p2)).DeletePage node)
    match merged with
    | none => none
    | some bpm2 =>
      match cor (t.withPool bpm2) parent with
      | none => none
      | some (t1, true) => some (t1.withPool (t1.buffer_pool_manager_.DeletePage parent), true)
      | some (t1, false) => some (t1.withPool (t1.buffer_pool_manager_.UnpinPage parent true), true)

/-- Source `BPlusTree::CoalesceOrRedistribute<InternalPage>(node)`. -/
def CoalesceOrRedistributeInternal : Nat → BPlusTree → page_id_t → Option (BPlusTree × Bool)
  | 0, _, _ => none
  | fuel + 1, t, node =>
    match t.buffer_pool_manager_.internalAt node with
    | none => none
    | some nd =>
      if nd.IsRootPage then t.AdjustRoot node
      else
        match t.buffer_pool_manager_.FetchPage nd.parent_page_id with
        | some (bpm1, BPlusTreePage.internal parent) =>
          match parent.ValueIndex node with
          | none => none
          | some index =>
            let sibling_index := if index = 0 then 1 else index - 1
            match parent.ValueAt sibling_index with
            | none => none
            | some sibling =>
              match bpm1.FetchPage sibling with
              | some (bpm2, BPlusTreePage.internal sb) =>
                if nd.GetSize ≥ nd.GetMinSize then some (t.withPool bpm2, false)
                else if sb.GetSize + nd.GetSize > nd.GetMaxSize then
                  match RedistributeInternal (t.withPool bpm2) sibling node nd.parent_page_id index with
                  | none => none
                  | some t1 =>
                    some (t1.withPool ((t1.buffer_pool_manager_.UnpinPage sibling true).UnpinPage
                      nd.parent_page_id true), false)
                else
                  match CoalesceInternal (CoalesceOrRedistributeInternal fuel) (t.withPool bpm2)
                      sibling node nd.parent_page_id index with
                  | none => none
                  | some (t1, _) =>
                    some (t1.withPool ((t1.buffer_pool_manager_.UnpinPage sibling false).UnpinPage
                      nd.parent_page_id true), true)
              | _ => none
        | _ => none

/-- Source `BPlusTree::Coalesce(LeafPage *&neighbor_node, LeafPage *&node, parent, index)`. -/
def CoalesceLeaf (fuel : Nat) (t : BPlusTree) (neighbor_node node parent : page_id_t) (index : Nat) :
    Option (BPlusTree × Bool) :=
  let bpm := t.buffer_pool_manager_
  match bpm.leafAt neighbor_node, bpm.leafAt node, bpm.internalAt parent with
  | some nb, some nd, some p =>
    let merged : Option BufferPoolManager :=
      if index = 0 then
        match p.Remove 1 with
        | none => none
        | some p1 =>
          some ((((bpm.write node (BPlusTreePage.leaf (nb.MoveAllTo nd).2)).write neighbor_node
            (BPlusTreePage.leaf (nb.MoveAllTo nd).1)).write parent
            (BPlusTreePage.internal p1)).DeletePage neighbor_node)
      else
        match p.Remove index with
        | none => none
        | some p1 =>
          some ((((bpm.write neighbor_node (BPlusTreePage.leaf (nd.MoveAllTo nb).2)).write node
            (BPlusTreePage.leaf (nd.MoveAllTo nb).1)).write parent
            (BPlusTreePage.internal p1)).DeletePage node)
    match merged with
    | none => none
    | some bpm1 =>
      match CoalesceOrRedistributeInternal fuel (t.withPool bpm1) parent with
      | none => none
      | some (t1, true) => some (t1, true)
      | some (t1, false) => some (t1.withPool (t1.buffer_pool_manager_.UnpinPage parent true), true)
  | _, _, _ => none

/-- Source `BPlusTree::CoalesceOrRedistribute<LeafPage>(node)`. -/
def CoalesceOrRedistributeLeaf (fuel : Nat) (t : BPlusTree) (node : page_id_t) :
    Option (BPlusTree × Bool) :=
  match t.buffer_pool_manager_.leafAt node with
  | none => none
  | some nd =>
    if nd.IsRootPage then t.AdjustRoot node
    else
      match t.buffer_pool_manager_.FetchPage nd.parent_page_id with
      | some (bpm1, BPlusTreePage.internal parent) =>
        match parent.ValueIndex node with
        | none => none
        | some index =>
          let sibling_index := if index = 0 then 1 else index - 1
          match parent.ValueAt sibling_index with
          | none => none
          | some sibling =>
            match bpm1.FetchPage sibling with
            | some (bpm2, BPlusTreePage.leaf sb) =>
              if nd.GetSize ≥ nd.GetMinSize then some (t.withPool bpm2, false)
              else if sb.GetSize + nd.GetSize > nd.GetMaxSize then
                match RedistributeLeaf (t.withPool bpm2) sibling node nd.parent_page_id index with
                | none => none
                | some t1 =>
                  some (t1.withPool ((t1.buffer_pool_manager_.UnpinPage sibling true).UnpinPage
                    nd.parent_page_id true), false)
              else
                match CoalesceLeaf fuel (t.withPool bpm2) sibling node nd.parent_page_id index with
                | none => none
                | some (t1, _) =>
                  some (t1.withPool ((t1.buffer_pool_manager_.UnpinPage sibling false).UnpinPage
                    nd.parent_page_id true), true)
            | _ => none
      | _ => none

/-- The `while (1)` loop of `BPlusTree::Remove` that walks up the parent chain;
`parent` is the fetched ancestor, `now` the page on the path below it and
`new_key` the pointer `leaf->KeyAt(0)`. -/
def bubbleUp : Nat → BPlusTree → page_id_t → page_id_t → Option GenericKey → Option BPlusTree
  | 0, _, _, _, _ => none
  | fuel + 1, t, parent, now, new_key =>
    match t.buffer_pool_manager_.internalAt parent with
    | none => none
    | some p =>
      match p.ValueIndex now with
      | none => none
      | some i =>
        if i > 0 then
          match new_key.bind (fun k => p.SetKeyAt i k) with
          | none => none
          | some p1 =>
            some (t.withPool (t.buffer_pool_manager_.write parent (BPlusTreePage.internal p1)))
        else if p.IsRootPage then some t
        else
          match t.buffer_pool_manager_.FetchPage p.parent_page_id with
          | none => none
          | some (bpm1, _) => bubbleUp fuel (t.withPool bpm1) p.parent_page_id parent new_key

/-- Source `BPlusTree::Remove(key)`. -/
def Remove (fuel : Nat) (t : BPlusTree) (key : GenericKey) : Option BPlusTree :=
  if t.IsEmpty then some t
  else
    match FindLeafPage fuel t key t.root_page_id_ false with
    | none => none
    | some (t1, leaf) =>
      match t1.buffer_pool_manager_.leafAt leaf with
      | none => none
      | some l =>
        if (l.RemoveAndDeleteRecord key).2 then
          let l1 := (l.RemoveAndDeleteRecord key).1
          let t2 := t1.withPool (t1.buffer_pool_manager_.write leaf (BPlusTreePage.leaf l1))
          let walked : Option BPlusTree :=
            if !l1.IsRootPage then
              match t2.buffer_pool_manager_.FetchPage l1.parent_page_id with
              | none => none
              | some (bpm1, _) => bubbleUp fuel (t2.withPool bpm1) l1.parent_page_id leaf (l1.KeyAt 0)
            else some t2
          match walked with
          | none => none
          | some t3 =>
            if l1.GetSize < l1.GetMinSize then
              match CoalesceOrRedistributeLeaf fuel t3 leaf with
              | none => none
              | some (t4, true) => some t4
              | some (t4, false) => some (t4.withPool (t4.buffer_pool_manager_.UnpinPage leaf true))
            else some (t3.withPool (t3.buffer_pool_manager_.UnpinPage leaf false))
        else some (t1.withPool (t1.buffer_pool_manager_.UnpinPage leaf false))

/-- The iterator position `(page_id, slot_index)`. -/
structure IndexIterator where
  page_id : page_id_t
  index : Nat
deriving DecidableEq

/-- Source `BPlusTree::Begin()`; the null key of the call is written as 0, the descent
does not read it. -/
def Begin (fuel : Nat) (t : BPlusTree) : Option (BPlusTree × IndexIterator) :=
  if t.root_page_id_ = INVALID_PAGE_ID then some (t, { page_id := INVALID_PAGE_ID, index := 0 })
  else
    match FindLeafPage fuel t 0 t.root_page_id_ true with
    | none => none
    | some (t1, leaf) => some (t1, { page_id := leaf, index := 0 })

/-- Source `BPlusTree::Begin(const GenericKey *key)`. -/
def BeginKey (fuel : Nat) (t : BPlusTree) (key : GenericKey) : Option (BPlusTree × IndexIterator) :=
  if t.root_page_id_ = INVALID_PAGE_ID then some (t, { page_id := INVALID_PAGE_ID, index := 0 })
  else
    match FindLeafPage fuel t key t.root_page_id_ false with
    | none => none
    | some (t1, leaf) =>
      match t1.buffer_pool_manager_.leafAt leaf with
      | none => none
      | some l => some (t1, { page_id := leaf, index := l.KeyIndex key })

/-- The `for` loop of `BPlusTree::Destroy` over the children of the internal page in
frame `internal`, from slot `i` on; `destroy` is the recursive call and `budget`
bounds the number of iterations. -/
def destroyChildren (destroy : BPlusTree → page_id_t → Option BPlusTree) (internal : page_id_t) :
    Nat → Nat → BPlusTree → Option BPlusTree
  | 0, _, _ => none
  | budget + 1, i, t =>
    match t.buffer_pool_manager_.internalAt internal with
    | none => none
    | some n =>
      if i < n.GetSize then
        match n.ValueAt i with
        | none => none
        | some c =>
          match destroy t c with
          | none => none
          | some t1 => destroyChildren destroy internal budget (i + 1) t1
      else some t

/-- Source `BPlusTree::Destroy(current_page_id)`. -/
def Destroy : Nat → BPlusTree → page_id_t → Option BPlusTree
  | 0, _, _ => none
  | fuel + 1, t, current_page_id =>
    match t.buffer_pool_manager_.FetchPage current_page_id with
    | none => some t
    | some (bpm1, BPlusTreePage.leaf _) =>
      some (t.withPool ((bpm1.UnpinPage current_page_id false).DeletePage current_page_id))
    | some (bpm1, BPlusTreePage.internal internal) =>
      match destroyChildren (Destroy fuel) current_page_id (internal.GetSize + 1) 0
          (t.withPool bpm1) with
      | none => none
      | some t1 =>
        some (t1.withPool ((t1.buffer_pool_manager_.UnpinPage current_page_id false).DeletePage
          current_page_id))

end BPlusTree

/-! ## Sequences of calls and reachable states -/

/-- A top-level call on the index. -/
inductive Op where
  | insert (key : GenericKey) (value : RowId)
  | remove (key : GenericKey)
deriving DecidableEq

/-- Runs a sequence of calls, each with the recursion budget `fuel`; `none` when a
call does not return. -/
def applyOps (fuel : Nat) : BPlusTree → List Op → Option BPlusTree
  | t, [] => some t
  | t, Op.insert key value :: ops =>
    match t.Insert fuel key value with
    | none => none
    | some (t1, _) => applyOps fuel t1 ops
  | t, Op.remove key :: ops =>
    match t.Remove fuel key with
    | none => none
    | some t1 => applyOps fuel t1 ops

/-- The tree states reachable from a freshly constructed empty tree by `Insert` and
`Remove` calls that return. -/
inductive Reachable : BPlusTree → Prop where
  | empty (index_id : index_id_t) (leaf_max_size internal_max_size : Nat) :
      Reachable (BPlusTree.create index_id BufferPoolManager.fresh leaf_max_size internal_max_size)
  | insert {t t1 : BPlusTree} (fuel : Nat) (key : GenericKey) (value : RowId) (res : Bool) :
      Reachable t → t.Insert fuel key value = some (t1, res) → Reachable t1
  | remove {t t1 : BPlusTree} (fuel : Nat) (key : GenericKey) :
      Reachable t → t.Remove fuel key = some t1 → Reachable t1

/-- Ascending inserts `(lo, lo), (lo+1, lo+1), …` (`n` of them). -/
def insertRange (lo : Nat) : Nat → List Op
  | 0 => []
  | n + 1 => Op.insert lo lo :: insertRange (lo + 1) n

/-- Descending inserts `(hi, hi), (hi-1, hi-1), …, (1, 1)`. -/
def insertDown : Nat → List Op
  | 0 => []
  | hi + 1 => Op.insert (hi + 1) (hi + 1) :: insertDown hi

/-- The leaf the descent of `FindLeafPage` ends in, read off the page store alone
(no pinning). -/
def descend (pages : page_id_t → Option BPlusTreePage) :
    Nat → GenericKey → page_id_t → Bool → Option page_id_t
  | 0, _, _, _ => none
  | fuel + 1, key, id, leftMost =>
    match pages id with
    | none => none
    | some (BPlusTreePage.leaf _) => some id
    | some (BPlusTreePage.internal n) =>
      if leftMost then
        match n.ValueAt 0 with
        | none => none
        | some c => descend pages fuel key c leftMost
      else
        match n.Lookup key with
        | none => none
        | some c => descend pages fuel key c leftMost

/-- The minimum key stored in the subtree of page `id`: the first key of the leaf a
leftmost descent from `id` ends in. -/
def subtreeMinKey (bpm : BufferPoolManager) (fuel : Nat) (id : page_id_t) : Option GenericKey :=
  ((descend bpm.pages fuel 0 id true).bind bpm.leafAt).bind (fun l => l.KeyAt 0)

/-- The entries met by following `next_page_id` from the leaf `id` until
INVALID_PAGE_ID, in the order of the visit. -/
def leafChain (bpm : BufferPoolManager) : Nat → page_id_t → Option (List (GenericKey × RowId))
  | 0, _ => none
  | fuel + 1, id =>
    if id = INVALID_PAGE_ID then some []
    else
      match bpm.leafAt id with
      | none => none
      | some l => (leafChain bpm fuel l.next_page_id).map (fun rest => l.slots ++ rest)

/-- A well-formed tree of height `h` below page `id`: leaves at depth `h` exactly,
every internal node with at least one child. -/
def wellShaped (pages : page_id_t → Option BPlusTreePage) : Nat → page_id_t → Bool
  | 0, id =>
    match pages id with
    | some (BPlusTreePage.leaf _) => true
    | _ => false
  | h + 1, id =>
    match pages id with
    | some (BPlusTreePage.internal n) =>
      !n.slots.isEmpty && n.slots.all (fun e => wellShaped pages h e.2)
    | _ => false

/-- The pages of the subtree of height `h` below page `id` in post-order: the
subtrees of the children from left to right, then the page itself. -/
def postOrder (pages : page_id_t → Option BPlusTreePage) : Nat → page_id_t → List page_id_t
  | 0, id => [id]
  | h + 1, id =>
    match pages id with
    | some (BPlusTreePage.internal n) =>
      (n.slots.map (fun e => postOrder pages h e.2)).flatten ++ [id]
    | _ => [id]

/-- The pool calls of a post-order destruction of the subtree of height `h` below
page `id`, each page fetched once, unpinned clean and then deleted with no pin
left on it. -/
def destroyLog (pages : page_id_t → Option BPlusTreePage) : Nat → page_id_t → List PoolEvent
  | 0, id => [PoolEvent.fetch id, PoolEvent.unpin id false, PoolEvent.delete id 0]
  | h + 1, id =>
    match pages id with
    | some (BPlusTreePage.internal n) =>
      PoolEvent.fetch id :: (n.slots.map (fun e => destroyLog pages h e.2)).flatten ++
        [PoolEvent.unpin id false, PoolEvent.delete id 0]
    | _ => [PoolEvent.fetch id, PoolEvent.unpin id false, PoolEvent.delete id 0]

/-- The pages deleted by a run of pool calls, in the order of the deletions. -/
def deletedPages : List PoolEvent → List page_id_t
  | [] => []
  | PoolEvent.delete id _ :: es => id :: deletedPages es
  | _ :: es => deletedPages es

/-- The pool calls of a descent from page `id`: every internal node on the way is
fetched and unpinned clean before its child is fetched; the leaf is fetched
last and stays pinned. -/
def descentLog (pages : page_id_t → Option BPlusTreePage) :
    Nat → GenericKey → page_id_t → Bool → List PoolEvent
  | 0, _, _, _ => []
  | fuel + 1, key, id, leftMost =>
    match pages id with
    | some (BPlusTreePage.internal n) =>
      match (if leftMost then n.ValueAt 0 else n.Lookup key) with
      | none => [PoolEvent.fetch id]
      | some c =>
        PoolEvent.fetch id :: PoolEvent.unpin id false :: descentLog pages fuel key c leftMost
    | _ => [PoolEvent.fetch id]

/-- The state `t1` is the state `t` after the pool calls `evs` that freed exactly
the pages `ids`: the log grew by `evs`, the pages `ids` are free, every other
page is as before, and so are the pin counts, the root and the registry. -/
def FreedBy (t t1 : BPlusTree) (ids : List page_id_t) (evs : List PoolEvent) : Prop :=
  t1.buffer_pool_manager_.log = t.buffer_pool_manager_.log ++ evs ∧
  (∀ x, t1.buffer_pool_manager_.pages x =
    if x ∈ ids then none else t.buffer_pool_manager_.pages x) ∧
  (∀ x, t1.buffer_pool_manager_.pin_count x = t.buffer_pool_manager_.pin_count x) ∧
  t1.root_page_id_ = t.root_page_id_ ∧
  t1.buffer_pool_manager_.roots = t.buffer_pool_manager_.roots

/-- The pool holds no pin above the per-page bound `u`. -/
def PinLe (bpm : BufferPoolManager) (u : page_id_t → Nat) : Prop :=
  ∀ id, bpm.pin_count id ≤ u id

/-- The bound `u` with one more pin allowed on page `id`. -/
def bump (u : page_id_t → Nat) (id : page_id_t) : page_id_t → Nat :=
  fun i => if i = id then u i + 1 else u i

/-- The tree `t1` differs from `t` in pin counts and in the call log of the pool at
most: same root, same configuration, same pages, same registry, same allocator. -/
def SameContent (t t1 : BPlusTree) : Prop :=
  t1.root_page_id_ = t.root_page_id_ ∧ t1.index_id_ = t.index_id_ ∧
  t1.leaf_max_size_ = t.leaf_max_size_ ∧ t1.internal_max_size_ = t.internal_max_size_ ∧
  t1.buffer_pool_manager_.pages = t.buffer_pool_manager_.pages ∧
  t1.buffer_pool_manager_.roots = t.buffer_pool_manager_.roots ∧
  t1.buffer_pool_manager_.next_page_id = t.buffer_pool_manager_.next_page_id

/-! ## The shape of an insert-only tree -/

/-- What a scan of the leaf chain reads of page `x`: the successor link and the
entries when the page is a leaf. -/
def leafView (pg : page_id_t → Option BPlusTreePage) (x : page_id_t) :
    Option (page_id_t × List (GenericKey × RowId)) :=
  match pg x with
  | some (BPlusTreePage.leaf l) => some (l.next_page_id, l.slots)
  | _ => none

/-- What a leftmost descent reads of a page: nothing of a leaf, the child of slot 0
of an internal node. -/
def spine : BPlusTreePage → Option (Option page_id_t)
  | BPlusTreePage.leaf _ => none
  | BPlusTreePage.internal n => some (n.ValueAt 0)

/-- Every page of `pg` is still a page of `pg1`, of the same kind and with the same
child in slot 0. -/
def Ext (pg pg1 : page_id_t → Option BPlusTreePage) : Prop :=
  ∀ x p, pg x = some p → ∃ p1, pg1 x = some p1 ∧ spine p1 = spine p

/-- The node-local shape of the pages of a tree with root `r` in which every page is
a tree node: page ids lie in `[2, nx)`; the children of an internal node are
distinct pages one level down (`ht`) that name it as parent; leaves and
internal nodes are not empty; a page whose parent is INVALID_PAGE_ID is the
root and any other page is a child of its parent.  The page `ex` is exempt from
the last condition and is the child of no node (a node that was split off and
is not yet entered in its parent). -/
structure Core (pg : page_id_t → Option BPlusTreePage) (nx r : page_id_t)
    (ht : page_id_t → Nat) (ex : page_id_t) : Prop where
  live : ∀ x p, pg x = some p → 2 ≤ x ∧ x < nx
  node : ∀ x n, pg x = some (BPlusTreePage.internal n) →
    n.slots ≠ [] ∧ (n.slots.map Prod.snd).Nodup ∧
    ∀ c ∈ n.slots.map Prod.snd, c ≠ ex ∧
      ∃ q, pg c = some q ∧ q.GetParentPageId = x ∧ ht c + 1 = ht x
  leaf : ∀ x l, pg x = some (BPlusTreePage.leaf l) → ht x = 0 ∧ l.slots ≠ []
  up : ∀ x p, pg x = some p → x ≠ ex →
    (p.GetParentPageId = INVALID_PAGE_ID → x = r) ∧
    (p.GetParentPageId ≠ INVALID_PAGE_ID →
      ∃ n, pg p.GetParentPageId = some (BPlusTreePage.internal n) ∧ x ∈ n.slots.map Prod.snd)
  root : ∃ p, pg r = some p ∧ p.GetParentPageId = INVALID_PAGE_ID
  top : ∀ x p, pg x = some p → ht x ≤ ht r

/-- The tree parameters that no call changes. -/
def SameCaps (t t1 : BPlusTree) : Prop :=
  t1.leaf_max_size_ = t.leaf_max_size_ ∧ t1.internal_max_size_ = t.internal_max_size_ ∧
  t1.index_id_ = t.index_id_

/-- The leftmost leaf below `r` in `pg` is still the leftmost leaf below `r1` in `pg1`. -/
def Spine (pg : page_id_t → Option BPlusTreePage) (r : page_id_t)
    (pg1 : page_id_t → Option BPlusTreePage) (r1 : page_id_t) : Prop :=
  ∀ f hd, descend pg f 0 r true = some hd → ∃ f1, descend pg1 f1 0 r1 true = some hd

/-- What the walk of `InsertIntoParent` up the tree leaves behind: a tree whose pages
have the node-local shape again, at most one level higher; the leaves hold the
same entries and links as before and the leftmost leaf is the same. -/
structure Ascent (t : BPlusTree) (ht : page_id_t → Nat) (t1 : BPlusTree) : Prop where
  core : ∃ ht1, Core t1.buffer_pool_manager_.pages t1.buffer_pool_manager_.next_page_id
    t1.root_page_id_ ht1 INVALID_PAGE_ID ∧ ht1 t1.root_page_id_ ≤ ht t.root_page_id_ + 1
  view : ∀ x, leafView t1.buffer_pool_manager_.pages x = leafView t.buffer_pool_manager_.pages x
  spine : Spine t.buffer_pool_manager_.pages t.root_page_id_
    t1.buffer_pool_manager_.pages t1.root_page_id_
  caps : SameCaps t t1

/-- The pages `Ls` are leaves, each linked to the next one of the list and the last
one to `last`. -/
def LinkedTo (pg : page_id_t → Option BPlusTreePage) : List page_id_t → page_id_t → Prop
  | [], _ => True
  | a :: rest, last =>
    (leafView pg a).map Prod.fst = some (rest.headD last) ∧ LinkedTo pg rest last

/-- The entries of the leaves `Ls`, in the order of the list. -/
def chainEntries (pg : page_id_t → Option BPlusTreePage) (Ls : List page_id_t) :
    List (GenericKey × RowId) :=
  (Ls.map (fun a => ((leafView pg a).map Prod.snd).getD [])).flatten

/-- The leaf chain of the tree with root `r`: `Ls` lists every leaf page once, in the
order of the `next_page_id` links, which end in INVALID_PAGE_ID; its first
leaf is the one a leftmost descent from the root ends in; the entries of the
leaves are, up to order, the pairs `E`. -/
structure Chain (pg : page_id_t → Option BPlusTreePage) (r : page_id_t)
    (Ls : List page_id_t) (E : List (GenericKey × RowId)) : Prop where
  nodup : Ls.Nodup
  all : ∀ x, (leafView pg x).isSome = true → x ∈ Ls
  linked : LinkedTo pg Ls INVALID_PAGE_ID
  entries : (chainEntries pg Ls).Perm E
  first : ∃ f hd, Ls.head? = some hd ∧ descend pg f 0 r true = some hd

/-- The state of a non-empty tree that holds the pairs `E`: the pages have the
node-local shape, the leaf chain holds `E`, and the height and the number of
leaves are bounded by the number of pairs. -/
def TreeInv (t : BPlusTree) (E : List (GenericKey × RowId)) : Prop :=
  ∃ ht Ls, Core t.buffer_pool_manager_.pages t.buffer_pool_manager_.next_page_id
      t.root_page_id_ ht INVALID_PAGE_ID ∧
    Chain t.buffer_pool_manager_.pages t.root_page_id_ Ls E ∧
    ht t.root_page_id_ < E.length ∧ Ls.length ≤ E.length

/-- The calls `Insert(k, row)` for the pairs of a list, in the order of the list. -/
def insertAll (l : List (GenericKey × RowId)) : List Op :=
  l.map (fun e => Op.insert e.1 e.2)

/-- The pairs reachable via the leaf chain: the entries met from the position
`Begin()` returns, following `next_page_id` to the end. -/
def scanLeafChain (fuel : Nat) (t : BPlusTree) : Option (List (GenericKey × RowId)) :=
  match t.Begin fuel with
  | none => none
  | some (t1, it) => leafChain t1.buffer_pool_manager_ fuel it.page_id

/-- The state of an empty tree on a pool that holds no tree page. -/
def EmptyInv (t : BPlusTree) : Prop :=
  t.root_page_id_ = INVALID_PAGE_ID ∧ (∀ x, t.buffer_pool_manager_.pages x = none) ∧
  2 ≤ t.buffer_pool_manager_.next_page_id

/-- The state of a tree that holds the pairs `E`, empty or not. -/
def GenInv (t : BPlusTree) (E : List (GenericKey × RowId)) : Prop :=
  (E = [] ∧ EmptyInv t) ∨ TreeInv t E

/-! ## Leaf depth -/

/-- A rank function `rk` fits the page store: every page has an id below the allocator
mark `nx`, every leaf has rank 0, and every child pointer of an internal node
names an id below `nx` whose rank is one less than the rank of the node. -/
def Ranked (pg : page_id_t → Option BPlusTreePage) (nx : page_id_t) (rk : page_id_t → Nat) : Prop :=
  (∀ x p, pg x = some p → x < nx) ∧
  (∀ x l, pg x = some (BPlusTreePage.leaf l) → rk x = 0) ∧
  (∀ x n, pg x = some (BPlusTreePage.internal n) →
    ∀ e ∈ n.slots, e.2 < nx ∧ rk e.2 + 1 = rk x)

/-- A path of child pointers leads from page `x` through `d` internal nodes to a leaf. -/
inductive LeafAtDepth (pg : page_id_t → Option BPlusTreePage) : page_id_t → Nat → Prop where
  | leaf {x : page_id_t} {l : LeafPage} : pg x = some (BPlusTreePage.leaf l) → LeafAtDepth pg x 0
  | step {x c : page_id_t} {n : InternalPage} {d : Nat} :
      pg x = some (BPlusTreePage.internal n) → c ∈ n.slots.map Prod.snd →
      LeafAtDepth pg c d → LeafAtDepth pg x (d + 1)

/-- The rank function `rk` fits the pages of the pool `bpm`. -/
def RankedPool (bpm : BufferPoolManager) (rk : page_id_t → Nat) : Prop :=
  Ranked bpm.pages bpm.next_page_id rk

/-! ## Concrete runs -/

set_option maxRecDepth 1000000 in
/-- Leaf and internal capacity 4: the keys 1..6 inserted in increasing order. -/
def tree6 : BPlusTree :=
  (applyOps 5 (BPlusTree.create 0 BufferPoolManager.fresh 4 4) (insertRange 1 6)).get (by decide)

set_option maxRecDepth 1000000 in
/-- Leaf and internal capacity 4: the keys 1..13 inserted in increasing order. -/
def tree13 : BPlusTree :=
  (applyOps 5 (BPlusTree.create 0 BufferPoolManager.fresh 4 4) (insertRange 1 13)).get (by decide)

set_option maxRecDepth 1000000 in
/-- Leaf and internal capacity 4: the keys 1..14 inserted in increasing order. -/
def tree14 : BPlusTree :=
  (applyOps 5 (BPlusTree.create 0 BufferPoolManager.fresh 4 4) (insertRange 1 14)).get (by decide)

set_option maxRecDepth 1000000 in
/-- Leaf and internal capacity 3: the keys 0..15 inserted in increasing order, then
`Remove(0)`. -/
def treeFreedRoot : BPlusTree :=
  (applyOps 6 (BPlusTree.create 0 BufferPoolManager.fresh 3 3)
    (insertRange 0 16 ++ [Op.remove 0])).get (by decide)

set_option maxRecDepth 1000000 in
/-- Leaf and internal capacity 3: the keys 15, 14, …, 1 inserted in decreasing order. -/
def treeDown15 : BPlusTree :=
  (applyOps 6 (BPlusTree.create 0 BufferPoolManager.fresh 3 3) (insertDown 15)).get (by decide)

set_option maxRecDepth 1000000 in
/-- Leaf and internal capacity 3: the keys 0..31 inserted in increasing order, then
`Remove(16)`. -/
def treeFreedChild : BPlusTree :=
  (applyOps 7 (BPlusTree.create 0 BufferPoolManager.fresh 3 3)
    (insertRange 0 32 ++ [Op.remove 16])).get (by decide)

set_option maxRecDepth 1000000 in
/-- Leaf and internal capacity 4: the keys 10, 20, 30, 40, 50 inserted in this order. -/
def treeGap : BPlusTree :=
  (applyOps 5 (BPlusTree.create 0 BufferPoolManager.fresh 4 4)
    [Op.insert 10 10, Op.insert 20 20, Op.insert 30 30, Op.insert 40 40, Op.insert 50 50]).get
    (by decide)

set_option maxRecDepth 1000000 in
/-- Leaf and internal capacity 4: the keys 1..5 inserted in increasing order. -/
def tree5 : BPlusTree :=
  (applyOps 5 (BPlusTree.create 0 BufferPoolManager.fresh 4 4) (insertRange 1 5)).get (by decide)

set_option maxRecDepth 1000000 in
/-- Leaf and internal capacity 3: the keys 0..15 inserted in increasing order. -/
def tree16 : BPlusTree :=
  (applyOps 6 (BPlusTree.create 0 BufferPoolManager.fresh 3 3) (insertRange 0 16)).get (by decide)

set_option maxRecDepth 1000000 in
/-- Capacity 4: the root leaf 2 of the tree holding key 1, emptied in place (the
state `Remove(1)` hands to `AdjustRoot`). -/
def treeEmptiedLeafRoot : BPlusTree :=
  ((BPlusTree.create 0 BufferPoolManager.fresh 4 4).StartNewTree 1 1).withPool
    (((BPlusTree.create 0 BufferPoolManager.fresh 4 4).StartNewTree 1 1).buffer_pool_manager_.write 2
      (BPlusTreePage.leaf (LeafPage.Init INVALID_PAGE_ID 4)))

set_option maxRecDepth 1000000 in
/-- Capacity 4: the tree holding 1..5 with the internal root 4 cut down in place to its
leftmost child 2. -/
def treeOneChildRoot : BPlusTree :=
  tree5.withPool (tree5.buffer_pool_manager_.write 4
    (BPlusTreePage.internal { parent_page_id := INVALID_PAGE_ID, max_size := 4, slots := [(0, 2)] }))

set_option maxRecDepth 1000000 in
/-- Capacity 4: the tree holding 1..4 in the single leaf 2, after a fifth entry went
into the leaf and `Split` moved its upper half to the new leaf 3. -/
def treeSplitRootLeaf : BPlusTree :=
  ((((applyOps 5 (BPlusTree.create 0 BufferPoolManager.fresh 4 4) (insertRange 1 4)).get
    (by decide)).withPool
    (((applyOps 5 (BPlusTree.create 0 BufferPoolManager.fresh 4 4) (insertRange 1 4)).get
      (by decide)).buffer_pool_manager_.write 2
      (BPlusTreePage.leaf
        { parent_page_id := INVALID_PAGE_ID, max_size := 4, next_page_id := INVALID_PAGE_ID,
          slots := [(1, 1), (2, 2), (3, 3), (4, 4), (5, 5)] }))).SplitLeaf 2).get (by decide) |>.1

set_option maxRecDepth 1000000 in
/-- Leaf capacity 2, internal capacity 3: the keys 1, 2, 3 inserted in increasing order. -/
def treeSmallLeaves : BPlusTree :=
  (applyOps 5 (BPlusTree.create 0 BufferPoolManager.fresh 2 3) (insertRange 1 3)).get (by decide)

set_option maxRecDepth 1000000 in
/-- Leaf and internal capacity 4: the keys 1..7 inserted in increasing order, then
`Remove(1)`. -/
def treeBorrowRight : BPlusTree :=
  (applyOps 6 (BPlusTree.create 0 BufferPoolManager.fresh 4 4)
    (insertRange 1 7 ++ [Op.remove 1])).get (by decide)

set_option maxRecDepth 1000000 in
/-- Capacity 4: the tree above with key 2 taken out of leaf 2 in place (the state in
which `Remove(2)` calls `Redistribute` on leaf 2 and its right sibling 3). -/
def treeUnderflowLeft : BPlusTree :=
  treeBorrowRight.withPool (treeBorrowRight.buffer_pool_manager_.write 2
    (BPlusTreePage.leaf
      { parent_page_id := 4, max_size := 4, next_page_id := 3, slots := [(3, 3)] }))

set_option maxRecDepth 1000000 in
/-- Leaf and internal capacity 4: the keys 13, 12, …, 1 inserted in decreasing order. -/
def treeDown13 : BPlusTree :=
  (applyOps 6 (BPlusTree.create 0 BufferPoolManager.fresh 4 4) (insertDown 13)).get (by decide)

/-! ## Pin accounting -/

namespace BufferPoolManager

@[simp] theorem write_pin_count (bpm : BufferPoolManager) (id : page_id_t) (p : BPlusTreePage) :
    (bpm.write id p).pin_count = bpm.pin_count := rfl

@[simp] theorem write_next_page_id (bpm : BufferPoolManager) (id : page_id_t) (p : BPlusTreePage) :
    (bpm.write id p).next_page_id = bpm.next_page_id := rfl

@[simp] theorem write_roots (bpm : BufferPoolManager) (id : page_id_t) (p : BPlusTreePage) :
    (bpm.write id p).roots = bpm.roots := rfl

@[simp] theorem RootsInsert_pin_count (bpm : BufferPoolManager) (i : index_id_t) (r : page_id_t) :
    (bpm.RootsInsert i r).pin_count = bpm.pin_count := by
  unfold RootsInsert; split <;> rfl

@[simp] theorem RootsUpdate_pin_count (bpm : BufferPoolManager) (i : index_id_t) (r : page_id_t) :
    (bpm.RootsUpdate i r).pin_count = bpm.pin_count := by
  unfold RootsUpdate; split <;> rfl

end BufferPoolManager

theorem PinLe_write {bpm : BufferPoolManager} {u : page_id_t → Nat} (id : page_id_t)
    (p : BPlusTreePage) (hu : PinLe bpm u) : PinLe (bpm.write id p) u := hu

theorem PinLe_fetch {bpm bpm1 : BufferPoolManager} {id : page_id_t} {p : BPlusTreePage}
    {u : page_id_t → Nat} (h : bpm.FetchPage id = some (bpm1, p)) (hu : PinLe bpm u) :
    PinLe bpm1 (bump u id) := by
  unfold BufferPoolManager.FetchPage at h
  split at h
  · simp at h
  · simp only [Option.some.injEq, Prod.mk.injEq] at h
    obtain ⟨rfl, -⟩ := h
    intro i
    simp only [bump]
    split
    · subst i; have := hu id; omega
    · exact hu i

theorem PinLe_new {bpm : BufferPoolManager} {u : page_id_t → Nat} (hu : PinLe bpm u) :
    PinLe bpm.NewPage.1 (bump u bpm.NewPage.2) := by
  intro i
  simp only [BufferPoolManager.NewPage, bump]
  split
  · omega
  · exact hu i

theorem PinLe_unpin {bpm : BufferPoolManager} {u : page_id_t → Nat} {id : page_id_t} (dirty : Bool)
    (hu : PinLe bpm (bump u id)) : PinLe (bpm.UnpinPage id dirty) u := by
  intro i
  have h := hu i
  simp only [bump] at h
  simp only [BufferPoolManager.UnpinPage]
  split
  · subst i; simp at h; omega
  · rename_i hne; simpa [hne] using h

theorem PinLe_fetchRoots {bpm : BufferPoolManager} {u : page_id_t → Nat} (hu : PinLe bpm u) :
    PinLe bpm.FetchIndexRoots (bump u INDEX_ROOTS_PAGE_ID) := by
  intro i
  simp only [BufferPoolManager.FetchIndexRoots, bump]
  split
  · subst i; have := hu INDEX_ROOTS_PAGE_ID; omega
  · exact hu i

theorem PinLe_delete {bpm : BufferPoolManager} {u : page_id_t → Nat} (id : page_id_t)
    (hu : PinLe bpm u) : PinLe (bpm.DeletePage id) u := by
  intro i
  simp only [BufferPoolManager.DeletePage]
  split
  · omega
  · exact hu i

theorem PinLe_reparent {bpm bpm1 : BufferPoolManager} {u : page_id_t → Nat} {parent child : page_id_t}
    (h : bpm.reparent parent child = some bpm1) (hu : PinLe bpm u) : PinLe bpm1 u := by
  unfold BufferPoolManager.reparent at h
  split at h
  · simp at h
  · rename_i bpm2 p hf
    simp only [Option.some.injEq] at h
    subst h
    exact PinLe_unpin _ (PinLe_write _ _ (PinLe_fetch hf hu))

theorem PinLe_reparentAll (cs : List page_id_t) : ∀ {bpm bpm1 : BufferPoolManager}
    {u : page_id_t → Nat} {parent : page_id_t},
    bpm.reparentAll parent cs = some bpm1 → PinLe bpm u → PinLe bpm1 u := by
  induction cs with
  | nil =>
    intro bpm bpm1 u parent h hu
    simp only [BufferPoolManager.reparentAll, Option.some.injEq] at h
    subst h; exact hu
  | cons c cs ih =>
    intro bpm bpm1 u parent h hu
    simp only [BufferPoolManager.reparentAll] at h
    split at h
    · simp at h
    · rename_i bpm2 hr
      exact ih h (PinLe_reparent hr hu)

theorem PinLe_InternalMoveHalfTo {bpm bpm1 : BufferPoolManager} {u : page_id_t → Nat}
    {src dst : page_id_t} (h : bpm.InternalMoveHalfTo src dst = some bpm1) (hu : PinLe bpm u) :
    PinLe bpm1 u := by
  unfold BufferPoolManager.InternalMoveHalfTo at h
  split at h
  · exact PinLe_reparentAll _ h (PinLe_write _ _ (PinLe_write _ _ hu))
  · simp at h

namespace BPlusTree

@[simp] theorem withPool_pool (t : BPlusTree) (bpm : BufferPoolManager) :
    (t.withPool bpm).buffer_pool_manager_ = bpm := rfl

@[simp] theorem withPool_root (t : BPlusTree) (bpm : BufferPoolManager) :
    (t.withPool bpm).root_page_id_ = t.root_page_id_ := rfl

@[simp] theorem withPool_index (t : BPlusTree) (bpm : BufferPoolManager) :
    (t.withPool bpm).index_id_ = t.index_id_ := rfl

@[simp] theorem withPool_leaf_max (t : BPlusTree) (bpm : BufferPoolManager) :
    (t.withPool bpm).leaf_max_size_ = t.leaf_max_size_ := rfl

@[simp] theorem withPool_internal_max (t : BPlusTree) (bpm : BufferPoolManager) :
    (t.withPool bpm).internal_max_size_ = t.internal_max_size_ := rfl

@[simp] theorem withPool_IsEmpty (t : BPlusTree) (bpm : BufferPoolManager) :
    (t.withPool bpm).IsEmpty = t.IsEmpty := rfl

theorem PinLe_UpdateRootPageId (t : BPlusTree) (b : Bool) {u : page_id_t → Nat}
    (hu : PinLe t.buffer_pool_manager_ u) : PinLe (t.UpdateRootPageId b).buffer_pool_manager_ u := by
  unfold UpdateRootPageId
  simp only [withPool_pool]
  apply PinLe_unpin
  intro i
  have h := PinLe_fetchRoots hu i
  split <;> simpa using h

theorem FindLeafPage_pinLe (fuel : Nat) : ∀ (t : BPlusTree) (key : GenericKey) (pid : page_id_t)
    (lm : Bool) (t1 : BPlusTree) (leaf : page_id_t) (u : page_id_t → Nat),
    FindLeafPage fuel t key pid lm = some (t1, leaf) → PinLe t.buffer_pool_manager_ u →
    PinLe t1.buffer_pool_manager_ (bump u leaf) := by
  induction fuel with
  | zero => intro t key pid lm t1 leaf u h; simp [FindLeafPage] at h
  | succ n ih =>
    intro t key pid lm t1 leaf u h hu
    simp only [FindLeafPage] at h
    split at h
    · simp at h
    · split at h
      · simp at h
      · rename_i bpm1 l hf
        simp only [Option.some.injEq, Prod.mk.injEq] at h
        obtain ⟨rfl, rfl⟩ := h
        exact PinLe_fetch hf hu
      · rename_i bpm1 ip hf
        split at h
        · split at h
          · simp at h
          · exact ih _ _ _ _ _ _ _ h (PinLe_unpin _ (PinLe_fetch hf hu))
        · split at h
          · simp at h
          · exact ih _ _ _ _ _ _ _ h (PinLe_unpin _ (PinLe_fetch hf hu))

theorem GetValue_pinLe {fuel : Nat} {t t1 : BPlusTree} {key : GenericKey} {result res : List RowId}
    {found : Bool} {u : page_id_t → Nat}
    (h : t.GetValue fuel key result = some (t1, found, res))
    (hu : PinLe t.buffer_pool_manager_ u) : PinLe t1.buffer_pool_manager_ u := by
  unfold GetValue at h
  split at h
  · simp only [Option.some.injEq, Prod.mk.injEq] at h
    obtain ⟨rfl, -⟩ := h; exact hu
  · split at h
    · simp at h
    · rename_i t2 leaf hf
      have hp := FindLeafPage_pinLe _ _ _ _ _ _ _ _ hf hu
      split at h
      · simp at h
      · split at h <;>
        · simp only [Option.some.injEq, Prod.mk.injEq] at h
          obtain ⟨rfl, -⟩ := h
          exact PinLe_unpin _ hp

theorem SplitLeaf_pinLe {t t1 : BPlusTree} {node new_leaf : page_id_t} {u : page_id_t → Nat}
    (h : t.SplitLeaf node = some (t1, new_leaf)) (hu : PinLe t.buffer_pool_manager_ u) :
    PinLe t1.buffer_pool_manager_ u := by
  unfold SplitLeaf at h
  dsimp only at h
  split at h
  · simp at h
  · simp only [Option.some.injEq, Prod.mk.injEq] at h
    obtain ⟨rfl, -⟩ := h
    exact PinLe_unpin _ (PinLe_write _ _ (PinLe_write _ _ (PinLe_new hu)))

theorem SplitInternal_pinLe {t t1 : BPlusTree} {node new_node : page_id_t} {u : page_id_t → Nat}
    (h : t.SplitInternal node = some (t1, new_node)) (hu : PinLe t.buffer_pool_manager_ u) :
    PinLe t1.buffer_pool_manager_ u := by
  unfold SplitInternal at h
  dsimp only at h
  split at h
  · simp at h
  · split at h
    · simp at h
    · rename_i bpm3 hm
      simp only [Option.some.injEq, Prod.mk.injEq] at h
      obtain ⟨rfl, -⟩ := h
      exact PinLe_unpin _ (PinLe_InternalMoveHalfTo hm (PinLe_write _ _ (PinLe_new hu)))

theorem InsertIntoParent_pinLe (fuel : Nat) : ∀ (t t1 : BPlusTree) (old_node : page_id_t)
    (key : GenericKey) (new_node : page_id_t) (u : page_id_t → Nat),
    InsertIntoParent fuel t old_node key new_node = some t1 → PinLe t.buffer_pool_manager_ u →
    PinLe t1.buffer_pool_manager_ u := by
  induction fuel with
  | zero => intro t t1 o k n u h; simp [InsertIntoParent] at h
  | succ m ih =>
    intro t t1 o k n u h hu
    simp only [InsertIntoParent] at h
    split at h
    · simp at h
    · split at h
      · split at h
        · simp at h
        · simp only [Option.some.injEq] at h
          subst h
          simp only [withPool_pool]
          apply PinLe_unpin
          apply PinLe_UpdateRootPageId
          exact PinLe_write _ _ (PinLe_write _ _ (PinLe_write _ _ (PinLe_new hu)))
      · split at h
        · rename_i bpm1 parent_page hf
          split at h
          · simp at h
          · split at h
            · split at h
              · simp at h
              · rename_i t2 new_parent hs
                split at h
                · simp at h
                · split at h
                  · simp at h
                  · rename_i t3 hrec
                    simp only [Option.some.injEq] at h
                    subst h
                    simp only [withPool_pool]
                    apply PinLe_unpin
                    apply ih _ _ _ _ _ _ hrec
                    apply SplitInternal_pinLe hs
                    simp only [withPool_pool]
                    exact PinLe_write _ _ (PinLe_fetch hf hu)
            · simp only [Option.some.injEq] at h
              subst h
              simp only [withPool_pool]
              exact PinLe_unpin _ (PinLe_write _ _ (PinLe_fetch hf hu))
        · simp at h

theorem StartNewTree_pinLe (t : BPlusTree) (key : GenericKey) (value : RowId) {u : page_id_t → Nat}
    (hu : PinLe t.buffer_pool_manager_ u) : PinLe (t.StartNewTree key value).buffer_pool_manager_ u := by
  unfold StartNewTree
  simp only [withPool_pool]
  apply PinLe_unpin
  have h1 : (UpdateRootPageId (withPool
      { t with root_page_id_ := t.buffer_pool_manager_.NewPage.2,
               buffer_pool_manager_ := t.buffer_pool_manager_.NewPage.1 }
      (t.buffer_pool_manager_.NewPage.1.write t.buffer_pool_manager_.NewPage.2
        (BPlusTreePage.leaf ((LeafPage.Init INVALID_PAGE_ID t.leaf_max_size_).Insert key value).1)))
      true).root_page_id_ = t.buffer_pool_manager_.NewPage.2 := rfl
  rw [h1]
  apply PinLe_UpdateRootPageId
  exact PinLe_write _ _ (PinLe_new hu)

theorem InsertIntoLeaf_pinLe {fuel : Nat} {t t1 : BPlusTree} {key : GenericKey} {value : RowId}
    {res : Bool} {u : page_id_t → Nat} (h : t.InsertIntoLeaf fuel key value = some (t1, res))
    (hu : PinLe t.buffer_pool_manager_ u) : PinLe t1.buffer_pool_manager_ u := by
  unfold InsertIntoLeaf at h
  split at h
  · simp at h
  · rename_i t2 leaf hf
    have hp := FindLeafPage_pinLe _ _ _ _ _ _ _ _ hf hu
    split at h
    · simp at h
    · split at h
      · simp only [Option.some.injEq, Prod.mk.injEq] at h
        obtain ⟨rfl, -⟩ := h
        exact PinLe_unpin _ hp
      · split at h
        · dsimp only at h
          split at h
          · split at h
            · simp at h
            · rename_i t3 new_leaf hs
              split at h
              · simp at h
              · split at h
                · simp at h
                · rename_i t4 hip
                  simp only [Option.some.injEq, Prod.mk.injEq] at h
                  obtain ⟨rfl, -⟩ := h
                  simp only [withPool_pool]
                  apply PinLe_unpin
                  apply InsertIntoParent_pinLe _ _ _ _ _ _ _ hip
                  apply SplitLeaf_pinLe hs
                  simp only [withPool_pool]
                  exact PinLe_write _ _ hp
          · simp only [Option.some.injEq, Prod.mk.injEq] at h
            obtain ⟨rfl, -⟩ := h
            simp only [withPool_pool]
            exact PinLe_unpin _ (PinLe_write _ _ hp)
        · simp only [Option.some.injEq, Prod.mk.injEq] at h
          obtain ⟨rfl, -⟩ := h
          exact PinLe_unpin _ hp

theorem Insert_pinLe {fuel : Nat} {t t1 : BPlusTree} {key : GenericKey} {value : RowId}
    {res : Bool} {u : page_id_t → Nat} (h : t.Insert fuel key value = some (t1, res))
    (hu : PinLe t.buffer_pool_manager_ u) : PinLe t1.buffer_pool_manager_ u := by
  unfold Insert at h
  split at h
  · simp only [Option.some.injEq, Prod.mk.injEq] at h
    obtain ⟨rfl, -⟩ := h
    exact StartNewTree_pinLe _ _ _ hu
  · exact InsertIntoLeaf_pinLe h hu

theorem CheckAllUnpinned_iff (bpm : BufferPoolManager) :
    bpm.CheckAllUnpinned ↔ PinLe bpm (fun _ => 0) := by
  unfold BufferPoolManager.CheckAllUnpinned PinLe
  constructor
  · intro h id; rw [h id]
  · intro h id; have := h id; simpa using this

end BPlusTree

/-! ## The descent and what it leaves unchanged -/

theorem FetchPage_eq_some {bpm bpm1 : BufferPoolManager} {id : page_id_t} {p : BPlusTreePage}
    (h : bpm.FetchPage id = some (bpm1, p)) :
    bpm.pages id = some p ∧ bpm1.pages = bpm.pages ∧ bpm1.roots = bpm.roots ∧
    bpm1.next_page_id = bpm.next_page_id := by
  unfold BufferPoolManager.FetchPage at h
  split at h
  · simp at h
  · rename_i q hq
    simp only [Option.some.injEq, Prod.mk.injEq] at h
    obtain ⟨rfl, rfl⟩ := h
    exact ⟨hq, rfl, rfl, rfl⟩

theorem FetchPage_of_page {bpm : BufferPoolManager} {id : page_id_t} {p : BPlusTreePage}
    (h : bpm.pages id = some p) : ∃ bpm1, bpm.FetchPage id = some (bpm1, p) := by
  unfold BufferPoolManager.FetchPage
  rw [h]
  exact ⟨_, rfl⟩

theorem FetchPage_none {bpm : BufferPoolManager} {id : page_id_t} (h : bpm.pages id = none) :
    bpm.FetchPage id = none := by
  unfold BufferPoolManager.FetchPage
  rw [h]

theorem SameContent.refl (t : BPlusTree) : SameContent t t :=
  ⟨rfl, rfl, rfl, rfl, rfl, rfl, rfl⟩

theorem SameContent.trans {t t1 t2 : BPlusTree} (h1 : SameContent t t1) (h2 : SameContent t1 t2) :
    SameContent t t2 := by
  obtain ⟨a1, a2, a3, a4, a5, a6, a7⟩ := h1
  obtain ⟨b1, b2, b3, b4, b5, b6, b7⟩ := h2
  exact ⟨b1.trans a1, b2.trans a2, b3.trans a3, b4.trans a4, b5.trans a5, b6.trans a6, b7.trans a7⟩

theorem SameContent_unpin (t : BPlusTree) (id : page_id_t) (dirty : Bool) :
    SameContent t (t.withPool (t.buffer_pool_manager_.UnpinPage id dirty)) :=
  ⟨rfl, rfl, rfl, rfl, rfl, rfl, rfl⟩

theorem SameContent_fetch {t : BPlusTree} {bpm1 : BufferPoolManager} {id : page_id_t}
    {p : BPlusTreePage} (h : t.buffer_pool_manager_.FetchPage id = some (bpm1, p)) :
    SameContent t (t.withPool bpm1) := by
  obtain ⟨-, h2, h3, h4⟩ := FetchPage_eq_some h
  exact ⟨rfl, rfl, rfl, rfl, h2, h3, h4⟩

namespace BPlusTree

theorem FindLeafPage_descend (fuel : Nat) : ∀ (t t1 : BPlusTree) (key : GenericKey)
    (pid : page_id_t) (lm : Bool) (leaf : page_id_t),
    FindLeafPage fuel t key pid lm = some (t1, leaf) →
    descend t.buffer_pool_manager_.pages fuel key pid lm = some leaf ∧ SameContent t t1 := by
  induction fuel with
  | zero => intro t t1 key pid lm leaf h; simp [FindLeafPage] at h
  | succ n ih =>
    intro t t1 key pid lm leaf h
    simp only [FindLeafPage] at h
    simp only [descend]
    split at h
    · simp at h
    · split at h
      · simp at h
      · rename_i bpm1 l hf
        simp only [Option.some.injEq, Prod.mk.injEq] at h
        obtain ⟨rfl, rfl⟩ := h
        rw [(FetchPage_eq_some hf).1]
        exact ⟨rfl, SameContent_fetch hf⟩
      · rename_i bpm1 ip hf
        rw [(FetchPage_eq_some hf).1]
        have hsc : SameContent t (t.withPool (bpm1.UnpinPage pid false)) :=
          (SameContent_fetch hf).trans (SameContent_unpin _ _ _)
        have hpg : (t.withPool (bpm1.UnpinPage pid false)).buffer_pool_manager_.pages =
            t.buffer_pool_manager_.pages := hsc.2.2.2.2.1
        split at h
        · rename_i hlm
          subst hlm
          simp only [↓reduceIte]
          split at h
          · simp at h
          · have := ih _ _ _ _ _ _ h
            rw [hpg] at this
            exact ⟨this.1, hsc.trans this.2⟩
        · rename_i hlm
          simp only [Bool.not_eq_true] at hlm
          subst hlm
          simp only [Bool.false_eq_true, ↓reduceIte]
          split at h
          · simp at h
          · have := ih _ _ _ _ _ _ h
            rw [hpg] at this
            exact ⟨this.1, hsc.trans this.2⟩

theorem FindLeafPage_of_descend (fuel : Nat) : ∀ (t : BPlusTree) (key : GenericKey)
    (pid : page_id_t) (lm : Bool) (leaf : page_id_t), t.IsEmpty = false →
    descend t.buffer_pool_manager_.pages fuel key pid lm = some leaf →
    ∃ t1, FindLeafPage fuel t key pid lm = some (t1, leaf) := by
  induction fuel with
  | zero => intro t key pid lm leaf _ h; simp [descend] at h
  | succ n ih =>
    intro t key pid lm leaf he h
    simp only [descend] at h
    simp only [FindLeafPage, he]
    split at h
    · simp at h
    · rename_i l hp
      obtain ⟨bpm1, hf⟩ := FetchPage_of_page hp
      simp only [Option.some.injEq] at h
      subst h
      rw [hf]
      exact ⟨_, rfl⟩
    · rename_i ip hp
      obtain ⟨bpm1, hf⟩ := FetchPage_of_page hp
      rw [hf]
      have hsc : SameContent t (t.withPool (bpm1.UnpinPage pid false)) :=
        (SameContent_fetch hf).trans (SameContent_unpin _ _ _)
      have hpg : (t.withPool (bpm1.UnpinPage pid false)).buffer_pool_manager_.pages =
          t.buffer_pool_manager_.pages := hsc.2.2.2.2.1
      split at h
      · rename_i hlm
        subst hlm
        split at h
        · simp at h
        · rename_i c hc
          simp only [Bool.false_eq_true, if_false, if_true, hc]
          exact ih _ _ _ _ _ he (by rw [hpg]; exact h)
      · rename_i hlm
        simp only [Bool.not_eq_true] at hlm
        subst hlm
        split at h
        · simp at h
        · rename_i c hc
          simp only [Bool.false_eq_true, if_false, hc]
          exact ih _ _ _ _ _ he (by rw [hpg]; exact h)

theorem FindLeafPage_missing (fuel : Nat) (t : BPlusTree) (key : GenericKey) (pid : page_id_t)
    (lm : Bool) (h : t.buffer_pool_manager_.pages pid = none) :
    FindLeafPage fuel t key pid lm = none := by
  cases fuel with
  | zero => rfl
  | succ n =>
    simp only [FindLeafPage, FetchPage_none h]
    split <;> rfl

end BPlusTree

/-! ## Runs and reachability -/

theorem applyOps_get {fuel : Nat} {t : BPlusTree} {ops : List Op}
    (h : (applyOps fuel t ops).isSome = true) :
    applyOps fuel t ops = some ((applyOps fuel t ops).get h) :=
  (Option.some_get h).symm

theorem reachable_applyOps (fuel : Nat) (ops : List Op) : ∀ {t t1 : BPlusTree},
    Reachable t → applyOps fuel t ops = some t1 → Reachable t1 := by
  induction ops with
  | nil =>
    intro t t1 hr h
    simp only [applyOps, Option.some.injEq] at h
    subst h; exact hr
  | cons op ops ih =>
    intro t t1 hr h
    cases op with
    | insert key value =>
      simp only [applyOps] at h
      split at h
      · simp at h
      · rename_i t2 res hi
        exact ih (Reachable.insert fuel key value res hr hi) h
    | remove key =>
      simp only [applyOps] at h
      split at h
      · simp at h
      · rename_i t2 hrm
        exact ih (Reachable.remove fuel key hr hrm) h

theorem create_fresh_unpinned (index_id : index_id_t) (leaf_max_size internal_max_size : Nat) :
    (BPlusTree.create index_id BufferPoolManager.fresh leaf_max_size
      internal_max_size).buffer_pool_manager_.CheckAllUnpinned := by
  intro id
  simp only [BPlusTree.create, BufferPoolManager.UnpinPage, BufferPoolManager.FetchIndexRoots,
    BufferPoolManager.fresh]
  split <;> simp

theorem insertRange_pinLe (fuel : Nat) (n : Nat) : ∀ (lo : Nat) {t t1 : BPlusTree}
    {u : page_id_t → Nat}, applyOps fuel t (insertRange lo n) = some t1 →
    PinLe t.buffer_pool_manager_ u → PinLe t1.buffer_pool_manager_ u := by
  induction n with
  | zero =>
    intro lo t t1 u h hu
    simp only [insertRange, applyOps, Option.some.injEq] at h
    subst h; exact hu
  | succ m ih =>
    intro lo t t1 u h hu
    simp only [insertRange, applyOps] at h
    split at h
    · simp at h
    · rename_i t2 res hi
      exact ih _ h (BPlusTree.Insert_pinLe hi hu)

theorem leafAt_congr {bpm bpm1 : BufferPoolManager} (h : bpm1.pages = bpm.pages) (id : page_id_t) :
    bpm1.leafAt id = bpm.leafAt id := by
  unfold BufferPoolManager.leafAt
  rw [h]

/-! ## Point lookup and duplicate insert -/

theorem GetValue_found {fuel : Nat} {t : BPlusTree} {k : GenericKey} {v : RowId}
    (h : (t.GetValue fuel k []).map Prod.snd = some (true, [v])) :
    t.IsEmpty = false ∧ ∃ t2 leaf l, BPlusTree.FindLeafPage fuel t k t.root_page_id_ false = some (t2, leaf) ∧
      t2.buffer_pool_manager_.leafAt leaf = some l ∧ l.Lookup k = some v := by
  unfold BPlusTree.GetValue at h
  split at h
  · simp at h
  · rename_i he
    refine ⟨by simpa using he, ?_⟩
    split at h
    · simp at h
    · rename_i t2 leaf hf
      split at h
      · simp at h
      · rename_i l hl
        split at h
        · rename_i id hid
          simp only [Option.map_some', List.nil_append, Option.some.injEq, Prod.mk.injEq,
            List.cons.injEq, and_true, true_and] at h
          subst h
          exact ⟨t2, leaf, l, hf, hl, hid⟩
        · simp at h

theorem GetValue_of_descend {fuel : Nat} {t : BPlusTree} {k : GenericKey} {v : RowId}
    {leaf : page_id_t} {l : LeafPage} (he : t.IsEmpty = false)
    (hd : descend t.buffer_pool_manager_.pages fuel k t.root_page_id_ false = some leaf)
    (hl : t.buffer_pool_manager_.leafAt leaf = some l) (hv : l.Lookup k = some v) :
    (t.GetValue fuel k []).map Prod.snd = some (true, [v]) := by
  obtain ⟨t3, hf⟩ := BPlusTree.FindLeafPage_of_descend fuel t k t.root_page_id_ false leaf he hd
  have hsc := (BPlusTree.FindLeafPage_descend fuel t t3 k _ _ _ hf).2
  have hl3 : t3.buffer_pool_manager_.leafAt leaf = some l := by
    rw [leafAt_congr hsc.2.2.2.2.1]; exact hl
  unfold BPlusTree.GetValue
  simp [he, hf, hl3, hv]

/-! ## Calls on a tree whose root page has been freed -/

theorem descend_missing (pages : page_id_t → Option BPlusTreePage) (fuel : Nat) (key : GenericKey)
    (id : page_id_t) (lm : Bool) (h : pages id = none) : descend pages fuel key id lm = none := by
  cases fuel with
  | zero => rfl
  | succ n => simp only [descend, h]

theorem Insert_root_missing (fuel : Nat) (t : BPlusTree) (key : GenericKey) (value : RowId)
    (he : t.IsEmpty = false) (h : t.buffer_pool_manager_.pages t.root_page_id_ = none) :
    t.Insert fuel key value = none := by
  unfold BPlusTree.Insert BPlusTree.InsertIntoLeaf
  simp [he, BPlusTree.FindLeafPage_missing fuel t key _ false h]

theorem GetValue_root_missing (fuel : Nat) (t : BPlusTree) (key : GenericKey) (result : List RowId)
    (he : t.IsEmpty = false) (h : t.buffer_pool_manager_.pages t.root_page_id_ = none) :
    t.GetValue fuel key result = none := by
  unfold BPlusTree.GetValue
  simp [he, BPlusTree.FindLeafPage_missing fuel t key _ false h]

theorem Begin_root_missing (fuel : Nat) (t : BPlusTree)
    (he : t.IsEmpty = false) (h : t.buffer_pool_manager_.pages t.root_page_id_ = none) :
    t.Begin fuel = none := by
  have hr : t.root_page_id_ ≠ INVALID_PAGE_ID := by
    intro hc
    simp [BPlusTree.IsEmpty, hc] at he
  unfold BPlusTree.Begin
  simp [hr, BPlusTree.FindLeafPage_missing fuel t 0 _ true h]

theorem option_pair_eq {α β : Type} {o : Option (α × β)} (h : o.isSome = true) {b : β}
    (hb : (o.get h).2 = b) : o = some ((o.get h).1, b) := by
  subst hb
  exact (Option.some_get h).symm

/-! ## Claims -/

/-- C2: in every tree state in which the point lookup of key `k` yields exactly the
row `v` (so in every reachable state that stores `k` with `v`), `Insert(k, v')`
returns false for every row `v'`, changes no page, not the root page id and not
the registry, and `GetValue(k)` afterwards still yields exactly `[v]`. -/
theorem Insert_duplicate_refused (fuel : Nat) (t : BPlusTree) (k : GenericKey) (v v' : RowId)
    (h : (t.GetValue fuel k []).map Prod.snd = some (true, [v])) :
    ∃ t1, t.Insert fuel k v' = some (t1, false) ∧
      t1.root_page_id_ = t.root_page_id_ ∧
      t1.buffer_pool_manager_.pages = t.buffer_pool_manager_.pages ∧
      t1.buffer_pool_manager_.roots = t.buffer_pool_manager_.roots ∧
      (t1.GetValue fuel k []).map Prod.snd = some (true, [v]) := by
  obtain ⟨he, t2, leaf, l, hf, hl, hv⟩ := GetValue_found h
  obtain ⟨hd, hsc⟩ := BPlusTree.FindLeafPage_descend fuel t t2 k _ _ _ hf
  have hsc1 : SameContent t (t2.withPool (t2.buffer_pool_manager_.UnpinPage leaf false)) :=
    hsc.trans (SameContent_unpin _ _ _)
  refine ⟨t2.withPool (t2.buffer_pool_manager_.UnpinPage leaf false), ?_, hsc1.1, hsc1.2.2.2.2.1,
    hsc1.2.2.2.2.2.1, ?_⟩
  · unfold BPlusTree.Insert BPlusTree.InsertIntoLeaf
    simp [he, hf, hl, hv]
  · have hem : (t2.withPool (t2.buffer_pool_manager_.UnpinPage leaf false)).IsEmpty = false := by
      have : (t2.withPool (t2.buffer_pool_manager_.UnpinPage leaf false)).IsEmpty = t.IsEmpty := by
        unfold BPlusTree.IsEmpty; rw [hsc1.1]
      rw [this]; exact he
    have hds : descend (t2.withPool (t2.buffer_pool_manager_.UnpinPage leaf false)).buffer_pool_manager_.pages
        fuel k (t2.withPool (t2.buffer_pool_manager_.UnpinPage leaf false)).root_page_id_ false =
        some leaf := by
      rw [hsc1.2.2.2.2.1, hsc1.1]; exact hd
    exact GetValue_of_descend hem hds hl hv

set_option maxRecDepth 1000000 in
/-- C2, at a concrete input: in the tree holding the keys 1..13, key 7 is stored
with row 7, and `Insert(7, 99)` is refused. -/
theorem Insert_duplicate_refused_witness :
    (tree13.GetValue 5 7 []).map Prod.snd = some (true, [7]) ∧
    ∃ t1, tree13.Insert 5 7 99 = some (t1, false) ∧
      t1.root_page_id_ = tree13.root_page_id_ ∧
      t1.buffer_pool_manager_.pages = tree13.buffer_pool_manager_.pages ∧
      t1.buffer_pool_manager_.roots = tree13.buffer_pool_manager_.roots ∧
      (t1.GetValue 5 7 []).map Prod.snd = some (true, [7]) :=
  ⟨by decide, Insert_duplicate_refused 5 tree13 7 7 99 (by decide)⟩

/-- C6: starting with no page pinned, when `Insert(key, row)` or `GetValue(key)`
returns, no page is left pinned; this holds in every tree state and on every
path of the two calls (empty tree, duplicate, leaf split, internal splits up to
a new root). -/
theorem Insert_GetValue_leave_no_pin (fuel : Nat) (t : BPlusTree) (key : GenericKey)
    (value : RowId) (result : List RowId) (h0 : t.buffer_pool_manager_.CheckAllUnpinned) :
    (∀ r, t.Insert fuel key value = some r → r.1.buffer_pool_manager_.CheckAllUnpinned) ∧
    (∀ r, t.GetValue fuel key result = some r → r.1.buffer_pool_manager_.CheckAllUnpinned) := by
  rw [BPlusTree.CheckAllUnpinned_iff] at h0
  constructor
  · rintro ⟨t1, res⟩ h
    rw [BPlusTree.CheckAllUnpinned_iff]
    exact BPlusTree.Insert_pinLe h h0
  · rintro ⟨t1, found, res⟩ h
    rw [BPlusTree.CheckAllUnpinned_iff]
    exact BPlusTree.GetValue_pinLe h h0

set_option maxRecDepth 1000000 in
theorem tree13_Insert_returns : (tree13.Insert 5 14 14).isSome = true := by decide

set_option maxRecDepth 1000000 in
theorem tree13_GetValue_returns : (tree13.GetValue 5 7 []).isSome = true := by decide

set_option maxRecDepth 1000000 in
/-- C6, at a concrete input: the tree holding 1..13 has no page pinned; `Insert(14, 14)`
splits the last leaf and the root, returns true with the new root 9, and leaves
no page pinned; so does `GetValue(7)`. -/
theorem Insert_GetValue_leave_no_pin_witness :
    tree13.buffer_pool_manager_.CheckAllUnpinned ∧
    (∃ r, tree13.Insert 5 14 14 = some r ∧ r.2 = true ∧ r.1.root_page_id_ = 9 ∧
      r.1.buffer_pool_manager_.CheckAllUnpinned) ∧
    (∃ r, tree13.GetValue 5 7 [] = some r ∧ r.2 = (true, [7]) ∧
      r.1.buffer_pool_manager_.CheckAllUnpinned) := by
  have h0 : tree13.buffer_pool_manager_.CheckAllUnpinned := by
    rw [BPlusTree.CheckAllUnpinned_iff]
    refine insertRange_pinLe 5 13 1 (applyOps_get (by decide)) ?_
    rw [← BPlusTree.CheckAllUnpinned_iff]
    exact create_fresh_unpinned 0 4 4
  refine ⟨h0, ⟨(tree13.Insert 5 14 14).get tree13_Insert_returns,
      (Option.some_get tree13_Insert_returns).symm, by decide, by decide, ?_⟩,
    ⟨(tree13.GetValue 5 7 []).get tree13_GetValue_returns,
      (Option.some_get tree13_GetValue_returns).symm, by decide, ?_⟩⟩
  · exact (Insert_GetValue_leave_no_pin 5 tree13 14 14 [] h0).1 _
      (Option.some_get tree13_Insert_returns).symm
  · exact (Insert_GetValue_leave_no_pin 5 tree13 7 14 [] h0).2 _
      (Option.some_get tree13_GetValue_returns).symm

set_option maxRecDepth 1000000 in
theorem treeFreedRoot_reachable : Reachable treeFreedRoot :=
  reachable_applyOps 6 _ (Reachable.empty 0 3 3) (applyOps_get (by decide))

set_option maxRecDepth 1000000 in
theorem treeFreedChild_reachable : Reachable treeFreedChild :=
  reachable_applyOps 7 _ (Reachable.empty 0 3 3) (applyOps_get (by decide))

set_option maxRecDepth 1000000 in
theorem treeDown15_reachable : Reachable treeDown15 :=
  reachable_applyOps 6 _ (Reachable.empty 0 3 3) (applyOps_get (by decide))

set_option maxRecDepth 1000000 in
theorem tree14_reachable : Reachable tree14 :=
  reachable_applyOps 5 _ (Reachable.empty 0 4 4) (applyOps_get (by decide))

set_option maxRecDepth 1000000 in
/-- C1 (failing input): with leaf and internal capacity 3, after inserting 0..15 and
removing 0 the reachable tree is not empty, its root page id 8 names a page that
`Remove` has freed, and key 100 is in no leaf; yet `Insert(100, v)` does not
return true: it returns nothing, whatever the budget. -/
theorem Insert_absent_key_fails_after_freed_root :
    Reachable treeFreedRoot ∧ treeFreedRoot.IsEmpty = false ∧ treeFreedRoot.root_page_id_ = 8 ∧
    treeFreedRoot.buffer_pool_manager_.pages 8 = none ∧
    treeFreedRoot.buffer_pool_manager_.next_page_id = 17 ∧
    (List.range 17).all (fun i =>
      ((treeFreedRoot.buffer_pool_manager_.leafAt i).bind (fun l => l.Lookup 100)).isNone) = true ∧
    ∀ fuel value, treeFreedRoot.Insert fuel 100 value = none :=
  ⟨treeFreedRoot_reachable, by decide, by decide, by decide, by decide, by decide,
    fun fuel value => Insert_root_missing fuel _ 100 value (by decide) (by decide)⟩

set_option maxRecDepth 1000000 in
theorem treeDown15_Insert_returns : (treeDown15.Insert 6 0 0).isSome = true := by decide

set_option maxRecDepth 1000000 in
theorem treeDown15_Remove_returns :
    ((((treeDown15.Insert 6 0 0).get treeDown15_Insert_returns).1).Remove 6 0).isSome = true := by
  decide

set_option maxRecDepth 1000000 in
/-- C3 (failing input): with leaf and internal capacity 3, in the reachable tree holding
1..15 (inserted in decreasing order) key 0 is absent; `Insert(0, 0)` returns true
and `Remove(0)` returns, but the tree it leaves has a freed root page, and
`GetValue(0)` does not return false: it returns nothing, whatever the budget. -/
theorem Insert_Remove_GetValue_fails :
    Reachable treeDown15 ∧ (treeDown15.GetValue 6 0 []).map Prod.snd = some (false, []) ∧
    ∃ t1 t2, treeDown15.Insert 6 0 0 = some (t1, true) ∧ t1.Remove 6 0 = some t2 ∧
      t2.IsEmpty = false ∧ t2.buffer_pool_manager_.pages t2.root_page_id_ = none ∧
      ∀ fuel, t2.GetValue fuel 0 [] = none :=
  ⟨treeDown15_reachable, by decide,
    ((treeDown15.Insert 6 0 0).get treeDown15_Insert_returns).1,
    ((((treeDown15.Insert 6 0 0).get treeDown15_Insert_returns).1).Remove 6 0).get
      treeDown15_Remove_returns,
    option_pair_eq treeDown15_Insert_returns (by decide),
    (Option.some_get treeDown15_Remove_returns).symm, by decide, by decide,
    fun fuel => GetValue_root_missing fuel _ 0 [] (by decide) (by decide)⟩

set_option maxRecDepth 1000000 in
/-- C4 (failing input): with leaf and internal capacity 3, after inserting 0..15 and
removing 0 the reachable tree is not empty and the leaves, chained from page 2,
still store the entries 1..15, but the root page has been freed: the leftmost
descent `Begin()` starts with finds no leaf, whatever the budget, so no
traversal of the leaf chain starts. -/
theorem Begin_fails_after_freed_root :
    Reachable treeFreedRoot ∧ treeFreedRoot.IsEmpty = false ∧
    (leafChain treeFreedRoot.buffer_pool_manager_ 10 2).map (fun es => es.map Prod.fst) =
      some [1, 2, 3, 4, 5, 6, 7, 8, 9, 10, 11, 12, 13, 14, 15] ∧
    (∀ fuel, BPlusTree.FindLeafPage fuel treeFreedRoot 0 treeFreedRoot.root_page_id_ true = none) ∧
    ∀ fuel, treeFreedRoot.Begin fuel = none :=
  ⟨treeFreedRoot_reachable, by decide, by decide,
    fun fuel => BPlusTree.FindLeafPage_missing fuel _ 0 _ true (by decide),
    fun fuel => Begin_root_missing fuel _ (by decide) (by decide)⟩

set_option maxRecDepth 1000000 in
theorem fresh_Remove_returns :
    (((BPlusTree.create 0 BufferPoolManager.fresh 4 4).StartNewTree 1 1).Remove 3 1).isSome = true := by
  decide

set_option maxRecDepth 1000000 in
theorem tree6_Remove_returns : (tree6.Remove 5 6).isSome = true := by decide

set_option maxRecDepth 1000000 in
/-- C5 (failing input): with capacity 4, `Insert(1, 1)` into the empty tree leaves no
page pinned; the following `Remove(1)` returns with the tree empty and the leaf
page 2 still pinned once, so not all pages are unpinned after every key has
been removed.  And in the tree holding 1..6, with no page pinned, `Remove(6)`
takes an entry from a leaf that does not underflow and returns with the
parent page 4 still pinned once. -/
theorem Remove_leaves_page_pinned :
    (∃ t1 t2, (BPlusTree.create 0 BufferPoolManager.fresh 4 4).Insert 3 1 1 = some (t1, true) ∧
      t1.buffer_pool_manager_.CheckAllUnpinned ∧ t1.Remove 3 1 = some t2 ∧
      t2.IsEmpty = true ∧ t2.buffer_pool_manager_.pin_count 2 = 1 ∧
      ¬ t2.buffer_pool_manager_.CheckAllUnpinned) ∧
    (Reachable tree6 ∧ tree6.buffer_pool_manager_.CheckAllUnpinned ∧
      ∃ t2, tree6.Remove 5 6 = some t2 ∧
        (t2.buffer_pool_manager_.leafAt 3).map (fun l => l.slots) = some [(4, 4), (5, 5)] ∧
        t2.buffer_pool_manager_.pin_count 4 = 1 ∧ ¬ t2.buffer_pool_manager_.CheckAllUnpinned) := by
  refine ⟨⟨(BPlusTree.create 0 BufferPoolManager.fresh 4 4).StartNewTree 1 1,
    (((BPlusTree.create 0 BufferPoolManager.fresh 4 4).StartNewTree 1 1).Remove 3 1).get
      fresh_Remove_returns, rfl, ?_, (Option.some_get fresh_Remove_returns).symm, by decide,
    by decide, ?_⟩,
    reachable_applyOps 5 _ (Reachable.empty 0 4 4) (applyOps_get (by decide)), ?_,
    (tree6.Remove 5 6).get tree6_Remove_returns, (Option.some_get tree6_Remove_returns).symm,
    by decide, by decide, ?_⟩
  · rw [BPlusTree.CheckAllUnpinned_iff]
    apply BPlusTree.StartNewTree_pinLe
    rw [← BPlusTree.CheckAllUnpinned_iff]
    exact create_fresh_unpinned 0 4 4
  · intro h
    have h2 := h 2
    revert h2
    decide
  · rw [BPlusTree.CheckAllUnpinned_iff]
    refine insertRange_pinLe 5 6 1 (applyOps_get (by decide)) ?_
    rw [← BPlusTree.CheckAllUnpinned_iff]
    exact create_fresh_unpinned 0 4 4
  · intro h
    have h4 := h 4
    revert h4
    decide

set_option maxRecDepth 1000000 in
theorem reinsert_returns :
    (applyOps 3 (BPlusTree.create 0 BufferPoolManager.fresh 4 4)
      [Op.insert 1 1, Op.remove 1, Op.insert 2 2]).isSome = true := by
  decide

set_option maxRecDepth 1000000 in
/-- C7 (failing input): with capacity 4, after `Insert(1, 1)`, `Remove(1)`, `Insert(2, 2)`
the in-memory root page id is 3 while the registry still returns
INVALID_PAGE_ID for the index: the second `StartNewTree` registers with the
first-time insert, which keeps the existing entry. -/
theorem registry_stale_after_reinsert :
    ∃ t, applyOps 3 (BPlusTree.create 0 BufferPoolManager.fresh 4 4)
        [Op.insert 1 1, Op.remove 1, Op.insert 2 2] = some t ∧ Reachable t ∧
      t.root_page_id_ = 3 ∧
      t.buffer_pool_manager_.GetRootId t.index_id_ = some INVALID_PAGE_ID ∧
      t.buffer_pool_manager_.GetRootId t.index_id_ ≠ some t.root_page_id_ :=
  ⟨_, applyOps_get reinsert_returns,
    reachable_applyOps 3 _ (Reachable.empty 0 4 4) (applyOps_get reinsert_returns),
    by decide, by decide, by decide⟩

set_option maxRecDepth 1000000 in
/-- C8 (failing input): with leaf and internal capacity 3, after inserting 0..31 and
removing 16 the root of the reachable tree is the internal node 16 with the
slots (_, 8), (8, 15), (17, 23); the page 23 of its third child has been freed,
so the subtree of that child has no minimum key to equal the separator 17. -/
theorem separator_of_freed_child :
    Reachable treeFreedChild ∧ treeFreedChild.root_page_id_ = 16 ∧
    (treeFreedChild.buffer_pool_manager_.internalAt 16).map (fun n => n.slots) =
      some [(0, 8), (8, 15), (17, 23)] ∧
    treeFreedChild.buffer_pool_manager_.pages 23 = none ∧
    ∀ fuel, subtreeMinKey treeFreedChild.buffer_pool_manager_ fuel 23 = none ∧
      subtreeMinKey treeFreedChild.buffer_pool_manager_ fuel 23 ≠ some 17 := by
  refine ⟨treeFreedChild_reachable, by decide, by decide, by decide, fun fuel => ?_⟩
  have h : subtreeMinKey treeFreedChild.buffer_pool_manager_ fuel 23 = none := by
    unfold subtreeMinKey
    rw [descend_missing _ fuel 0 23 true (by decide)]
    rfl
  exact ⟨h, by rw [h]; simp⟩

set_option maxRecDepth 1000000 in
/-- C9 (failing input): with capacity 4, after inserting 1..14 the reachable tree has
the root 9 with the children 4 and 8; the internal node 8 is not the root, its
capacity is 4, its minimum size 3, and it holds 2 children only. -/
theorem internal_node_below_min_size :
    Reachable tree14 ∧ tree14.root_page_id_ = 9 ∧
    (tree14.buffer_pool_manager_.internalAt 9).map (fun n => n.slots) = some [(0, 4), (10, 8)] ∧
    (tree14.buffer_pool_manager_.internalAt 8).map
      (fun n => (n.parent_page_id, n.GetSize, n.GetMinSize, n.GetMaxSize)) = some (9, 2, 3, 4) ∧
    ∃ n, tree14.buffer_pool_manager_.internalAt 8 = some n ∧ n.IsRootPage = false ∧
      n.GetSize < n.GetMinSize :=
  ⟨tree14_reachable, by decide, by decide, by decide,
    ⟨{ parent_page_id := 9, max_size := 4, slots := [(10, 6), (13, 7)] }, by decide, by decide,
      by decide⟩⟩

set_option maxRecDepth 1000000 in
/-- C10 (failing input): with leaf and internal capacity 3, after inserting 0..31 and
removing 16 the reachable tree has the live root 16, and the internal nodes 19,
26 and 29 carry the parent page id 23, which names a freed page and so no
internal node at all. -/
theorem parent_link_to_freed_page :
    Reachable treeFreedChild ∧ treeFreedChild.root_page_id_ = 16 ∧
    (treeFreedChild.buffer_pool_manager_.pages 16).isSome = true ∧
    [19, 26, 29].map (fun i =>
      (treeFreedChild.buffer_pool_manager_.internalAt i).map (fun n => n.parent_page_id)) =
      [some 23, some 23, some 23] ∧
    treeFreedChild.buffer_pool_manager_.pages 23 = none ∧
    treeFreedChild.buffer_pool_manager_.internalAt 23 = none :=
  ⟨treeFreedChild_reachable, by decide, by decide, by decide, by decide, by decide⟩

/-! ## Claims on iteration, draining and the pool protocol of `Remove` -/

theorem Remove_root_missing (fuel : Nat) (t : BPlusTree) (key : GenericKey)
    (he : t.IsEmpty = false) (h : t.buffer_pool_manager_.pages t.root_page_id_ = none) :
    t.Remove fuel key = none := by
  unfold BPlusTree.Remove
  simp [he, BPlusTree.FindLeafPage_missing fuel t key _ false h]

set_option maxRecDepth 1000000 in
theorem treeGap_reachable : Reachable treeGap :=
  reachable_applyOps 5 _ (Reachable.empty 0 4 4) (applyOps_get (by decide))

set_option maxRecDepth 1000000 in
theorem tree5_reachable : Reachable tree5 :=
  reachable_applyOps 5 _ (Reachable.empty 0 4 4) (applyOps_get (by decide))

set_option maxRecDepth 1000000 in
theorem tree6_reachable : Reachable tree6 :=
  reachable_applyOps 5 _ (Reachable.empty 0 4 4) (applyOps_get (by decide))

set_option maxRecDepth 1000000 in
theorem tree16_reachable : Reachable tree16 :=
  reachable_applyOps 6 _ (Reachable.empty 0 3 3) (applyOps_get (by decide))

set_option maxRecDepth 1000000 in
/-- C11 (failing input): with capacity 4, the reachable tree holding 10, 20, 30, 40, 50
has the leaves 2 = {10, 20, 30} and 3 = {40, 50}; the smallest stored key ≥ 35
is 40, at slot 0 of leaf 3, but `Begin(35)` returns the position (2, 3), and 3
is the size of leaf 2, not one of its slots.  (`Begin(40)` does return (3, 0).) -/
theorem Begin_key_past_last_slot :
    Reachable treeGap ∧
    (treeGap.buffer_pool_manager_.leafAt 2).map (fun l => l.slots) =
      some [(10, 10), (20, 20), (30, 30)] ∧
    (treeGap.buffer_pool_manager_.leafAt 3).map (fun l => l.slots) = some [(40, 40), (50, 50)] ∧
    (treeGap.BeginKey 5 35).map Prod.snd = some { page_id := 2, index := 3 } ∧
    (treeGap.buffer_pool_manager_.leafAt 2).bind (fun l => l.KeyAt 3) = none ∧
    (treeGap.BeginKey 5 40).map Prod.snd = some { page_id := 3, index := 0 } :=
  ⟨treeGap_reachable, by decide, by decide, by decide, by decide, by decide⟩

set_option maxRecDepth 1000000 in
theorem tree16_Remove_returns : (tree16.Remove 6 0).isSome = true := by decide

set_option maxRecDepth 1000000 in
/-- C12 (failing input): with leaf and internal capacity 3, the distinct keys 0..15 are
inserted into the empty tree; `Remove(0)` returns and leaves a tree that is not
empty and whose root page has been freed, and `Remove(1)` then returns nothing,
whatever the budget: the keys cannot all be removed and the tree never becomes
empty. -/
theorem drain_stops_after_freed_root :
    Reachable tree16 ∧
    ∃ t1, tree16.Remove 6 0 = some t1 ∧ t1.IsEmpty = false ∧
      t1.root_page_id_ ≠ INVALID_PAGE_ID ∧
      t1.buffer_pool_manager_.GetRootId t1.index_id_ ≠ some INVALID_PAGE_ID ∧
      ∀ fuel, t1.Remove fuel 1 = none :=
  ⟨tree16_reachable, (tree16.Remove 6 0).get tree16_Remove_returns,
    (Option.some_get tree16_Remove_returns).symm, by decide, by decide, by decide,
    fun fuel => Remove_root_missing fuel _ 1 (by decide) (by decide)⟩

set_option maxRecDepth 1000000 in
/-- C14 (failing input): with capacity 4, in the tree holding 1..6 `Remove(6)` deletes an
entry of leaf 3, which does not underflow, and rewrites a separator of the
parent 4; the calls it makes on the pool are: fetch 4, unpin 4 clean (the
descent), fetch 3, fetch 4, unpin 3 clean.  The mutated leaf 3 is unpinned with
dirty = false and the mutated parent 4 is not unpinned at all. -/
theorem Remove_unpins_mutated_leaf_clean :
    Reachable tree6 ∧
    (tree6.buffer_pool_manager_.leafAt 3).map (fun l => l.slots) =
      some [(4, 4), (5, 5), (6, 6)] ∧
    ((tree6.Remove 5 6).bind (fun t => t.buffer_pool_manager_.leafAt 3)).map (fun l => l.slots) =
      some [(4, 4), (5, 5)] ∧
    (tree6.Remove 5 6).map
      (fun t => t.buffer_pool_manager_.log.drop tree6.buffer_pool_manager_.log.length) =
      some [PoolEvent.fetch 4, PoolEvent.unpin 4 false, PoolEvent.fetch 3, PoolEvent.fetch 4,
        PoolEvent.unpin 3 false] :=
  ⟨tree6_reachable, by decide, by decide, by decide⟩

set_option maxRecDepth 1000000 in
/-- C15 (failing input): with capacity 4, in the tree holding 1..5 `Remove(5)` merges
leaf 3 into leaf 2 and replaces the internal root 4 by its only child.  The
calls on the pool show `DeletePage(3)` while page 3 holds one pin and was never
unpinned, and no `DeletePage` of the replaced root 4 at all. -/
theorem Coalesce_deletes_pinned_page :
    Reachable tree5 ∧ tree5.root_page_id_ = 4 ∧
    (tree5.Remove 5 5).map (fun t => t.root_page_id_) = some 2 ∧
    (tree5.Remove 5 5).map
      (fun t => t.buffer_pool_manager_.log.drop tree5.buffer_pool_manager_.log.length) =
      some [PoolEvent.fetch 4, PoolEvent.unpin 4 false, PoolEvent.fetch 3, PoolEvent.fetch 4,
        PoolEvent.fetch 4, PoolEvent.fetch 2, PoolEvent.delete 3 1, PoolEvent.fetch 2,
        PoolEvent.unpin 2 true, PoolEvent.fetch 1, PoolEvent.unpin 1 true,
        PoolEvent.unpin 2 false, PoolEvent.unpin 4 true] :=
  ⟨tree5_reachable, by decide, by decide, by decide⟩

set_option maxRecDepth 1000000 in
/-- C17 (failing input): with leaf and internal capacity 3, in the reachable tree holding
0..15 `GetValue(5)` finds the row 5; after `Remove(0)`, which frees the page of
the new root, `GetValue(5)` returns nothing, whatever the budget. -/
theorem GetValue_other_key_changes_after_Remove :
    Reachable tree16 ∧ (tree16.GetValue 6 5 []).map Prod.snd = some (true, [5]) ∧
    ∃ t1, tree16.Remove 6 0 = some t1 ∧ ∀ fuel, t1.GetValue fuel 5 [] = none :=
  ⟨tree16_reachable, by decide, (tree16.Remove 6 0).get tree16_Remove_returns,
    (Option.some_get tree16_Remove_returns).symm,
    fun fuel => GetValue_root_missing fuel _ 5 [] (by decide) (by decide)⟩

/-! ## Root changes -/

theorem GetParentPageId_SetParentPageId (p : BPlusTreePage) (x : page_id_t) :
    (p.SetParentPageId x).GetParentPageId = x := by
  cases p <;> rfl

theorem UpdateRootPageId_false_registry (t : BPlusTree) :
    (t.UpdateRootPageId false).buffer_pool_manager_.GetRootId t.index_id_ =
      (t.buffer_pool_manager_.GetRootId t.index_id_).map (fun _ => t.root_page_id_) := by
  simp only [BPlusTree.UpdateRootPageId, BufferPoolManager.GetRootId, BPlusTree.withPool_pool,
    BufferPoolManager.UnpinPage, BufferPoolManager.RootsUpdate, BufferPoolManager.FetchIndexRoots,
    Bool.false_eq_true, if_false]
  cases hr : t.buffer_pool_manager_.roots t.index_id_ <;> simp [hr]

theorem UpdateRootPageId_pages (t : BPlusTree) (b : Bool) :
    (t.UpdateRootPageId b).buffer_pool_manager_.pages = t.buffer_pool_manager_.pages := by
  simp only [BPlusTree.UpdateRootPageId, BPlusTree.withPool_pool, BufferPoolManager.UnpinPage,
    BufferPoolManager.RootsUpdate, BufferPoolManager.RootsInsert, BufferPoolManager.FetchIndexRoots]
  cases b <;> simp <;> split <;> rfl

theorem UpdateRootPageId_root (t : BPlusTree) (b : Bool) :
    (t.UpdateRootPageId b).root_page_id_ = t.root_page_id_ := rfl

theorem UpdateRootPageId_index (t : BPlusTree) (b : Bool) :
    (t.UpdateRootPageId b).index_id_ = t.index_id_ := rfl

/-- C19: when `InsertIntoParent(L, k, R)` is called with `L` the root (`L` and `R` two
different pages and the pool handing out an unused page id), afterwards the
root is the newly allocated internal node: its parent is INVALID_PAGE_ID, it
has size 2, slot 0 holds the child `L` and slot 1 holds `(k, R)`; `L` and `R`
both have the new root as parent; `root_page_id_` is the new root's id, and so
is the registry entry of the index (the index being registered). -/
theorem InsertIntoParent_at_root (fuel : Nat) (t : BPlusTree) (L R : page_id_t) (k : GenericKey)
    (pl pr : BPlusTreePage)
    (hL : t.buffer_pool_manager_.pages L = some pl) (hroot : pl.IsRootPage = true)
    (hR : t.buffer_pool_manager_.pages R = some pr) (hLR : L ≠ R)
    (hfresh : t.buffer_pool_manager_.pages t.buffer_pool_manager_.next_page_id = none)
    (hreg : (t.buffer_pool_manager_.GetRootId t.index_id_).isSome = true) :
    ∃ t1, BPlusTree.InsertIntoParent (fuel + 1) t L k R = some t1 ∧
      t1.root_page_id_ = t.buffer_pool_manager_.next_page_id ∧
      t1.buffer_pool_manager_.internalAt t1.root_page_id_ =
        some { parent_page_id := INVALID_PAGE_ID, max_size := t.internal_max_size_,
               slots := [(0, L), (k, R)] } ∧
      t1.buffer_pool_manager_.pages L = some (pl.SetParentPageId t1.root_page_id_) ∧
      t1.buffer_pool_manager_.pages R = some (pr.SetParentPageId t1.root_page_id_) ∧
      (∀ x, x ≠ L → x ≠ R → x ≠ t1.root_page_id_ →
        t1.buffer_pool_manager_.pages x = t.buffer_pool_manager_.pages x) ∧
      t1.buffer_pool_manager_.GetRootId t1.index_id_ = some t1.root_page_id_ := by
  have hnL : t.buffer_pool_manager_.next_page_id ≠ L := by
    intro h; rw [h, hL] at hfresh; simp at hfresh
  have hnR : t.buffer_pool_manager_.next_page_id ≠ R := by
    intro h; rw [h, hR] at hfresh; simp at hfresh
  have hRL : R ≠ L := fun h => hLR h.symm
  have hpR : ((((t.buffer_pool_manager_.NewPage.1).write t.buffer_pool_manager_.NewPage.2
      (BPlusTreePage.internal ((InternalPage.Init INVALID_PAGE_ID t.internal_max_size_).PopulateNewRoot
        L k R))).write L (pl.SetParentPageId t.buffer_pool_manager_.NewPage.2)).pages R) = some pr := by
    simp only [BufferPoolManager.write, BufferPoolManager.NewPage, hRL, if_false]
    rw [if_neg (fun h => hnR h.symm)]
    exact hR
  simp only [BPlusTree.InsertIntoParent, hL, hroot, if_true, hpR]
  refine ⟨_, rfl, rfl, ?_, ?_, ?_, ?_, ?_⟩
  · simp only [BPlusTree.withPool_pool, BPlusTree.withPool_root, UpdateRootPageId_root,
      BufferPoolManager.internalAt, BufferPoolManager.UnpinPage, UpdateRootPageId_pages,
      BufferPoolManager.write, BufferPoolManager.NewPage, if_neg hnR, if_neg hnL, if_true]
    rfl
  · simp only [BPlusTree.withPool_pool, BPlusTree.withPool_root, UpdateRootPageId_root,
      BufferPoolManager.UnpinPage, UpdateRootPageId_pages,
      BufferPoolManager.write, BufferPoolManager.NewPage, if_neg hLR, if_true]
  · simp only [BPlusTree.withPool_pool, BPlusTree.withPool_root, UpdateRootPageId_root,
      BufferPoolManager.UnpinPage, UpdateRootPageId_pages,
      BufferPoolManager.write, BufferPoolManager.NewPage, if_true]
  · intro x hxL hxR hxn
    simp only [BPlusTree.withPool_pool, BPlusTree.withPool_root, UpdateRootPageId_root,
      BufferPoolManager.NewPage] at hxn
    simp only [BPlusTree.withPool_pool, BufferPoolManager.UnpinPage, UpdateRootPageId_pages,
      BufferPoolManager.write, BufferPoolManager.NewPage, if_neg hxL, if_neg hxR, if_neg hxn]
  · have h1 := UpdateRootPageId_false_registry
      { t with root_page_id_ := t.buffer_pool_manager_.NewPage.2,
               buffer_pool_manager_ := (((t.buffer_pool_manager_.NewPage.1).write
                 t.buffer_pool_manager_.NewPage.2
                 (BPlusTreePage.internal ((InternalPage.Init INVALID_PAGE_ID
                   t.internal_max_size_).PopulateNewRoot L k R))).write L
                 (pl.SetParentPageId t.buffer_pool_manager_.NewPage.2)).write R
                 (pr.SetParentPageId t.buffer_pool_manager_.NewPage.2) }
    simp only [BufferPoolManager.GetRootId, BufferPoolManager.write_roots] at h1 hreg ⊢
    simp only [BPlusTree.withPool_pool, BPlusTree.withPool_index, BPlusTree.withPool_root,
      UpdateRootPageId_index, UpdateRootPageId_root, BufferPoolManager.UnpinPage]
    rw [h1]
    have h2 : (t.buffer_pool_manager_.NewPage.1).roots = t.buffer_pool_manager_.roots := rfl
    rw [h2]
    cases hr : t.buffer_pool_manager_.roots t.index_id_ with
    | none => rw [hr] at hreg; simp at hreg
    | some r => rfl

set_option maxRecDepth 1000000 in
/-- C19, at a concrete input: the root leaf 2 has been split into 2 = {1, 2, 3} and
3 = {4, 5}; `InsertIntoParent(2, 4, 3)` makes the new page 4 the root. -/
theorem InsertIntoParent_at_root_witness :
    treeSplitRootLeaf.buffer_pool_manager_.pages 2 =
      some (BPlusTreePage.leaf { parent_page_id := INVALID_PAGE_ID, max_size := 4,
                                 next_page_id := 3, slots := [(1, 1), (2, 2), (3, 3)] }) ∧
    treeSplitRootLeaf.buffer_pool_manager_.pages 3 =
      some (BPlusTreePage.leaf { parent_page_id := INVALID_PAGE_ID, max_size := 4,
                                 next_page_id := INVALID_PAGE_ID, slots := [(4, 4), (5, 5)] }) ∧
    treeSplitRootLeaf.buffer_pool_manager_.next_page_id = 4 ∧
    ∃ t1, BPlusTree.InsertIntoParent 1 treeSplitRootLeaf 2 4 3 = some t1 ∧
      t1.root_page_id_ = treeSplitRootLeaf.buffer_pool_manager_.next_page_id ∧
      t1.buffer_pool_manager_.internalAt t1.root_page_id_ =
        some { parent_page_id := INVALID_PAGE_ID, max_size := treeSplitRootLeaf.internal_max_size_,
               slots := [(0, 2), (4, 3)] } ∧
      t1.buffer_pool_manager_.pages 2 =
        some ((BPlusTreePage.leaf { parent_page_id := INVALID_PAGE_ID, max_size := 4,
                                    next_page_id := 3,
                                    slots := [(1, 1), (2, 2), (3, 3)] }).SetParentPageId
          t1.root_page_id_) ∧
      t1.buffer_pool_manager_.pages 3 =
        some ((BPlusTreePage.leaf { parent_page_id := INVALID_PAGE_ID, max_size := 4,
                                    next_page_id := INVALID_PAGE_ID,
                                    slots := [(4, 4), (5, 5)] }).SetParentPageId
          t1.root_page_id_) ∧
      (∀ x, x ≠ 2 → x ≠ 3 → x ≠ t1.root_page_id_ →
        t1.buffer_pool_manager_.pages x = treeSplitRootLeaf.buffer_pool_manager_.pages x) ∧
      t1.buffer_pool_manager_.GetRootId t1.index_id_ = some t1.root_page_id_ :=
  ⟨by decide, by decide, by decide,
    InsertIntoParent_at_root 0 treeSplitRootLeaf 2 3 4 _ _ (by decide) (by decide) (by decide)
      (by decide) (by decide) (by decide)⟩

/-- C20: `AdjustRoot(R)` has three outcomes.  If `R` is a leaf of size 0, the root page
id becomes INVALID_PAGE_ID, the registry entry of the index is rewritten to it,
no page changes and the result is true.  If `R` is an internal node of size 1
whose only child `c` is a page, `c` becomes the root with parent
INVALID_PAGE_ID, the registry entry is rewritten to `c`, no page other than `c`
and `R` changes and the result is true.  In every other case the result is
false and the tree state is the one before the call. -/
theorem AdjustRoot_outcomes (t : BPlusTree) (R : page_id_t) :
    (∀ l, t.buffer_pool_manager_.pages R = some (BPlusTreePage.leaf l) → l.GetSize = 0 →
      ∃ t1, t.AdjustRoot R = some (t1, true) ∧ t1.root_page_id_ = INVALID_PAGE_ID ∧
        t1.buffer_pool_manager_.GetRootId t1.index_id_ =
          (t.buffer_pool_manager_.GetRootId t.index_id_).map (fun _ => INVALID_PAGE_ID) ∧
        t1.buffer_pool_manager_.pages = t.buffer_pool_manager_.pages) ∧
    (∀ n c p, t.buffer_pool_manager_.pages R = some (BPlusTreePage.internal n) → n.GetSize = 1 →
      n.ValueAt 0 = some c → t.buffer_pool_manager_.pages c = some p →
      ∃ t1, t.AdjustRoot R = some (t1, true) ∧ t1.root_page_id_ = c ∧
        (t1.buffer_pool_manager_.pages c).map BPlusTreePage.GetParentPageId =
          some INVALID_PAGE_ID ∧
        t1.buffer_pool_manager_.GetRootId t1.index_id_ =
          (t.buffer_pool_manager_.GetRootId t.index_id_).map (fun _ => c) ∧
        ∀ x, x ≠ c → x ≠ R → t1.buffer_pool_manager_.pages x = t.buffer_pool_manager_.pages x) ∧
    (∀ p, t.buffer_pool_manager_.pages R = some p →
      (∀ l, p = BPlusTreePage.leaf l → l.GetSize ≠ 0) →
      (∀ n, p = BPlusTreePage.internal n → n.GetSize ≠ 1) →
      t.AdjustRoot R = some (t, false)) := by
  refine ⟨?_, ?_, ?_⟩
  · intro l hR hs
    refine ⟨({ t with root_page_id_ := INVALID_PAGE_ID } : BPlusTree).UpdateRootPageId false,
      by simp only [BPlusTree.AdjustRoot, hR, hs, if_true], rfl, ?_, ?_⟩
    · exact UpdateRootPageId_false_registry { t with root_page_id_ := INVALID_PAGE_ID }
    · exact UpdateRootPageId_pages _ _
  · intro n c p hR hs hc hp
    have hf : ∃ q, (t.buffer_pool_manager_.write R
        (BPlusTreePage.internal { n with slots := [] })).pages c = some q := by
      simp only [BufferPoolManager.write]
      split
      · exact ⟨_, rfl⟩
      · exact ⟨p, hp⟩
    obtain ⟨q, hq⟩ := hf
    obtain ⟨bpm2, hfetch⟩ := FetchPage_of_page hq
    have hfp := FetchPage_eq_some hfetch
    refine ⟨({ t with root_page_id_ := c,
                       buffer_pool_manager_ := (bpm2.write c
                         (q.SetParentPageId INVALID_PAGE_ID)).UnpinPage c true } :
        BPlusTree).UpdateRootPageId false,
      by simp only [BPlusTree.AdjustRoot, hR, hs, if_true,
        InternalPage.RemoveAndReturnOnlyChild, hc, hfetch], rfl, ?_, ?_, ?_⟩
    · simp only [UpdateRootPageId_pages, BufferPoolManager.UnpinPage, BufferPoolManager.write,
        if_true, Option.map_some', GetParentPageId_SetParentPageId]
    · have h1 := UpdateRootPageId_false_registry
        { t with root_page_id_ := c,
                 buffer_pool_manager_ := (bpm2.write c
                   (q.SetParentPageId INVALID_PAGE_ID)).UnpinPage c true }
      simp only [UpdateRootPageId_index] at h1 ⊢
      rw [h1]
      simp only [BufferPoolManager.GetRootId, BufferPoolManager.UnpinPage,
        BufferPoolManager.write_roots, hfp.2.2.1]
    · intro x hxc hxR
      simp only [UpdateRootPageId_pages, BufferPoolManager.UnpinPage, BufferPoolManager.write,
        if_neg hxc, hfp.2.1, if_neg hxR]
  · intro p hR hl hn
    cases p with
    | leaf l =>
      have := hl l rfl
      simp only [BPlusTree.AdjustRoot, hR, this, if_false]
    | internal n =>
      have := hn n rfl
      simp only [BPlusTree.AdjustRoot, hR, this, if_false]

set_option maxRecDepth 1000000 in
/-- C20, at concrete inputs: the emptied root leaf 2 (first outcome), the internal root 4
cut down to its child 2 (second outcome), the root 4 of the tree holding 1..13
with four children (third outcome). -/
theorem AdjustRoot_outcomes_witness :
    (∃ t1, treeEmptiedLeafRoot.AdjustRoot 2 = some (t1, true) ∧
      t1.root_page_id_ = INVALID_PAGE_ID ∧
      t1.buffer_pool_manager_.GetRootId t1.index_id_ = some INVALID_PAGE_ID) ∧
    (∃ t1, treeOneChildRoot.AdjustRoot 4 = some (t1, true) ∧ t1.root_page_id_ = 2 ∧
      (t1.buffer_pool_manager_.pages 2).map BPlusTreePage.GetParentPageId =
        some INVALID_PAGE_ID ∧
      t1.buffer_pool_manager_.GetRootId t1.index_id_ = some 2) ∧
    tree13.AdjustRoot 4 = some (tree13, false) := by
  refine ⟨?_, ?_, ?_⟩
  · obtain ⟨t1, h1, h2, h3, -⟩ := (AdjustRoot_outcomes treeEmptiedLeafRoot 2).1
      (LeafPage.Init INVALID_PAGE_ID 4) (by decide) (by decide)
    exact ⟨t1, h1, h2, by rw [h3]; decide⟩
  · obtain ⟨t1, h1, h2, h3, h4, -⟩ := (AdjustRoot_outcomes treeOneChildRoot 4).2.1
      { parent_page_id := INVALID_PAGE_ID, max_size := 4, slots := [(0, 2)] } 2
      (BPlusTreePage.leaf { parent_page_id := 4, max_size := 4, next_page_id := 3,
                            slots := [(1, 1), (2, 2), (3, 3)] })
      (by decide) (by decide) (by decide) (by decide)
    exact ⟨t1, h1, h2, h3, by rw [h4]; decide⟩
  · exact (AdjustRoot_outcomes tree13 4).2.2
      (BPlusTreePage.internal { parent_page_id := INVALID_PAGE_ID, max_size := 4,
                                slots := [(0, 2), (4, 3), (7, 5), (10, 6)] })
      (by decide) (by intro l h; cases h) (by intro n h; cases h; decide)

/-! ## The descent on a well-formed tree -/

theorem FetchPage_log {bpm bpm1 : BufferPoolManager} {id : page_id_t} {p : BPlusTreePage}
    (h : bpm.FetchPage id = some (bpm1, p)) :
    bpm1.log = bpm.log ++ [PoolEvent.fetch id] ∧
    ∀ x, bpm1.pin_count x = bpm.pin_count x + (if x = id then 1 else 0) := by
  unfold BufferPoolManager.FetchPage at h
  split at h
  · simp at h
  · simp only [Option.some.injEq, Prod.mk.injEq] at h
    obtain ⟨rfl, -⟩ := h
    refine ⟨rfl, fun x => ?_⟩
    by_cases hx : x = id
    · subst hx; simp
    · simp [hx]

theorem wellShaped_zero {pages : page_id_t → Option BPlusTreePage} {id : page_id_t}
    (h : wellShaped pages 0 id = true) : ∃ l, pages id = some (BPlusTreePage.leaf l) := by
  simp only [wellShaped] at h
  split at h
  · exact ⟨_, by assumption⟩
  · simp at h

theorem wellShaped_succ {pages : page_id_t → Option BPlusTreePage} {h : Nat} {id : page_id_t}
    (hw : wellShaped pages (h + 1) id = true) :
    ∃ n, pages id = some (BPlusTreePage.internal n) ∧ n.slots ≠ [] ∧
      ∀ e ∈ n.slots, wellShaped pages h e.2 = true := by
  simp only [wellShaped] at hw
  split at hw
  · rename_i n hp
    simp only [Bool.and_eq_true, Bool.not_eq_true', List.isEmpty_eq_false, List.all_eq_true] at hw
    exact ⟨n, hp, by simpa using hw.1, hw.2⟩
  · simp at hw

theorem ValueAt_mem {n : InternalPage} {i : Nat} {c : page_id_t} (h : n.ValueAt i = some c) :
    ∃ e ∈ n.slots, e.2 = c := by
  simp only [InternalPage.ValueAt, Option.map_eq_some'] at h
  obtain ⟨e, he, hc⟩ := h
  exact ⟨e, List.get?_mem he, hc⟩

theorem ValueAt_of_lt {n : InternalPage} {i : Nat} (h : i < n.slots.length) :
    ∃ c, n.ValueAt i = some c := by
  simp only [InternalPage.ValueAt]
  rw [List.get?_eq_get h]
  exact ⟨_, rfl⟩

theorem Lookup_some {n : InternalPage} (h : n.slots ≠ []) (key : GenericKey) :
    ∃ c, n.Lookup key = some c := by
  unfold InternalPage.Lookup
  apply ValueAt_of_lt
  have h1 : (List.takeWhile (fun e => decide (e.1 ≤ key)) n.slots.tail).length ≤
      n.slots.tail.length := (List.takeWhile_sublist _).length_le
  have h2 : n.slots.tail.length = n.slots.length - 1 := List.length_tail _
  have h3 : 0 < n.slots.length := List.length_pos.mpr h
  omega

theorem child_step_some {n : InternalPage} (h : n.slots ≠ []) (key : GenericKey) (lm : Bool) :
    ∃ c, (if lm = true then n.ValueAt 0 else n.Lookup key) = some c ∧ ∃ e ∈ n.slots, e.2 = c := by
  cases lm with
  | true =>
    obtain ⟨c, hc⟩ := ValueAt_of_lt (n := n) (i := 0) (List.length_pos.mpr h)
    exact ⟨c, by simpa using hc, ValueAt_mem hc⟩
  | false =>
    obtain ⟨c, hc⟩ := Lookup_some h key
    exact ⟨c, by simpa using hc, ValueAt_mem hc⟩

theorem FindLeafPage_step {t : BPlusTree} {n : InternalPage} {pid c : page_id_t}
    {bpm1 : BufferPoolManager} (fuel : Nat) (key : GenericKey) (lm : Bool)
    (he : t.IsEmpty = false)
    (hf : t.buffer_pool_manager_.FetchPage pid = some (bpm1, BPlusTreePage.internal n))
    (hc : (if lm = true then n.ValueAt 0 else n.Lookup key) = some c) :
    BPlusTree.FindLeafPage (fuel + 1) t key pid lm =
      BPlusTree.FindLeafPage fuel (t.withPool (bpm1.UnpinPage pid false)) key c lm := by
  simp only [BPlusTree.FindLeafPage, he, Bool.false_eq_true, if_false, hf]
  cases lm with
  | true =>
    simp only [if_true] at hc
    simp only [if_true, hc]
  | false =>
    simp only [Bool.false_eq_true, if_false] at hc
    simp only [Bool.false_eq_true, if_false, hc]

theorem descend_step {pages : page_id_t → Option BPlusTreePage} {n : InternalPage}
    {pid c : page_id_t} (fuel : Nat) (key : GenericKey) (lm : Bool)
    (hp : pages pid = some (BPlusTreePage.internal n))
    (hc : (if lm = true then n.ValueAt 0 else n.Lookup key) = some c) :
    descend pages (fuel + 1) key pid lm = descend pages fuel key c lm := by
  simp only [descend, hp]
  cases lm with
  | true =>
    simp only [if_true] at hc
    simp only [if_true, hc]
  | false =>
    simp only [Bool.false_eq_true, if_false] at hc
    simp only [Bool.false_eq_true, if_false, hc]

theorem descentLog_step {pages : page_id_t → Option BPlusTreePage} {n : InternalPage}
    {pid c : page_id_t} (fuel : Nat) (key : GenericKey) (lm : Bool)
    (hp : pages pid = some (BPlusTreePage.internal n))
    (hc : (if lm = true then n.ValueAt 0 else n.Lookup key) = some c) :
    descentLog pages (fuel + 1) key pid lm =
      PoolEvent.fetch pid :: PoolEvent.unpin pid false :: descentLog pages fuel key c lm := by
  simp only [descentLog, hp, hc]

/-- C18: on every non-empty tree that is well formed (height `h` below `page_id`),
`FindLeafPage(key, page_id, leftMost)` returns, with any budget above `h`, a
leaf page; its calls on the pool are a fetch and a clean unpin of each internal
node on the way, in this order and before the child is fetched, and last the
fetch of the leaf, so exactly one pin is added, on the leaf; no page, root id
or registry entry changes.  The leaf is the one reached by taking
`Lookup(key)` at each internal node when `leftMost` is false and slot 0 when it
is true (`descend`). -/
theorem FindLeafPage_on_well_formed (h : Nat) : ∀ (t : BPlusTree) (key : GenericKey)
    (page_id : page_id_t) (leftMost : Bool) (fuel : Nat), t.IsEmpty = false →
    wellShaped t.buffer_pool_manager_.pages h page_id = true → h < fuel →
    ∃ t1 leaf, BPlusTree.FindLeafPage fuel t key page_id leftMost = some (t1, leaf) ∧
      descend t.buffer_pool_manager_.pages fuel key page_id leftMost = some leaf ∧
      (t.buffer_pool_manager_.leafAt leaf).isSome = true ∧
      t1.buffer_pool_manager_.log = t.buffer_pool_manager_.log ++
        descentLog t.buffer_pool_manager_.pages fuel key page_id leftMost ∧
      (∀ x, t1.buffer_pool_manager_.pin_count x =
        t.buffer_pool_manager_.pin_count x + (if x = leaf then 1 else 0)) ∧
      SameContent t t1 := by
  induction h with
  | zero =>
    intro t key pid lm fuel he hw hfuel
    obtain ⟨l, hl⟩ := wellShaped_zero hw
    obtain ⟨f, rfl⟩ : ∃ f, fuel = f + 1 := ⟨fuel - 1, by omega⟩
    obtain ⟨bpm1, hf⟩ := FetchPage_of_page hl
    refine ⟨t.withPool bpm1, pid, ?_, ?_, ?_, ?_, ?_, SameContent_fetch hf⟩
    · simp only [BPlusTree.FindLeafPage, he, Bool.false_eq_true, if_false, hf]
    · simp only [descend, hl]
    · simp only [BufferPoolManager.leafAt, hl, Option.isSome_some]
    · simp only [BPlusTree.withPool_pool, descentLog, hl, (FetchPage_log hf).1]
    · intro x
      simp only [BPlusTree.withPool_pool, (FetchPage_log hf).2 x]
  | succ h ih =>
    intro t key pid lm fuel he hw hfuel
    obtain ⟨n, hp, hne, hch⟩ := wellShaped_succ hw
    obtain ⟨f, rfl⟩ : ∃ f, fuel = f + 1 := ⟨fuel - 1, by omega⟩
    obtain ⟨bpm1, hf⟩ := FetchPage_of_page hp
    obtain ⟨c, hc, e, hemem, hec⟩ := child_step_some hne key lm
    have hsc : SameContent t (t.withPool (bpm1.UnpinPage pid false)) :=
      (SameContent_fetch hf).trans (SameContent_unpin _ _ _)
    have hpg : (t.withPool (bpm1.UnpinPage pid false)).buffer_pool_manager_.pages =
        t.buffer_pool_manager_.pages := hsc.2.2.2.2.1
    have hwc : wellShaped (t.withPool (bpm1.UnpinPage pid false)).buffer_pool_manager_.pages h c =
        true := by
      rw [hpg, ← hec]; exact hch e hemem
    have he1 : (t.withPool (bpm1.UnpinPage pid false)).IsEmpty = false := he
    obtain ⟨t1, leaf, h1, h2, h3, h4, h5, h6⟩ :=
      ih (t.withPool (bpm1.UnpinPage pid false)) key c lm f he1 hwc (by omega)
    refine ⟨t1, leaf, ?_, ?_, ?_, ?_, ?_, hsc.trans h6⟩
    · rw [FindLeafPage_step f key lm he hf hc]; exact h1
    · rw [descend_step f key lm hp hc, ← hpg]; exact h2
    · rw [← leafAt_congr hpg]; exact h3
    · rw [h4, descentLog_step f key lm hp hc, hpg]
      simp only [BPlusTree.withPool_pool, BufferPoolManager.UnpinPage, (FetchPage_log hf).1,
        List.append_assoc, List.singleton_append]
      rfl
    · intro x
      rw [h5 x]
      simp only [BPlusTree.withPool_pool, BufferPoolManager.UnpinPage, (FetchPage_log hf).2]
      by_cases hx : x = pid
      · subst hx; simp
      · simp [hx]

set_option maxRecDepth 1000000 in
/-- C18, at a concrete input: the tree holding 1..14 (capacity 4) has height 2 below
its root 9; the descent for key 12 visits 9 and 8 and returns leaf 6, the
leftmost descent visits 9 and 4 and returns leaf 2. -/
theorem FindLeafPage_on_well_formed_witness :
    tree14.IsEmpty = false ∧ wellShaped tree14.buffer_pool_manager_.pages 2 9 = true ∧
    descend tree14.buffer_pool_manager_.pages 3 12 9 false = some 6 ∧
    descentLog tree14.buffer_pool_manager_.pages 3 12 9 false =
      [PoolEvent.fetch 9, PoolEvent.unpin 9 false, PoolEvent.fetch 8, PoolEvent.unpin 8 false,
        PoolEvent.fetch 6] ∧
    descend tree14.buffer_pool_manager_.pages 3 12 9 true = some 2 ∧
    (∃ t1 leaf, BPlusTree.FindLeafPage 3 tree14 12 9 false = some (t1, leaf) ∧
      descend tree14.buffer_pool_manager_.pages 3 12 9 false = some leaf ∧
      (tree14.buffer_pool_manager_.leafAt leaf).isSome = true ∧
      t1.buffer_pool_manager_.log = tree14.buffer_pool_manager_.log ++
        descentLog tree14.buffer_pool_manager_.pages 3 12 9 false ∧
      (∀ x, t1.buffer_pool_manager_.pin_count x =
        tree14.buffer_pool_manager_.pin_count x + (if x = leaf then 1 else 0)) ∧
      SameContent tree14 t1) ∧
    (∃ t1 leaf, BPlusTree.FindLeafPage 3 tree14 12 9 true = some (t1, leaf) ∧
      descend tree14.buffer_pool_manager_.pages 3 12 9 true = some leaf ∧
      (tree14.buffer_pool_manager_.leafAt leaf).isSome = true ∧
      t1.buffer_pool_manager_.log = tree14.buffer_pool_manager_.log ++
        descentLog tree14.buffer_pool_manager_.pages 3 12 9 true ∧
      (∀ x, t1.buffer_pool_manager_.pin_count x =
        tree14.buffer_pool_manager_.pin_count x + (if x = leaf then 1 else 0)) ∧
      SameContent tree14 t1) :=
  ⟨by decide, by decide, by decide, by decide, by decide,
    FindLeafPage_on_well_formed 2 tree14 12 9 false 3 (by decide) (by decide) (by decide),
    FindLeafPage_on_well_formed 2 tree14 12 9 true 3 (by decide) (by decide) (by decide)⟩

/-! ## Destruction of a well-formed tree -/

theorem postOrder_self (pages : page_id_t → Option BPlusTreePage) (h : Nat) (id : page_id_t) :
    id ∈ postOrder pages h id := by
  cases h with
  | zero => simp [postOrder]
  | succ h =>
    simp only [postOrder]
    split <;> simp

theorem postOrder_child {pages : page_id_t → Option BPlusTreePage} {h : Nat} {id : page_id_t}
    {n : InternalPage} (hp : pages id = some (BPlusTreePage.internal n))
    {e : GenericKey × page_id_t} (he : e ∈ n.slots) {x : page_id_t}
    (hx : x ∈ postOrder pages h e.2) : x ∈ postOrder pages (h + 1) id := by
  simp only [postOrder, hp, List.mem_append, List.mem_flatten, List.mem_map, List.mem_singleton]
  exact Or.inl ⟨_, ⟨e, he, rfl⟩, hx⟩

theorem all_congr_mem {α : Type} {l : List α} {f g : α → Bool}
    (h : ∀ e ∈ l, f e = g e) : l.all f = l.all g := by
  induction l with
  | nil => rfl
  | cons a l ih =>
    simp only [List.all_cons]
    rw [h a (List.mem_cons_self a l), ih (fun e he => h e (List.mem_cons_of_mem a he))]

theorem subtree_congr (h : Nat) : ∀ (pages pages1 : page_id_t → Option BPlusTreePage)
    (id : page_id_t), (∀ x ∈ postOrder pages h id, pages1 x = pages x) →
    postOrder pages1 h id = postOrder pages h id ∧
    wellShaped pages1 h id = wellShaped pages h id ∧
    destroyLog pages1 h id = destroyLog pages h id := by
  induction h with
  | zero =>
    intro pages pages1 id hx
    have hid := hx id (postOrder_self pages 0 id)
    simp only [postOrder, wellShaped, destroyLog, hid, and_self]
  | succ h ih =>
    intro pages pages1 id hx
    have hid := hx id (postOrder_self pages (h + 1) id)
    simp only [postOrder, wellShaped, destroyLog, hid]
    cases hp : pages id with
    | none => simp
    | some p =>
      cases p with
      | leaf l => simp
      | internal n =>
        have hc : ∀ e ∈ n.slots, postOrder pages1 h e.2 = postOrder pages h e.2 ∧
            wellShaped pages1 h e.2 = wellShaped pages h e.2 ∧
            destroyLog pages1 h e.2 = destroyLog pages h e.2 := by
          intro e he
          exact ih pages pages1 e.2 (fun x hxe => hx x (postOrder_child hp he hxe))
        have h1 : n.slots.map (fun e => postOrder pages1 h e.2) =
            n.slots.map (fun e => postOrder pages h e.2) :=
          List.map_congr_left (fun e he => (hc e he).1)
        have h2 : n.slots.all (fun e => wellShaped pages1 h e.2) =
            n.slots.all (fun e => wellShaped pages h e.2) :=
          all_congr_mem (fun e he => (hc e he).2.1)
        have h3 : n.slots.map (fun e => destroyLog pages1 h e.2) =
            n.slots.map (fun e => destroyLog pages h e.2) :=
          List.map_congr_left (fun e he => (hc e he).2.2)
        simp only [h1, h2, h3, and_self]

theorem deletedPages_append (a b : List PoolEvent) :
    deletedPages (a ++ b) = deletedPages a ++ deletedPages b := by
  induction a with
  | nil => rfl
  | cons e a ih =>
    cases e <;> simp [deletedPages, ih]

theorem deletedPages_flatten (ls : List (List PoolEvent)) :
    deletedPages ls.flatten = (ls.map deletedPages).flatten := by
  induction ls with
  | nil => rfl
  | cons l ls ih => simp [deletedPages_append, ih]

theorem deletedPages_destroyLog (pages : page_id_t → Option BPlusTreePage) (h : Nat) :
    ∀ id, deletedPages (destroyLog pages h id) = postOrder pages h id := by
  induction h with
  | zero => intro id; rfl
  | succ h ih =>
    intro id
    simp only [destroyLog, postOrder]
    split
    · simp only [deletedPages, List.append_eq, deletedPages_append, deletedPages_flatten,
        List.map_map]
      congr 2
      apply List.map_congr_left
      intro e _
      exact ih e.2
    · rfl

theorem get?_append_cons_length {α : Type} (e : α) (cs : List α) :
    ∀ pre : List α, (pre ++ e :: cs).get? pre.length = some e := by
  intro pre
  induction pre with
  | nil => rfl
  | cons a pre ih => simpa using ih

theorem Destroy_leaf_step {f : Nat} {t : BPlusTree} {id : page_id_t} {bpm1 : BufferPoolManager}
    {l : LeafPage} (hf : t.buffer_pool_manager_.FetchPage id = some (bpm1, BPlusTreePage.leaf l)) :
    BPlusTree.Destroy (f + 1) t id = some (t.withPool ((bpm1.UnpinPage id false).DeletePage id)) := by
  simp only [BPlusTree.Destroy, hf]

theorem Destroy_internal_step {f : Nat} {t : BPlusTree} {id : page_id_t}
    {bpm1 : BufferPoolManager} {n : InternalPage}
    (hf : t.buffer_pool_manager_.FetchPage id = some (bpm1, BPlusTreePage.internal n)) :
    BPlusTree.Destroy (f + 1) t id =
      match BPlusTree.destroyChildren (BPlusTree.Destroy f) id (n.GetSize + 1) 0 (t.withPool bpm1) with
      | none => none
      | some t1 =>
        some (t1.withPool ((t1.buffer_pool_manager_.UnpinPage id false).DeletePage id)) := by
  simp only [BPlusTree.Destroy, hf]

theorem destroyChildren_subtrees (h f : Nat) (frame : page_id_t) (n : InternalPage)
    (IH : ∀ (t : BPlusTree) (id : page_id_t),
      wellShaped t.buffer_pool_manager_.pages h id = true →
      (postOrder t.buffer_pool_manager_.pages h id).Nodup →
      (∀ x ∈ postOrder t.buffer_pool_manager_.pages h id,
        t.buffer_pool_manager_.pin_count x = 0) →
      ∃ t1, BPlusTree.Destroy f t id = some t1 ∧
        FreedBy t t1 (postOrder t.buffer_pool_manager_.pages h id)
          (destroyLog t.buffer_pool_manager_.pages h id)) :
    ∀ (cs pre : List (GenericKey × page_id_t)) (t : BPlusTree) (budget : Nat),
      t.buffer_pool_manager_.pages frame = some (BPlusTreePage.internal n) →
      n.slots = pre ++ cs →
      (∀ e ∈ cs, wellShaped t.buffer_pool_manager_.pages h e.2 = true) →
      ((cs.map (fun e => postOrder t.buffer_pool_manager_.pages h e.2)).flatten ++
        [frame]).Nodup →
      (∀ x ∈ (cs.map (fun e => postOrder t.buffer_pool_manager_.pages h e.2)).flatten,
        t.buffer_pool_manager_.pin_count x = 0) →
      cs.length < budget →
      ∃ t1, BPlusTree.destroyChildren (BPlusTree.Destroy f) frame budget pre.length t = some t1 ∧
        FreedBy t t1
          (cs.map (fun e => postOrder t.buffer_pool_manager_.pages h e.2)).flatten
          (cs.map (fun e => destroyLog t.buffer_pool_manager_.pages h e.2)).flatten := by
  intro cs
  induction cs with
  | nil =>
    intro pre t budget hp hs _ _ _ hb
    obtain ⟨b, rfl⟩ : ∃ b, budget = b + 1 := ⟨budget - 1, by omega⟩
    refine ⟨t, ?_, ?_⟩
    · have hlen : ¬ pre.length < n.GetSize := by
        simp [InternalPage.GetSize, hs]
      simp only [BPlusTree.destroyChildren, BufferPoolManager.internalAt, hp, hlen, ↓reduceIte]
    · refine ⟨by simp, fun x => by simp, fun x => rfl, rfl, rfl⟩
  | cons e cs ih =>
    intro pre t budget hp hs hw hnd hpin hb
    obtain ⟨b, rfl⟩ : ∃ b, budget = b + 1 := ⟨budget - 1, by simp at hb; omega⟩
    have hlen : pre.length < n.GetSize := by
      simp [InternalPage.GetSize, hs]
    have hval : n.ValueAt pre.length = some e.2 := by
      simp only [InternalPage.ValueAt, hs, get?_append_cons_length, Option.map_some']
    simp only [List.map_cons, List.flatten_cons, List.append_assoc] at hnd hpin ⊢
    rw [List.nodup_append] at hnd
    obtain ⟨hnd1, hnd2, hdisj⟩ := hnd
    have hpin1 : ∀ x ∈ postOrder t.buffer_pool_manager_.pages h e.2,
        t.buffer_pool_manager_.pin_count x = 0 :=
      fun x hx => hpin x (List.mem_append_left _ hx)
    obtain ⟨t', hd, hlog', hpages', hpins', hroot', hroots'⟩ :=
      IH t e.2 (hw e (List.mem_cons_self e cs)) hnd1 hpin1
    have hframe : frame ∉ postOrder t.buffer_pool_manager_.pages h e.2 :=
      fun hx => hdisj hx (List.mem_append_right _ (List.mem_singleton_self frame))
    have hp' : t'.buffer_pool_manager_.pages frame = some (BPlusTreePage.internal n) := by
      rw [hpages' frame, if_neg hframe, hp]
    have hagree : ∀ c ∈ cs, ∀ x ∈ postOrder t.buffer_pool_manager_.pages h c.2,
        t'.buffer_pool_manager_.pages x = t.buffer_pool_manager_.pages x := by
      intro c hc x hx
      have hxe : x ∉ postOrder t.buffer_pool_manager_.pages h e.2 := by
        intro hxe
        refine hdisj hxe (List.mem_append_left _ ?_)
        simp only [List.mem_flatten, List.mem_map]
        exact ⟨_, ⟨c, hc, rfl⟩, hx⟩
      rw [hpages' x, if_neg hxe]
    have hPO : cs.map (fun c => postOrder t'.buffer_pool_manager_.pages h c.2) =
        cs.map (fun c => postOrder t.buffer_pool_manager_.pages h c.2) :=
      List.map_congr_left (fun c hc => (subtree_congr h _ _ c.2 (hagree c hc)).1)
    have hDL : cs.map (fun c => destroyLog t'.buffer_pool_manager_.pages h c.2) =
        cs.map (fun c => destroyLog t.buffer_pool_manager_.pages h c.2) :=
      List.map_congr_left (fun c hc => (subtree_congr h _ _ c.2 (hagree c hc)).2.2)
    have hw' : ∀ c ∈ cs, wellShaped t'.buffer_pool_manager_.pages h c.2 = true := by
      intro c hc
      rw [(subtree_congr h _ _ c.2 (hagree c hc)).2.1]
      exact hw c (List.mem_cons_of_mem e hc)
    have hs' : n.slots = (pre ++ [e]) ++ cs := by simp [hs]
    obtain ⟨t1, hrec, hlog1, hpages1, hpins1, hroot1, hroots1⟩ :=
      ih (pre ++ [e]) t' b hp' hs' hw' (by rw [hPO]; exact hnd2)
        (by
          rw [hPO]
          intro x hx
          rw [hpins' x]
          exact hpin x (List.mem_append_right _ hx))
        (by simp at hb; omega)
    rw [hPO] at hpages1
    rw [hDL] at hlog1
    refine ⟨t1, ?_, ?_⟩
    · have hlen' : (pre ++ [e]).length = pre.length + 1 := by simp
      rw [hlen'] at hrec
      simp only [BPlusTree.destroyChildren, BufferPoolManager.internalAt, hp, hlen, ↓reduceIte, hval, hd,
        hrec]
    · refine ⟨?_, ?_, ?_, hroot1.trans hroot', hroots1.trans hroots'⟩
      · rw [hlog1, hlog', List.append_assoc]
      · intro x
        rw [hpages1 x, hpages' x]
        by_cases h1 : x ∈ postOrder t.buffer_pool_manager_.pages h e.2 <;>
          by_cases h2 : x ∈ (cs.map
            (fun c => postOrder t.buffer_pool_manager_.pages h c.2)).flatten <;>
          simp [h1, h2]
      · intro x
        rw [hpins1 x, hpins' x]

theorem Destroy_subtree (h : Nat) : ∀ (fuel : Nat) (t : BPlusTree) (id : page_id_t),
    h < fuel →
    wellShaped t.buffer_pool_manager_.pages h id = true →
    (postOrder t.buffer_pool_manager_.pages h id).Nodup →
    (∀ x ∈ postOrder t.buffer_pool_manager_.pages h id,
      t.buffer_pool_manager_.pin_count x = 0) →
    ∃ t1, BPlusTree.Destroy fuel t id = some t1 ∧
      FreedBy t t1 (postOrder t.buffer_pool_manager_.pages h id)
        (destroyLog t.buffer_pool_manager_.pages h id) := by
  induction h with
  | zero =>
    intro fuel t id hfuel hw _ hpin
    obtain ⟨f, rfl⟩ : ∃ f, fuel = f + 1 := ⟨fuel - 1, by omega⟩
    obtain ⟨l, hp⟩ := wellShaped_zero hw
    obtain ⟨bpm1, hf⟩ := FetchPage_of_page hp
    have hpages := (FetchPage_eq_some hf).2
    obtain ⟨hlog, hpins⟩ := FetchPage_log hf
    have h0 : t.buffer_pool_manager_.pin_count id = 0 := hpin id (postOrder_self _ 0 id)
    refine ⟨_, Destroy_leaf_step hf, ?_, ?_, ?_, rfl, ?_⟩
    · simp [BPlusTree.withPool, BufferPoolManager.DeletePage, BufferPoolManager.UnpinPage, hlog,
        hpins, h0, destroyLog]
    · intro x
      simp [BPlusTree.withPool, BufferPoolManager.DeletePage, BufferPoolManager.UnpinPage,
        hpages.1, postOrder]
    · intro x
      by_cases hx : x = id
      · subst hx
        simp [BPlusTree.withPool, BufferPoolManager.DeletePage, BufferPoolManager.UnpinPage, h0]
      · simp [BPlusTree.withPool, BufferPoolManager.DeletePage, BufferPoolManager.UnpinPage, hx,
          hpins]
    · simp [BPlusTree.withPool, BufferPoolManager.DeletePage, BufferPoolManager.UnpinPage,
        hpages.2.1]
  | succ h ih =>
    intro fuel t id hfuel hw hnd hpin
    obtain ⟨f, rfl⟩ : ∃ f, fuel = f + 1 := ⟨fuel - 1, by omega⟩
    obtain ⟨n, hp, _, hch⟩ := wellShaped_succ hw
    obtain ⟨bpm1, hf⟩ := FetchPage_of_page hp
    have hpages := (FetchPage_eq_some hf).2
    obtain ⟨hlog, hpins⟩ := FetchPage_log hf
    have h0 : t.buffer_pool_manager_.pin_count id = 0 := hpin id (postOrder_self _ (h + 1) id)
    simp only [postOrder, hp] at hnd hpin
    have hidout : id ∉ (n.slots.map
        (fun e => postOrder t.buffer_pool_manager_.pages h e.2)).flatten := by
      intro hx
      exact (List.nodup_append.1 hnd).2.2 hx (List.mem_singleton_self id)
    have hpool : (t.withPool bpm1).buffer_pool_manager_ = bpm1 := rfl
    obtain ⟨t1, hloop, hlog1, hpages1, hpins1, hroot1, hroots1⟩ :=
      destroyChildren_subtrees h f id n
        (fun t2 id2 hw2 hnd2 hpin2 => ih f t2 id2 (by omega) hw2 hnd2 hpin2)
        n.slots [] (t.withPool bpm1) (n.GetSize + 1)
        (by rw [hpool, hpages.1]; exact hp) rfl
        (by rw [hpool, hpages.1]; exact hch)
        (by rw [hpool, hpages.1]; exact hnd)
        (by
          rw [hpool, hpages.1]
          intro x hx
          have hxid : x ≠ id := fun hxid => hidout (hxid ▸ hx)
          rw [hpins x, if_neg hxid]
          exact hpin x (List.mem_append_left _ hx))
        (by simp [InternalPage.GetSize])
    rw [hpool] at hlog1 hpages1 hpins1 hroots1
    rw [hpages.1] at hlog1 hpages1
    have hloop' : BPlusTree.destroyChildren (BPlusTree.Destroy f) id (n.GetSize + 1) 0
        (t.withPool bpm1) = some t1 := hloop
    have hpin1 : t1.buffer_pool_manager_.pin_count id = 1 := by
      rw [hpins1 id, hpins id, h0]; simp
    refine ⟨t1.withPool ((t1.buffer_pool_manager_.UnpinPage id false).DeletePage id),
      by rw [Destroy_internal_step hf, hloop'], ?_, ?_, ?_, hroot1, ?_⟩
    · simp [BPlusTree.withPool, BufferPoolManager.DeletePage, BufferPoolManager.UnpinPage, hlog1,
        hlog, hpin1, destroyLog, hp]
    · intro x
      by_cases hx : x = id
      · subst hx
        simp [BPlusTree.withPool, BufferPoolManager.DeletePage, BufferPoolManager.UnpinPage,
          postOrder, hp]
      · simp only [BPlusTree.withPool, BufferPoolManager.DeletePage,
          BufferPoolManager.UnpinPage, hx, ↓reduceIte, hpages1 x, postOrder, hp,
          List.mem_append, List.mem_singleton, or_false]
    · intro x
      by_cases hx : x = id
      · subst hx
        simp [BPlusTree.withPool, BufferPoolManager.DeletePage, BufferPoolManager.UnpinPage, h0]
      · simp [BPlusTree.withPool, BufferPoolManager.DeletePage, BufferPoolManager.UnpinPage, hx,
          hpins1 x, hpins x]
    · simp [BPlusTree.withPool, BufferPoolManager.DeletePage, BufferPoolManager.UnpinPage,
        hroots1, hpages.2.1]

theorem destroyLog_unpin_delete (pages : page_id_t → Option BPlusTreePage) (h : Nat) :
    ∀ id, ∀ x ∈ postOrder pages h id,
      [PoolEvent.unpin x false, PoolEvent.delete x 0] <:+: destroyLog pages h id := by
  induction h with
  | zero =>
    intro id x hx
    simp only [postOrder, List.mem_singleton] at hx
    subst hx
    exact ⟨[PoolEvent.fetch x], [], rfl⟩
  | succ h ih =>
    intro id x hx
    simp only [postOrder, destroyLog] at hx ⊢
    split at hx
    · rename_i n hp
      simp only [List.mem_append, List.mem_flatten, List.mem_map, List.mem_singleton] at hx
      rcases hx with ⟨l, ⟨e, he, rfl⟩, hxe⟩ | rfl
      · have h1 := ih e.2 x hxe
        have h2 : destroyLog pages h e.2 <:+:
            (n.slots.map (fun e => destroyLog pages h e.2)).flatten :=
          List.infix_of_mem_flatten (List.mem_map.2 ⟨e, he, rfl⟩)
        obtain ⟨a, b, hab⟩ := h1.trans h2
        refine ⟨PoolEvent.fetch id :: a,
          b ++ [PoolEvent.unpin id false, PoolEvent.delete id 0], ?_⟩
        rw [← hab]
        simp
      · exact ⟨PoolEvent.fetch x ::
          (n.slots.map (fun e => destroyLog pages h e.2)).flatten, [], by simp⟩
    · simp only [List.mem_singleton] at hx
      subst hx
      exact ⟨[PoolEvent.fetch x], [], rfl⟩

/-! ### C16 -/

/-- C16: on a well-formed tree of height `h` (the root heads a subtree whose
leaves all lie `h` levels down, no page occurs twice in it) with no page pinned,
`Destroy(root_page_id)` returns; the pool calls it makes are those of
`destroyLog`, in which every page of the tree has its `unpin` directly followed
by its `delete` at pin count 0; the pages are deleted in post-order, each one
once; afterwards the pages of the tree are free, every other page is as before,
and no page is pinned. -/
theorem Destroy_frees_tree_post_order (t : BPlusTree) (h fuel : Nat)
    (hw : wellShaped t.buffer_pool_manager_.pages h t.root_page_id_ = true)
    (hnd : (postOrder t.buffer_pool_manager_.pages h t.root_page_id_).Nodup)
    (hpin : t.buffer_pool_manager_.CheckAllUnpinned)
    (hfuel : h < fuel) :
    ∃ t1, t.Destroy fuel t.root_page_id_ = some t1 ∧
      t1.buffer_pool_manager_.log = t.buffer_pool_manager_.log ++
        destroyLog t.buffer_pool_manager_.pages h t.root_page_id_ ∧
      deletedPages (destroyLog t.buffer_pool_manager_.pages h t.root_page_id_) =
        postOrder t.buffer_pool_manager_.pages h t.root_page_id_ ∧
      (∀ x ∈ postOrder t.buffer_pool_manager_.pages h t.root_page_id_,
        [PoolEvent.unpin x false, PoolEvent.delete x 0] <:+:
          destroyLog t.buffer_pool_manager_.pages h t.root_page_id_) ∧
      (∀ x, t1.buffer_pool_manager_.pages x =
        if x ∈ postOrder t.buffer_pool_manager_.pages h t.root_page_id_ then none
        else t.buffer_pool_manager_.pages x) ∧
      t1.buffer_pool_manager_.CheckAllUnpinned := by
  obtain ⟨t1, hd, hlog, hpages, hpins, -, -⟩ :=
    Destroy_subtree h fuel t t.root_page_id_ hfuel hw hnd (fun x _ => hpin x)
  exact ⟨t1, hd, hlog, deletedPages_destroyLog _ h _, destroyLog_unpin_delete _ h _, hpages,
    fun x => (hpins x).trans (hpin x)⟩

set_option maxRecDepth 1000000 in
theorem tree14_unpinned : tree14.buffer_pool_manager_.CheckAllUnpinned := by
  rw [BPlusTree.CheckAllUnpinned_iff]
  refine insertRange_pinLe 5 14 1 (applyOps_get (by decide)) ?_
  rw [← BPlusTree.CheckAllUnpinned_iff]
  exact create_fresh_unpinned 0 4 4

set_option maxRecDepth 1000000 in
/-- C16, at a concrete input: the tree holding 1..14 (capacity 4) has height 2 with
root 9 over the internal nodes 4 and 8; its pages in post-order are
2, 3, 5, 4, 6, 7, 8, 9, and `Destroy(9)` deletes them in that order and leaves
all of them free. -/
theorem Destroy_frees_tree_post_order_witness :
    tree14.root_page_id_ = 9 ∧
    postOrder tree14.buffer_pool_manager_.pages 2 9 = [2, 3, 5, 4, 6, 7, 8, 9] ∧
    ∃ t1, tree14.Destroy 3 9 = some t1 ∧
      deletedPages (t1.buffer_pool_manager_.log.drop tree14.buffer_pool_manager_.log.length) =
        [2, 3, 5, 4, 6, 7, 8, 9] ∧
      (∀ x ∈ [2, 3, 5, 4, 6, 7, 8, 9], t1.buffer_pool_manager_.pages x = none) ∧
      t1.buffer_pool_manager_.CheckAllUnpinned := by
  have hpo : postOrder tree14.buffer_pool_manager_.pages 2 9 = [2, 3, 5, 4, 6, 7, 8, 9] := by
    decide
  obtain ⟨t1, hd, hlog, hdel, -, hpages, hpins⟩ :=
    Destroy_frees_tree_post_order tree14 2 3 (by decide) (by decide) tree14_unpinned (by decide)
  refine ⟨by decide, hpo, t1, hd, ?_, ?_, hpins⟩
  · have hr : tree14.root_page_id_ = 9 := by decide
    rw [hr] at hlog hdel
    rw [hlog, List.drop_left, hdel, hpo]
  · intro x hx
    have hr : tree14.root_page_id_ = 9 := by decide
    rw [hr, hpo] at hpages
    rw [hpages x, if_pos hx]

/-! ## Insert-only trees: the leaf chain holds the inserted pairs -/

theorem invalid_lt_two : ¬ (2 : page_id_t) ≤ INVALID_PAGE_ID := by decide

theorem Core.ne_invalid {pg nx r ht ex} (hc : Core pg nx r ht ex) {x : page_id_t}
    {p : BPlusTreePage} (hx : pg x = some p) : x ≠ INVALID_PAGE_ID := by
  intro h
  have := (hc.live x p hx).1
  rw [h] at this
  exact invalid_lt_two this

theorem Core.ne_next {pg nx r ht ex} (hc : Core pg nx r ht ex) {x : page_id_t}
    {p : BPlusTreePage} (hx : pg x = some p) : x ≠ nx := by
  intro h
  have := (hc.live x p hx).2
  rw [h] at this
  exact lt_irrefl _ this

theorem Core.next_free {pg nx r ht ex} (hc : Core pg nx r ht ex) : pg nx = none := by
  cases h : pg nx with
  | none => rfl
  | some p => exact absurd rfl (hc.ne_next h)

theorem SetParentPageId_idem (p : BPlusTreePage) (a b : page_id_t) :
    (p.SetParentPageId a).SetParentPageId b = p.SetParentPageId b := by
  cases p <;> rfl

theorem spine_SetParentPageId (p : BPlusTreePage) (a : page_id_t) :
    spine (p.SetParentPageId a) = spine p := by
  cases p <;> rfl

/-- Step 1: a leaf gets another slot array (not empty), nothing else changes. -/
theorem Core_leaf_write {pg nx r ht ex} (hc : Core pg nx r ht ex) {a : page_id_t} {l : LeafPage}
    (ha : pg a = some (BPlusTreePage.leaf l)) (s : List (GenericKey × RowId)) (hs : s ≠ []) :
    Core (fun x => if x = a then some (BPlusTreePage.leaf { l with slots := s }) else pg x)
      nx r ht ex := by
  have hpar : ∀ x q, pg x = some q → ∃ q1,
      (if x = a then some (BPlusTreePage.leaf { l with slots := s }) else pg x) = some q1 ∧
      q1.GetParentPageId = q.GetParentPageId := by
    intro x q hx
    by_cases hxa : x = a
    · subst hxa
      rw [ha] at hx
      simp only [Option.some.injEq] at hx
      subst hx
      exact ⟨_, if_pos rfl, rfl⟩
    · exact ⟨q, by rw [if_neg hxa]; exact hx, rfl⟩
  have hint : ∀ x n, (if x = a then some (BPlusTreePage.leaf { l with slots := s }) else pg x) =
      some (BPlusTreePage.internal n) → pg x = some (BPlusTreePage.internal n) := by
    intro x n hx
    by_cases hxa : x = a
    · rw [if_pos hxa] at hx; simp at hx
    · rw [if_neg hxa] at hx; exact hx
  have hlive : ∀ x q, (if x = a then some (BPlusTreePage.leaf { l with slots := s }) else pg x) =
      some q → ∃ q0, pg x = some q0 ∧ q0.GetParentPageId = q.GetParentPageId := by
    intro x q hx
    by_cases hxa : x = a
    · rw [if_pos hxa] at hx
      simp only [Option.some.injEq] at hx
      subst hx; subst hxa
      exact ⟨_, ha, rfl⟩
    · rw [if_neg hxa] at hx; exact ⟨q, hx, rfl⟩
  constructor
  · intro x p hx
    obtain ⟨q0, hq0, -⟩ := hlive x p hx
    exact hc.live x q0 hq0
  · intro x n hx
    obtain ⟨h1, h2, h3⟩ := hc.node x n (hint x n hx)
    refine ⟨h1, h2, fun c hcm => ?_⟩
    obtain ⟨hce, q, hq, hqp, hh⟩ := h3 c hcm
    obtain ⟨q1, hq1, hq1p⟩ := hpar c q hq
    exact ⟨hce, q1, hq1, hq1p.trans hqp, hh⟩
  · intro x l1 hx
    by_cases hxa : x = a
    · rw [if_pos hxa] at hx
      simp only [Option.some.injEq, BPlusTreePage.leaf.injEq] at hx
      subst hx; subst hxa
      exact ⟨(hc.leaf x l ha).1, hs⟩
    · rw [if_neg hxa] at hx; exact hc.leaf x l1 hx
  · intro x p hx hxe
    obtain ⟨q0, hq0, hq0p⟩ := hlive x p hx
    obtain ⟨h1, h2⟩ := hc.up x q0 hq0 hxe
    rw [← hq0p]
    refine ⟨h1, fun hne => ?_⟩
    obtain ⟨n, hn, hxn⟩ := h2 hne
    refine ⟨n, ?_, hxn⟩
    by_cases hpa : q0.GetParentPageId = a
    · rw [hpa, ha] at hn; simp at hn
    · rw [if_neg hpa]; exact hn
  · obtain ⟨p, hp, hpp⟩ := hc.root
    obtain ⟨q1, hq1, hq1p⟩ := hpar r p hp
    exact ⟨q1, hq1, hq1p.trans hpp⟩
  · intro x p hx
    obtain ⟨q0, hq0, -⟩ := hlive x p hx
    exact hc.top x q0 hq0

theorem take_ne_nil {α : Type} {s : List α} {k : Nat} (h1 : 0 < k) (h2 : k < s.length) :
    s.take k ≠ [] := by
  intro h
  have := congrArg List.length h
  simp only [List.length_take, List.length_nil] at this
  omega

theorem drop_ne_nil {α : Type} {s : List α} {k : Nat} (h2 : k < s.length) :
    s.drop k ≠ [] := by
  intro h
  have := congrArg List.length h
  simp at this
  omega

/-- Step 2: a leaf with at least two entries is split; the new leaf `nx` is not yet
entered in the parent. -/
theorem Core_splitLeaf {pg nx r ht} (hc : Core pg nx r ht INVALID_PAGE_ID) {a : page_id_t}
    {l : LeafPage} (ha : pg a = some (BPlusTreePage.leaf l)) (k lm : Nat) (h1 : 0 < k)
    (h2 : k < l.slots.length) :
    Core (fun x =>
        if x = a then some (BPlusTreePage.leaf
          { l with slots := l.slots.take k, next_page_id := nx })
        else if x = nx then some (BPlusTreePage.leaf
          { parent_page_id := l.parent_page_id, max_size := lm,
            next_page_id := l.next_page_id, slots := l.slots.drop k })
        else pg x)
      (nx + 1) r (fun x => if x = nx then 0 else ht x) nx := by
  have hanx : a ≠ nx := hc.ne_next ha
  have hpar : ∀ x q, pg x = some q → ∃ q1,
      (if x = a then some (BPlusTreePage.leaf
          { l with slots := l.slots.take k, next_page_id := nx })
        else if x = nx then some (BPlusTreePage.leaf
          { parent_page_id := l.parent_page_id, max_size := lm,
            next_page_id := l.next_page_id, slots := l.slots.drop k })
        else pg x) = some q1 ∧
      q1.GetParentPageId = q.GetParentPageId := by
    intro x q hx
    by_cases hxa : x = a
    · subst hxa
      rw [ha] at hx
      simp only [Option.some.injEq] at hx
      subst hx
      exact ⟨_, if_pos rfl, rfl⟩
    · exact ⟨q, by rw [if_neg hxa, if_neg (hc.ne_next hx)]; exact hx, rfl⟩
  have hold : ∀ x q1, (if x = a then some (BPlusTreePage.leaf
          { l with slots := l.slots.take k, next_page_id := nx })
        else if x = nx then some (BPlusTreePage.leaf
          { parent_page_id := l.parent_page_id, max_size := lm,
            next_page_id := l.next_page_id, slots := l.slots.drop k })
        else pg x) = some q1 → x ≠ nx →
      ∃ q, pg x = some q ∧ q.GetParentPageId = q1.GetParentPageId ∧
        ∀ n, q1 = BPlusTreePage.internal n → q = BPlusTreePage.internal n := by
    intro x q1 hx hxn
    by_cases hxa : x = a
    · rw [if_pos hxa] at hx
      simp only [Option.some.injEq] at hx
      subst hx; subst hxa
      exact ⟨_, ha, rfl, fun n hn => by simp at hn⟩
    · rw [if_neg hxa, if_neg hxn] at hx
      exact ⟨q1, hx, rfl, fun n hn => hn⟩
  have h2nx : (2 : page_id_t) ≤ nx := le_of_lt (lt_of_le_of_lt (hc.live a _ ha).1 (hc.live a _ ha).2)
  constructor
  · intro x p hx
    by_cases hxn : x = nx
    · subst hxn
      exact ⟨h2nx, Int.lt_succ_self x⟩
    · obtain ⟨q, hq, -, -⟩ := hold x p hx hxn
      exact ⟨(hc.live x q hq).1, lt_trans (hc.live x q hq).2 (Int.lt_succ_self nx)⟩
  · intro x n hx
    have hxn : x ≠ nx := by
      intro hxn
      rw [hxn, if_neg (fun h => hanx h.symm), if_pos rfl] at hx
      simp at hx
    obtain ⟨q, hq, -, hqn⟩ := hold x _ hx hxn
    rw [hqn n rfl] at hq
    obtain ⟨h1, h2, h3⟩ := hc.node x n hq
    refine ⟨h1, h2, fun c hcm => ?_⟩
    obtain ⟨-, qc, hqc, hqcp, hh⟩ := h3 c hcm
    obtain ⟨q1, hq1, hq1p⟩ := hpar c qc hqc
    refine ⟨hc.ne_next hqc, q1, hq1, hq1p.trans hqcp, ?_⟩
    simp only [if_neg (hc.ne_next hqc), if_neg hxn]
    exact hh
  · intro x l1 hx
    by_cases hxa : x = a
    · rw [if_pos hxa] at hx
      simp only [Option.some.injEq, BPlusTreePage.leaf.injEq] at hx
      subst hx; subst hxa
      simp only [if_neg hanx]
      exact ⟨(hc.leaf x l ha).1, take_ne_nil h1 h2⟩
    · rw [if_neg hxa] at hx
      by_cases hxn : x = nx
      · rw [if_pos hxn] at hx
        simp only [Option.some.injEq, BPlusTreePage.leaf.injEq] at hx
        subst hx
        simp only [if_pos hxn]
        exact ⟨trivial, drop_ne_nil h2⟩
      · rw [if_neg hxn] at hx
        simp only [if_neg hxn]
        exact hc.leaf x l1 hx
  · intro x p hx hxe
    obtain ⟨q0, hq0, hq0p, -⟩ := hold x p hx hxe
    obtain ⟨h1, h2⟩ := hc.up x q0 hq0 (hc.ne_invalid hq0)
    rw [← hq0p]
    refine ⟨h1, fun hne => ?_⟩
    obtain ⟨n, hn, hxn⟩ := h2 hne
    refine ⟨n, ?_, hxn⟩
    have hpa : q0.GetParentPageId ≠ a := by
      intro hpa
      rw [hpa, ha] at hn; simp at hn
    rw [if_neg hpa, if_neg (hc.ne_next hn)]; exact hn
  · obtain ⟨p, hp, hpp⟩ := hc.root
    obtain ⟨q1, hq1, hq1p⟩ := hpar r p hp
    exact ⟨q1, hq1, hq1p.trans hpp⟩
  · intro x p hx
    obtain ⟨pr, hpr, -⟩ := hc.root
    simp only [if_neg (hc.ne_next hpr)]
    by_cases hxn : x = nx
    · simp only [if_pos hxn]; exact Nat.zero_le _
    · simp only [if_neg hxn]
      obtain ⟨q0, hq0, -, -⟩ := hold x p hx hxn
      exact hc.top x q0 hq0

/-- Step 4: the node `new`, split off `old`, is entered among the children of the
parent of `old`. -/
theorem Core_parentInsert {pg nx r ht} {old new : page_id_t} (hc : Core pg nx r ht new)
    {po pn : BPlusTreePage} (hnew : pg new = some pn) (hpar : pn.GetParentPageId = po.GetParentPageId)
    (hht : ht new = ht old) {n : InternalPage}
    (hP : pg po.GetParentPageId = some (BPlusTreePage.internal n))
    (hmem : old ∈ n.slots.map Prod.snd)
    (s : List (GenericKey × page_id_t))
    (hperm : (s.map Prod.snd).Perm (new :: n.slots.map Prod.snd)) :
    Core (fun x => if x = po.GetParentPageId then
        some (BPlusTreePage.internal { n with slots := s }) else pg x)
      nx r ht INVALID_PAGE_ID := by
  obtain ⟨hn1, hn2, hn3⟩ := hc.node _ n hP
  have hhP : ht old + 1 = ht po.GetParentPageId := (hn3 old hmem).2.choose_spec.2.2
  have hnewP : new ≠ po.GetParentPageId := by
    intro h
    rw [← h, hht] at hhP
    omega
  have hnewc : new ∉ n.slots.map Prod.snd := fun h => (hn3 new h).1 rfl
  have hparq : ∀ x q, pg x = some q → ∃ q1,
      (if x = po.GetParentPageId then
        some (BPlusTreePage.internal { n with slots := s }) else pg x) = some q1 ∧
      q1.GetParentPageId = q.GetParentPageId := by
    intro x q hx
    by_cases hxa : x = po.GetParentPageId
    · subst hxa
      rw [hP] at hx
      simp only [Option.some.injEq] at hx
      subst hx
      exact ⟨_, if_pos rfl, rfl⟩
    · exact ⟨q, by rw [if_neg hxa]; exact hx, rfl⟩
  have holdq : ∀ x q1, (if x = po.GetParentPageId then
        some (BPlusTreePage.internal { n with slots := s }) else pg x) = some q1 →
      ∃ q, pg x = some q ∧ q.GetParentPageId = q1.GetParentPageId ∧
        (x ≠ po.GetParentPageId → q = q1) := by
    intro x q1 hx
    by_cases hxa : x = po.GetParentPageId
    · rw [if_pos hxa] at hx
      simp only [Option.some.injEq] at hx
      subst hx
      rw [hxa]
      exact ⟨_, hP, rfl, fun h => absurd rfl h⟩
    · rw [if_neg hxa] at hx
      exact ⟨q1, hx, rfl, fun _ => rfl⟩
  constructor
  · intro x p hx
    obtain ⟨q, hq, -, -⟩ := holdq x p hx
    exact hc.live x q hq
  · intro x n1 hx
    by_cases hxP : x = po.GetParentPageId
    · rw [if_pos hxP] at hx
      simp only [Option.some.injEq, BPlusTreePage.internal.injEq] at hx
      subst hx
      refine ⟨?_, ?_, ?_⟩
      · intro hs
        have hs1 : s = [] := hs
        rw [hs1] at hperm
        simpa using hperm.length_eq
      · exact hperm.nodup_iff.2 (List.nodup_cons.2 ⟨hnewc, hn2⟩)
      · intro c hcm
        have hcm1 : c ∈ new :: n.slots.map Prod.snd := hperm.mem_iff.1 hcm
        rcases List.mem_cons.1 hcm1 with hcn | hco
        · subst hcn
          refine ⟨hc.ne_invalid hnew, pn, ?_, ?_, ?_⟩
          · rw [if_neg hnewP]; exact hnew
          · rw [hpar, hxP]
          · rw [hht, hxP]; exact hhP
        · obtain ⟨-, q, hq, hqp, hh⟩ := hn3 c hco
          have hcP : c ≠ po.GetParentPageId := by
            intro h; rw [h] at hh; omega
          refine ⟨hc.ne_invalid hq, q, ?_, ?_, ?_⟩
          · rw [if_neg hcP]; exact hq
          · rw [hqp, hxP]
          · rw [hxP]; exact hh
    · rw [if_neg hxP] at hx
      obtain ⟨h1, h2, h3⟩ := hc.node x n1 hx
      refine ⟨h1, h2, fun c hcm => ?_⟩
      obtain ⟨-, q, hq, hqp, hh⟩ := h3 c hcm
      obtain ⟨q1, hq1, hq1p⟩ := hparq c q hq
      exact ⟨hc.ne_invalid hq, q1, hq1, hq1p.trans hqp, hh⟩
  · intro x l1 hx
    by_cases hxP : x = po.GetParentPageId
    · rw [if_pos hxP] at hx; simp at hx
    · rw [if_neg hxP] at hx; exact hc.leaf x l1 hx
  · intro x p hx _
    obtain ⟨q0, hq0, hq0p, -⟩ := holdq x p hx
    rw [← hq0p]
    by_cases hxn : x = new
    · subst hxn
      rw [hnew] at hq0
      simp only [Option.some.injEq] at hq0
      subst hq0
      refine ⟨fun h => ?_, fun _ => ?_⟩
      · exfalso
        rw [hpar] at h
        rw [h] at hP
        exact hc.ne_invalid hP rfl
      · rw [hpar]
        refine ⟨_, if_pos rfl, ?_⟩
        exact hperm.mem_iff.2 (List.mem_cons_self _ _)
    · obtain ⟨h1, h2⟩ := hc.up x q0 hq0 hxn
      refine ⟨h1, fun hne1 => ?_⟩
      obtain ⟨n0, hn0, hxn0⟩ := h2 hne1
      by_cases hpp : q0.GetParentPageId = po.GetParentPageId
      · rw [hpp] at hn0 ⊢
        rw [hP] at hn0
        simp only [Option.some.injEq, BPlusTreePage.internal.injEq] at hn0
        subst hn0
        refine ⟨_, if_pos rfl, ?_⟩
        exact hperm.mem_iff.2 (List.mem_cons_of_mem _ hxn0)
      · exact ⟨n0, by rw [if_neg hpp]; exact hn0, hxn0⟩
  · obtain ⟨p, hp, hpp⟩ := hc.root
    obtain ⟨q1, hq1, hq1p⟩ := hparq r p hp
    exact ⟨q1, hq1, hq1p.trans hpp⟩
  · intro x p hx
    obtain ⟨q0, hq0, -, -⟩ := holdq x p hx
    exact hc.top x q0 hq0

theorem SetParentPageId_internal {p : BPlusTreePage} {a : page_id_t} {n : InternalPage}
    (h : p.SetParentPageId a = BPlusTreePage.internal n) :
    ∃ n0, p = BPlusTreePage.internal n0 ∧ n.slots = n0.slots := by
  cases p with
  | leaf l => simp [BPlusTreePage.SetParentPageId] at h
  | internal n0 =>
    simp only [BPlusTreePage.SetParentPageId, BPlusTreePage.internal.injEq] at h
    subst h
    exact ⟨n0, rfl, rfl⟩

theorem SetParentPageId_leaf {p : BPlusTreePage} {a : page_id_t} {l : LeafPage}
    (h : p.SetParentPageId a = BPlusTreePage.leaf l) :
    ∃ l0, p = BPlusTreePage.leaf l0 ∧ l.slots = l0.slots ∧ l.next_page_id = l0.next_page_id := by
  cases p with
  | internal n => simp [BPlusTreePage.SetParentPageId] at h
  | leaf l0 =>
    simp only [BPlusTreePage.SetParentPageId, BPlusTreePage.leaf.injEq] at h
    subst h
    exact ⟨l0, rfl, rfl, rfl⟩

theorem SetParentPageId_of_internal (n : InternalPage) (a : page_id_t) :
    (BPlusTreePage.internal n).SetParentPageId a =
      BPlusTreePage.internal { n with parent_page_id := a } := rfl

/-- Step 3: the root `old` was split; a new root `nx` takes `old` and `new` as its two
children. -/
theorem Core_newRoot {pg nx r ht} {old new : page_id_t} (hc : Core pg nx r ht new)
    {po pn : BPlusTreePage} (hold : pg old = some po) (hnew : pg new = some pn)
    (hne : old ≠ new) (hht : ht new = ht old) (hroot : po.GetParentPageId = INVALID_PAGE_ID)
    (im : Nat) (k0 key : GenericKey) :
    Core (fun x =>
        if x = new then some (pn.SetParentPageId nx)
        else if x = old then some (po.SetParentPageId nx)
        else if x = nx then some (BPlusTreePage.internal
          { parent_page_id := INVALID_PAGE_ID, max_size := im, slots := [(k0, old), (key, new)] })
        else pg x)
      (nx + 1) nx (fun x => if x = nx then ht old + 1 else ht x) INVALID_PAGE_ID := by
  have hor : old = r := (hc.up old po hold hne).1 hroot
  have honx : old ≠ nx := hc.ne_next hold
  have hnnx : new ≠ nx := hc.ne_next hnew
  have h2nx : (2 : page_id_t) ≤ nx :=
    le_of_lt (lt_of_le_of_lt (hc.live old _ hold).1 (hc.live old _ hold).2)
  have hnxi : nx ≠ INVALID_PAGE_ID := by
    intro h; rw [h] at h2nx; exact invalid_lt_two h2nx
  have hroot1 : (if nx = new then some (pn.SetParentPageId nx)
      else if nx = old then some (po.SetParentPageId nx)
      else if nx = nx then some (BPlusTreePage.internal
        { parent_page_id := INVALID_PAGE_ID, max_size := im, slots := [(k0, old), (key, new)] })
      else pg nx) = some (BPlusTreePage.internal
        { parent_page_id := INVALID_PAGE_ID, max_size := im,
          slots := [(k0, old), (key, new)] }) := by
    rw [if_neg (fun h => hnnx h.symm), if_neg (fun h => honx h.symm), if_pos rfl]
  -- a page of the old store that is a child of a node `x` is none of the three
  have hsame : ∀ c q x, pg c = some q → q.GetParentPageId = x → c ≠ new → x ≠ INVALID_PAGE_ID →
      (if c = new then some (pn.SetParentPageId nx)
        else if c = old then some (po.SetParentPageId nx)
        else if c = nx then some (BPlusTreePage.internal
          { parent_page_id := INVALID_PAGE_ID, max_size := im, slots := [(k0, old), (key, new)] })
        else pg c) = some q := by
    intro c q x hq hqp hcn hxi
    have hco : c ≠ old := by
      intro h
      rw [h, hold] at hq
      simp only [Option.some.injEq] at hq
      subst hq
      rw [hroot] at hqp
      exact hxi hqp.symm
    rw [if_neg hcn, if_neg hco, if_neg (hc.ne_next hq)]
    exact hq
  have holdq : ∀ x q1, (if x = new then some (pn.SetParentPageId nx)
        else if x = old then some (po.SetParentPageId nx)
        else if x = nx then some (BPlusTreePage.internal
          { parent_page_id := INVALID_PAGE_ID, max_size := im, slots := [(k0, old), (key, new)] })
        else pg x) = some q1 → x ≠ nx →
      ∃ q, pg x = some q ∧ q1 = (if x = new ∨ x = old then q.SetParentPageId nx else q) := by
    intro x q1 hx hxn
    by_cases h1 : x = new
    · rw [if_pos h1] at hx
      simp only [Option.some.injEq] at hx
      subst hx
      exact ⟨pn, h1 ▸ hnew, by simp [h1]⟩
    · rw [if_neg h1] at hx
      by_cases h2 : x = old
      · rw [if_pos h2] at hx
        simp only [Option.some.injEq] at hx
        subst hx
        exact ⟨po, h2 ▸ hold, by simp [h2]⟩
      · rw [if_neg h2, if_neg hxn] at hx
        exact ⟨q1, hx, by simp [h1, h2]⟩
  have hnode : ∀ x q n, pg x = some q →
      (if x = new ∨ x = old then q.SetParentPageId nx else q) = BPlusTreePage.internal n →
      ∃ n0, pg x = some (BPlusTreePage.internal n0) ∧ n.slots = n0.slots := by
    intro x q n hq hn
    by_cases h : x = new ∨ x = old
    · rw [if_pos h] at hn
      obtain ⟨n0, hn0, hs⟩ := SetParentPageId_internal hn
      exact ⟨n0, by rw [hq, hn0], hs⟩
    · rw [if_neg h] at hn
      exact ⟨n, by rw [hq, hn], rfl⟩
  constructor
  · intro x p hx
    by_cases hxn : x = nx
    · subst hxn
      exact ⟨h2nx, Int.lt_succ_self x⟩
    · obtain ⟨q, hq, -⟩ := holdq x p hx hxn
      exact ⟨(hc.live x q hq).1, lt_trans (hc.live x q hq).2 (Int.lt_succ_self nx)⟩
  · intro x n hx
    by_cases hxn : x = nx
    · rw [hxn, hroot1] at hx
      simp only [Option.some.injEq, BPlusTreePage.internal.injEq] at hx
      subst hx
      refine ⟨by simp, by simp [hne], ?_⟩
      intro c hcm
      simp only [List.map_cons, List.map_nil, List.mem_cons, List.mem_singleton, List.mem_nil_iff,
        or_false] at hcm
      rcases hcm with h | h
      · subst h
        refine ⟨hc.ne_invalid hold, po.SetParentPageId nx, ?_, ?_, ?_⟩
        · rw [if_neg hne, if_pos rfl]
        · rw [GetParentPageId_SetParentPageId, hxn]
        · simp only [if_neg honx, if_pos hxn]
      · subst h
        refine ⟨hc.ne_invalid hnew, pn.SetParentPageId nx, ?_, ?_, ?_⟩
        · rw [if_pos rfl]
        · rw [GetParentPageId_SetParentPageId, hxn]
        · simp only [if_neg hnnx, if_pos hxn, hht]
    · obtain ⟨q, hq, hq1⟩ := holdq x _ hx hxn
      obtain ⟨n0, hn0, hs⟩ := hnode x q n hq hq1.symm
      obtain ⟨h1, h2, h3⟩ := hc.node x n0 hn0
      rw [hs]
      refine ⟨h1, h2, fun c hcm => ?_⟩
      obtain ⟨hce, qc, hqc, hqcp, hh⟩ := h3 c hcm
      refine ⟨hc.ne_invalid hqc, qc, hsame c qc x hqc hqcp hce (hc.ne_invalid hn0), hqcp, ?_⟩
      simp only [if_neg (hc.ne_next hqc), if_neg hxn]
      exact hh
  · intro x l hx
    have hxn : x ≠ nx := by
      intro hxn
      rw [hxn, hroot1] at hx
      simp at hx
    obtain ⟨q, hq, hq1⟩ := holdq x _ hx hxn
    simp only [if_neg hxn]
    by_cases h : x = new ∨ x = old
    · rw [if_pos h] at hq1
      obtain ⟨l0, hl0, hs, -⟩ := SetParentPageId_leaf hq1.symm
      rw [hl0] at hq
      rw [hs]
      exact hc.leaf x l0 hq
    · rw [if_neg h] at hq1
      rw [← hq1] at hq
      exact hc.leaf x l hq
  · intro x p hx _
    by_cases hxn : x = nx
    · exact ⟨fun _ => hxn, fun h => by
        exfalso
        rw [hxn, hroot1] at hx
        simp only [Option.some.injEq] at hx
        subst hx
        exact h rfl⟩
    · obtain ⟨q, hq, hq1⟩ := holdq x p hx hxn
      by_cases h : x = new ∨ x = old
      · rw [if_pos h] at hq1
        subst hq1
        rw [GetParentPageId_SetParentPageId]
        refine ⟨fun h1 => absurd h1 hnxi, fun _ => ⟨_, hroot1, ?_⟩⟩
        rcases h with h | h <;> simp [h]
      · rw [if_neg h] at hq1
        subst hq1
        have hx1 : x ≠ new := fun h1 => h (Or.inl h1)
        have hx2 : x ≠ old := fun h1 => h (Or.inr h1)
        obtain ⟨h1, h2⟩ := hc.up x p hq hx1
        refine ⟨fun h3 => absurd ((h1 h3).trans hor.symm) hx2, fun h3 => ?_⟩
        obtain ⟨n0, hn0, hxn0⟩ := h2 h3
        by_cases hp1 : p.GetParentPageId = new
        · refine ⟨{ n0 with parent_page_id := nx }, ?_, hxn0⟩
          rw [if_pos hp1]
          rw [hp1, hnew] at hn0
          simp only [Option.some.injEq] at hn0
          rw [hn0]; rfl
        · by_cases hp2 : p.GetParentPageId = old
          · refine ⟨{ n0 with parent_page_id := nx }, ?_, hxn0⟩
            rw [if_neg hp1, if_pos hp2]
            rw [hp2, hold] at hn0
            simp only [Option.some.injEq] at hn0
            rw [hn0]; rfl
          · exact ⟨n0, by rw [if_neg hp1, if_neg hp2, if_neg (hc.ne_next hn0)]; exact hn0, hxn0⟩
  · exact ⟨_, hroot1, rfl⟩
  · intro x p hx
    simp only [if_pos]
    by_cases hxn : x = nx
    · simp only [if_pos hxn, le_refl]
    · obtain ⟨q, hq, -⟩ := holdq x p hx hxn
      simp only [if_neg hxn]
      have := hc.top x q hq
      rw [← hor] at this
      omega

theorem mem_map_snd_take_or_drop {α β : Type} (s : List (α × β)) (k : Nat) {c : β}
    (h : c ∈ s.map Prod.snd) : c ∈ (s.take k).map Prod.snd ∨ c ∈ (s.drop k).map Prod.snd := by
  rw [← List.take_append_drop k s, List.map_append, List.mem_append] at h
  exact h

theorem nodup_take_drop_disjoint {α β : Type} (s : List (α × β)) (k : Nat)
    (h : (s.map Prod.snd).Nodup) {c : β} (h1 : c ∈ (s.take k).map Prod.snd)
    (h2 : c ∈ (s.drop k).map Prod.snd) : False := by
  rw [← List.take_append_drop k s, List.map_append, List.nodup_append] at h
  exact h.2.2 h1 h2

/-- Step 5: an internal node `P` with at least two children is split; the upper
children go to the new node `nx` and name it as parent; `nx` is not yet entered
in the parent of `P`. -/
theorem Core_splitInternal {pg nx r ht} (hc : Core pg nx r ht INVALID_PAGE_ID) {P : page_id_t}
    {n : InternalPage} (hP : pg P = some (BPlusTreePage.internal n)) (k im : Nat) (h1 : 0 < k)
    (h2 : k < n.slots.length) :
    Core (fun x =>
        if x = nx then some (BPlusTreePage.internal
          { parent_page_id := n.parent_page_id, max_size := im, slots := n.slots.drop k })
        else if x = P then some (BPlusTreePage.internal { n with slots := n.slots.take k })
        else if x ∈ (n.slots.drop k).map Prod.snd then
          (pg x).map (fun q => q.SetParentPageId nx)
        else pg x)
      (nx + 1) r (fun x => if x = nx then ht P else ht x) nx := by
  obtain ⟨hn1, hn2, hn3⟩ := hc.node P n hP
  have hPnx : P ≠ nx := hc.ne_next hP
  have h2nx : (2 : page_id_t) ≤ nx :=
    le_of_lt (lt_of_le_of_lt (hc.live P _ hP).1 (hc.live P _ hP).2)
  have hnxi : nx ≠ INVALID_PAGE_ID := by
    intro h; rw [h] at h2nx; exact invalid_lt_two h2nx
  have hM : ∀ c ∈ (n.slots.drop k).map Prod.snd, c ∈ n.slots.map Prod.snd := by
    intro c hcm
    obtain ⟨e, he, rfl⟩ := List.mem_map.1 hcm
    exact List.mem_map.2 ⟨e, List.mem_of_mem_drop he, rfl⟩
  have hT : ∀ c ∈ (n.slots.take k).map Prod.snd, c ∈ n.slots.map Prod.snd := by
    intro c hcm
    obtain ⟨e, he, rfl⟩ := List.mem_map.1 hcm
    exact List.mem_map.2 ⟨e, List.mem_of_mem_take he, rfl⟩
  have hnxnew : (if nx = nx then some (BPlusTreePage.internal
          { parent_page_id := n.parent_page_id, max_size := im, slots := n.slots.drop k })
        else if nx = P then some (BPlusTreePage.internal { n with slots := n.slots.take k })
        else if nx ∈ (n.slots.drop k).map Prod.snd then
          (pg nx).map (fun q => q.SetParentPageId nx)
        else pg nx) = some (BPlusTreePage.internal
          { parent_page_id := n.parent_page_id, max_size := im, slots := n.slots.drop k }) :=
    if_pos rfl
  have hPnew : (if P = nx then some (BPlusTreePage.internal
          { parent_page_id := n.parent_page_id, max_size := im, slots := n.slots.drop k })
        else if P = P then some (BPlusTreePage.internal { n with slots := n.slots.take k })
        else if P ∈ (n.slots.drop k).map Prod.snd then
          (pg P).map (fun q => q.SetParentPageId nx)
        else pg P) = some (BPlusTreePage.internal { n with slots := n.slots.take k }) := by
    rw [if_neg hPnx, if_pos rfl]
  -- the page of an id other than `nx` and `P`
  have hother : ∀ x, x ≠ nx → x ≠ P →
      (if x = nx then some (BPlusTreePage.internal
          { parent_page_id := n.parent_page_id, max_size := im, slots := n.slots.drop k })
        else if x = P then some (BPlusTreePage.internal { n with slots := n.slots.take k })
        else if x ∈ (n.slots.drop k).map Prod.snd then
          (pg x).map (fun q => q.SetParentPageId nx)
        else pg x) =
      (if x ∈ (n.slots.drop k).map Prod.snd then (pg x).map (fun q => q.SetParentPageId nx)
        else pg x) := by
    intro x hx1 hx2
    rw [if_neg hx1, if_neg hx2]
  -- a child of `P` is neither `P` nor `nx`
  have hchild : ∀ c ∈ n.slots.map Prod.snd, c ≠ P ∧ c ≠ nx ∧
      ∃ q, pg c = some q ∧ q.GetParentPageId = P ∧ ht c + 1 = ht P := by
    intro c hcm
    obtain ⟨-, q, hq, hqp, hh⟩ := hn3 c hcm
    refine ⟨?_, hc.ne_next hq, q, hq, hqp, hh⟩
    intro h; rw [h] at hh; omega
  -- a page whose parent is not `P` is not among the moved children
  have hnotM : ∀ c q, pg c = some q → q.GetParentPageId ≠ P →
      c ∉ (n.slots.drop k).map Prod.snd := by
    intro c q hq hqp hcm
    obtain ⟨-, -, q1, hq1, hq1p, -⟩ := hchild c (hM c hcm)
    rw [hq] at hq1
    simp only [Option.some.injEq] at hq1
    subst hq1
    exact hqp hq1p
  have holdq : ∀ x q1, (if x = nx then some (BPlusTreePage.internal
          { parent_page_id := n.parent_page_id, max_size := im, slots := n.slots.drop k })
        else if x = P then some (BPlusTreePage.internal { n with slots := n.slots.take k })
        else if x ∈ (n.slots.drop k).map Prod.snd then
          (pg x).map (fun q => q.SetParentPageId nx)
        else pg x) = some q1 → x ≠ nx → ∃ q, pg x = some q := by
    intro x q1 hx hxn
    by_cases hxP : x = P
    · exact ⟨_, hxP ▸ hP⟩
    · rw [hother x hxn hxP] at hx
      by_cases hxm : x ∈ (n.slots.drop k).map Prod.snd
      · obtain ⟨-, -, q, hq, -, -⟩ := hchild x (hM x hxm)
        exact ⟨q, hq⟩
      · rw [if_neg hxm] at hx
        exact ⟨q1, hx⟩
  constructor
  · intro x p hx
    by_cases hxn : x = nx
    · subst hxn
      exact ⟨h2nx, Int.lt_succ_self x⟩
    · obtain ⟨q, hq⟩ := holdq x p hx hxn
      exact ⟨(hc.live x q hq).1, lt_trans (hc.live x q hq).2 (Int.lt_succ_self nx)⟩
  · intro x n1 hx
    by_cases hxn : x = nx
    · rw [hxn, hnxnew] at hx
      simp only [Option.some.injEq, BPlusTreePage.internal.injEq] at hx
      subst hx
      refine ⟨drop_ne_nil h2, (hn2.sublist ((List.drop_sublist k n.slots).map Prod.snd)), ?_⟩
      intro c hcm
      obtain ⟨hcP, hcnx, q, hq, hqp, hh⟩ := hchild c (hM c hcm)
      refine ⟨hcnx, q.SetParentPageId nx, ?_, ?_, ?_⟩
      · rw [hother c hcnx hcP, if_pos hcm, hq]; rfl
      · rw [GetParentPageId_SetParentPageId, hxn]
      · simp only [if_neg hcnx, if_pos hxn]; exact hh
    · by_cases hxP : x = P
      · rw [hxP, hPnew] at hx
        simp only [Option.some.injEq, BPlusTreePage.internal.injEq] at hx
        subst hx
        refine ⟨take_ne_nil h1 h2, (hn2.sublist ((List.take_sublist k n.slots).map Prod.snd)), ?_⟩
        intro c hcm
        obtain ⟨hcP, hcnx, q, hq, hqp, hh⟩ := hchild c (hT c hcm)
        have hcM : c ∉ (n.slots.drop k).map Prod.snd :=
          fun h => nodup_take_drop_disjoint n.slots k hn2 hcm h
        refine ⟨hcnx, q, ?_, ?_, ?_⟩
        · rw [hother c hcnx hcP, if_neg hcM, hq]
        · rw [hqp, hxP]
        · simp only [if_neg hcnx, if_neg hxn]; rw [hxP]; exact hh
      · rw [hother x hxn hxP] at hx
        -- the page of `x` in the old store is an internal node with the same slots
        have hx0 : ∃ n0, pg x = some (BPlusTreePage.internal n0) ∧ n1.slots = n0.slots := by
          by_cases hxm : x ∈ (n.slots.drop k).map Prod.snd
          · rw [if_pos hxm] at hx
            obtain ⟨q, hq, hq1⟩ := Option.map_eq_some'.1 hx
            obtain ⟨n0, hn0, hs⟩ := SetParentPageId_internal hq1
            exact ⟨n0, by rw [hq, hn0], hs⟩
          · rw [if_neg hxm] at hx
            exact ⟨n1, hx, rfl⟩
        obtain ⟨n0, hn0, hs⟩ := hx0
        obtain ⟨g1, g2, g3⟩ := hc.node x n0 hn0
        rw [hs]
        refine ⟨g1, g2, fun c hcm => ?_⟩
        obtain ⟨-, q, hq, hqp, hh⟩ := g3 c hcm
        have hcnx : c ≠ nx := hc.ne_next hq
        have hcM : c ∉ (n.slots.drop k).map Prod.snd := hnotM c q hq (by rw [hqp]; exact hxP)
        refine ⟨hcnx, ?_⟩
        by_cases hcP : c = P
        · refine ⟨_, by rw [hcP]; exact hPnew, ?_, ?_⟩
          · rw [hcP, hP] at hq
            simp only [Option.some.injEq] at hq
            subst hq
            exact hqp
          · simp only [if_neg hcnx, if_neg hxn]; exact hh
        · refine ⟨q, ?_, hqp, ?_⟩
          · rw [hother c hcnx hcP, if_neg hcM, hq]
          · simp only [if_neg hcnx, if_neg hxn]; exact hh
  · intro x l hx
    have hxn : x ≠ nx := by
      intro hxn
      rw [hxn, hnxnew] at hx
      simp at hx
    have hxP : x ≠ P := by
      intro hxP
      rw [hxP, hPnew] at hx
      simp at hx
    rw [hother x hxn hxP] at hx
    simp only [if_neg hxn]
    by_cases hxm : x ∈ (n.slots.drop k).map Prod.snd
    · rw [if_pos hxm] at hx
      obtain ⟨q, hq, hq1⟩ := Option.map_eq_some'.1 hx
      obtain ⟨l0, hl0, hs, -⟩ := SetParentPageId_leaf hq1
      rw [hl0] at hq
      rw [hs]
      exact hc.leaf x l0 hq
    · rw [if_neg hxm] at hx
      exact hc.leaf x l hx
  · intro x p hx hxn
    by_cases hxP : x = P
    · rw [hxP, hPnew] at hx
      simp only [Option.some.injEq] at hx
      subst hx
      obtain ⟨u1, u2⟩ := hc.up P _ hP (hc.ne_invalid hP)
      refine ⟨fun h => hxP.trans (u1 h), fun h => ?_⟩
      obtain ⟨n0, hn0, hxn0⟩ := u2 h
      obtain ⟨-, -, g3⟩ := hc.node _ n0 hn0
      obtain ⟨-, q, hq, hqp, hh⟩ := g3 P hxn0
      have hG1 : n.parent_page_id ≠ nx := hc.ne_next hn0
      have hG2 : n.parent_page_id ≠ P := by
        intro hG
        have hh1 : ht P + 1 = ht n.parent_page_id := hh
        rw [hG] at hh1; omega
      have hG3 : n.parent_page_id ∉ (n.slots.drop k).map Prod.snd := by
        intro hG
        obtain ⟨-, -, q2, hq2, hq2p, hh2⟩ := hchild _ (hM _ hG)
        have hh1 : ht P + 1 = ht n.parent_page_id := hh
        omega
      refine ⟨n0, ?_, hxP ▸ hxn0⟩
      exact ((hother _ hG1 hG2).trans (if_neg hG3)).trans hn0
    · rw [hother x hxn hxP] at hx
      by_cases hxm : x ∈ (n.slots.drop k).map Prod.snd
      · rw [if_pos hxm] at hx
        obtain ⟨q, hq, hq1⟩ := Option.map_eq_some'.1 hx
        subst hq1
        rw [GetParentPageId_SetParentPageId]
        exact ⟨fun h => absurd h hnxi, fun _ => ⟨_, hnxnew, hxm⟩⟩
      · rw [if_neg hxm] at hx
        obtain ⟨u1, u2⟩ := hc.up x p hx (hc.ne_invalid hx)
        refine ⟨u1, fun h => ?_⟩
        obtain ⟨n0, hn0, hxn0⟩ := u2 h
        have hG1 : p.GetParentPageId ≠ nx := hc.ne_next hn0
        by_cases hG2 : p.GetParentPageId = P
        · rw [hG2] at hn0 ⊢
          rw [hP] at hn0
          simp only [Option.some.injEq, BPlusTreePage.internal.injEq] at hn0
          subst hn0
          refine ⟨_, hPnew, ?_⟩
          rcases mem_map_snd_take_or_drop n.slots k hxn0 with h3 | h3
          · exact h3
          · exact absurd h3 hxm
        · rw [hother _ hG1 hG2]
          by_cases hG3 : p.GetParentPageId ∈ (n.slots.drop k).map Prod.snd
          · rw [if_pos hG3, hn0]
            exact ⟨{ n0 with parent_page_id := nx }, rfl, hxn0⟩
          · rw [if_neg hG3]
            exact ⟨n0, hn0, hxn0⟩
  · obtain ⟨p, hp, hpp⟩ := hc.root
    have hrn : r ≠ nx := hc.ne_next hp
    by_cases hrP : r = P
    · refine ⟨_, by rw [hrP]; exact hPnew, ?_⟩
      rw [hrP, hP] at hp
      simp only [Option.some.injEq] at hp
      subst hp
      exact hpp
    · refine ⟨p, ?_, hpp⟩
      rw [hother r hrn hrP, if_neg (hnotM r p hp ?_)]
      · exact hp
      · rw [hpp]; exact fun h => hc.ne_invalid hP h.symm
  · intro x p hx
    obtain ⟨pr, hpr, -⟩ := hc.root
    simp only [if_neg (hc.ne_next hpr)]
    by_cases hxn : x = nx
    · simp only [if_pos hxn]
      exact hc.top P _ hP
    · simp only [if_neg hxn]
      obtain ⟨q, hq⟩ := holdq x p hx hxn
      exact hc.top x q hq

theorem reparentAll_content (parent : page_id_t) : ∀ (cs : List page_id_t)
    (bpm : BufferPoolManager), (∀ c ∈ cs, ∃ p, bpm.pages c = some p) →
    ∃ bpm1, bpm.reparentAll parent cs = some bpm1 ∧
      (∀ x, bpm1.pages x =
        if x ∈ cs then (bpm.pages x).map (fun q => q.SetParentPageId parent) else bpm.pages x) ∧
      bpm1.next_page_id = bpm.next_page_id := by
  intro cs
  induction cs with
  | nil =>
    intro bpm _
    exact ⟨bpm, rfl, fun x => by simp, rfl⟩
  | cons c cs ih =>
    intro bpm hl
    obtain ⟨p, hp⟩ := hl c (List.mem_cons_self c cs)
    obtain ⟨b0, hf⟩ := FetchPage_of_page hp
    obtain ⟨-, hb0, -, hb0n⟩ := FetchPage_eq_some hf
    have hl1 : ∀ d ∈ cs,
        ∃ q, ((b0.write c (p.SetParentPageId parent)).UnpinPage c true).pages d = some q := by
      intro d hd
      obtain ⟨q, hq⟩ := hl d (List.mem_cons_of_mem c hd)
      by_cases hdc : d = c
      · exact ⟨p.SetParentPageId parent,
          by simp [BufferPoolManager.UnpinPage, BufferPoolManager.write, hdc]⟩
      · exact ⟨q, by simp [BufferPoolManager.UnpinPage, BufferPoolManager.write, hdc, hb0, hq]⟩
    obtain ⟨b2, hr, hpg, hnx⟩ := ih _ hl1
    refine ⟨b2, ?_, ?_, ?_⟩
    · simp only [BufferPoolManager.reparentAll, BufferPoolManager.reparent, hf, hr]
    · intro x
      rw [hpg x]
      by_cases hxc : x = c
      · subst hxc
        by_cases hxs : x ∈ cs
        · simp [BufferPoolManager.UnpinPage, BufferPoolManager.write, hxs, hp,
            SetParentPageId_idem]
        · simp [BufferPoolManager.UnpinPage, BufferPoolManager.write, hxs, hp]
      · by_cases hxs : x ∈ cs
        · simp [BufferPoolManager.UnpinPage, BufferPoolManager.write, hxs, hxc, hb0]
        · simp [BufferPoolManager.UnpinPage, BufferPoolManager.write, hxs, hxc, hb0]
    · rw [hnx]
      simp [BufferPoolManager.UnpinPage, hb0n]

theorem SameCaps_trans {t t1 t2 : BPlusTree} (h1 : SameCaps t t1) (h2 : SameCaps t1 t2) :
    SameCaps t t2 :=
  ⟨h2.1.trans h1.1, h2.2.1.trans h1.2.1, h2.2.2.trans h1.2.2⟩

theorem SplitLeaf_content (t : BPlusTree) (node : page_id_t) (n : LeafPage)
    (h : t.buffer_pool_manager_.pages node = some (BPlusTreePage.leaf n)) (k : Nat)
    (hk : k = (n.slots.length + 1) / 2) :
    ∃ t1, t.SplitLeaf node = some (t1, t.buffer_pool_manager_.next_page_id) ∧
      t1.buffer_pool_manager_.pages = (fun x =>
        if x = node then some (BPlusTreePage.leaf
          { n with slots := n.slots.take k,
                   next_page_id := t.buffer_pool_manager_.next_page_id })
        else if x = t.buffer_pool_manager_.next_page_id then some (BPlusTreePage.leaf
          { parent_page_id := n.parent_page_id, max_size := t.leaf_max_size_,
            next_page_id := n.next_page_id, slots := n.slots.drop k })
        else t.buffer_pool_manager_.pages x) ∧
      t1.buffer_pool_manager_.next_page_id = t.buffer_pool_manager_.next_page_id + 1 ∧
      t1.root_page_id_ = t.root_page_id_ ∧ SameCaps t t1 := by
  subst hk
  have hl : (t.buffer_pool_manager_.NewPage.1).leafAt node = some n := by
    simp [BufferPoolManager.leafAt, BufferPoolManager.NewPage, h]
  refine ⟨t.withPool ((((t.buffer_pool_manager_.NewPage.1).write
      t.buffer_pool_manager_.NewPage.2
      (BPlusTreePage.leaf (n.MoveHalfTo (LeafPage.Init n.parent_page_id t.leaf_max_size_)
        t.buffer_pool_manager_.NewPage.2).2)).write node
      (BPlusTreePage.leaf (n.MoveHalfTo (LeafPage.Init n.parent_page_id t.leaf_max_size_)
        t.buffer_pool_manager_.NewPage.2).1)).UnpinPage t.buffer_pool_manager_.NewPage.2 true),
    by simp only [BPlusTree.SplitLeaf, hl]; rfl, ?_, rfl, rfl, ⟨rfl, rfl, rfl⟩⟩
  funext x
  simp [BufferPoolManager.UnpinPage, BufferPoolManager.write, BufferPoolManager.NewPage,
    LeafPage.MoveHalfTo, LeafPage.Init]

theorem SplitInternal_content (t : BPlusTree) (P : page_id_t) (n : InternalPage)
    (hP : t.buffer_pool_manager_.pages P = some (BPlusTreePage.internal n))
    (hPnx : P ≠ t.buffer_pool_manager_.next_page_id) (k : Nat)
    (hk : k = (n.slots.length + 1) / 2)
    (hlive : ∀ c ∈ (n.slots.drop k).map Prod.snd,
      c ≠ P ∧ c ≠ t.buffer_pool_manager_.next_page_id ∧
        ∃ q, t.buffer_pool_manager_.pages c = some q) :
    ∃ t1, t.SplitInternal P = some (t1, t.buffer_pool_manager_.next_page_id) ∧
      t1.buffer_pool_manager_.pages = (fun x =>
        if x = t.buffer_pool_manager_.next_page_id then some (BPlusTreePage.internal
          { parent_page_id := n.parent_page_id, max_size := t.internal_max_size_,
            slots := n.slots.drop k })
        else if x = P then
          some (BPlusTreePage.internal { n with slots := n.slots.take k })
        else if x ∈ (n.slots.drop k).map Prod.snd then
          (t.buffer_pool_manager_.pages x).map
            (fun q => q.SetParentPageId t.buffer_pool_manager_.next_page_id)
        else t.buffer_pool_manager_.pages x) ∧
      t1.buffer_pool_manager_.next_page_id = t.buffer_pool_manager_.next_page_id + 1 ∧
      t1.root_page_id_ = t.root_page_id_ ∧ SameCaps t t1 := by
  subst hk
  have hi : (t.buffer_pool_manager_.NewPage.1).internalAt P = some n := by
    simp [BufferPoolManager.internalAt, BufferPoolManager.NewPage, hP]
  have hi2 : ((t.buffer_pool_manager_.NewPage.1).write t.buffer_pool_manager_.NewPage.2
      (BPlusTreePage.internal (InternalPage.Init n.parent_page_id t.internal_max_size_))).internalAt
        P = some n := by
    simp [BufferPoolManager.internalAt, BufferPoolManager.NewPage, BufferPoolManager.write, hP,
      hPnx]
  have hi3 : ((t.buffer_pool_manager_.NewPage.1).write t.buffer_pool_manager_.NewPage.2
      (BPlusTreePage.internal (InternalPage.Init n.parent_page_id t.internal_max_size_))).internalAt
        t.buffer_pool_manager_.NewPage.2 =
      some (InternalPage.Init n.parent_page_id t.internal_max_size_) := by
    simp [BufferPoolManager.internalAt, BufferPoolManager.NewPage, BufferPoolManager.write]
  obtain ⟨b3, hb3, hpg3, hnx3⟩ := reparentAll_content t.buffer_pool_manager_.NewPage.2
    ((n.slots.drop ((n.slots.length + 1) / 2)).map Prod.snd)
    ((((t.buffer_pool_manager_.NewPage.1).write t.buffer_pool_manager_.NewPage.2
      (BPlusTreePage.internal (InternalPage.Init n.parent_page_id t.internal_max_size_))).write
        t.buffer_pool_manager_.NewPage.2
        (BPlusTreePage.internal
          { (InternalPage.Init n.parent_page_id t.internal_max_size_) with
            slots := (InternalPage.Init n.parent_page_id t.internal_max_size_).slots ++
              n.slots.drop ((n.slots.length + 1) / 2) })).write P
        (BPlusTreePage.internal { n with slots := n.slots.take ((n.slots.length + 1) / 2) }))
    (by
      intro c hc
      obtain ⟨h1, h2, q, hq⟩ := hlive c hc
      exact ⟨q, by simp [BufferPoolManager.write, BufferPoolManager.NewPage, h1, h2, hq]⟩)
  refine ⟨(t.withPool (b3.UnpinPage t.buffer_pool_manager_.NewPage.2 true)), ?_, ?_, ?_, rfl,
    ⟨rfl, rfl, rfl⟩⟩
  · simp only [BPlusTree.SplitInternal, hi, BufferPoolManager.InternalMoveHalfTo, hi2, hi3, hb3]
    rfl
  · funext x
    simp only [BPlusTree.withPool_pool, BufferPoolManager.UnpinPage]
    rw [hpg3 x]
    by_cases hxn : x = t.buffer_pool_manager_.next_page_id
    · have hxm : x ∉ (n.slots.drop ((n.slots.length + 1) / 2)).map Prod.snd :=
        fun hm => (hlive x hm).2.1 hxn
      have hxP : x ≠ P := fun h => hPnx (h ▸ hxn)
      rw [if_neg hxm, if_pos hxn]
      simp [BufferPoolManager.write, BufferPoolManager.NewPage, hxn, hPnx.symm,
        InternalPage.Init]
    · by_cases hxP : x = P
      · have hxm : x ∉ (n.slots.drop ((n.slots.length + 1) / 2)).map Prod.snd :=
          fun hm => (hlive x hm).1 hxP
        rw [if_neg hxm, if_neg hxn, if_pos hxP]
        simp [BufferPoolManager.write, BufferPoolManager.NewPage, hxP]
      · by_cases hxm : x ∈ (n.slots.drop ((n.slots.length + 1) / 2)).map Prod.snd
        · rw [if_pos hxm, if_neg hxn, if_neg hxP, if_pos hxm]
          simp [BufferPoolManager.write, BufferPoolManager.NewPage, hxn, hxP]
        · rw [if_neg hxm, if_neg hxn, if_neg hxP, if_neg hxm]
          simp [BufferPoolManager.write, BufferPoolManager.NewPage, hxn, hxP]
  · simp only [BPlusTree.withPool_pool, BufferPoolManager.UnpinPage]
    rw [hnx3]
    rfl

theorem spine_leaf {p : BPlusTreePage} {l : LeafPage} (h : spine p = spine (BPlusTreePage.leaf l)) :
    ∃ l1, p = BPlusTreePage.leaf l1 := by
  cases p with
  | leaf l1 => exact ⟨l1, rfl⟩
  | internal n => simp [spine] at h

theorem spine_internal {p : BPlusTreePage} {n : InternalPage}
    (h : spine p = spine (BPlusTreePage.internal n)) :
    ∃ n1, p = BPlusTreePage.internal n1 ∧ n1.ValueAt 0 = n.ValueAt 0 := by
  cases p with
  | leaf l1 => simp [spine] at h
  | internal n1 =>
    simp only [spine, Option.some.injEq] at h
    exact ⟨n1, rfl, h⟩

theorem descend_ext {pg pg1 : page_id_t → Option BPlusTreePage} (he : Ext pg pg1) (key : GenericKey) :
    ∀ (f : Nat) (x a : page_id_t), descend pg f key x true = some a →
      descend pg1 f key x true = some a := by
  intro f
  induction f with
  | zero => intro x a h; simp [descend] at h
  | succ f ih =>
    intro x a h
    simp only [descend] at h ⊢
    cases hp : pg x with
    | none => rw [hp] at h; simp at h
    | some p =>
      obtain ⟨p1, hp1, hs⟩ := he x p hp
      rw [hp] at h
      cases p with
      | leaf l =>
        obtain ⟨l1, rfl⟩ := spine_leaf hs
        rw [hp1]
        exact h
      | internal n =>
        obtain ⟨n1, rfl, hv⟩ := spine_internal hs
        rw [hp1]
        simp only [if_true] at h ⊢
        rw [hv]
        cases hc : n.ValueAt 0 with
        | none => rw [hc] at h; simp at h
        | some c =>
          rw [hc] at h
          exact ih c a h

theorem descend_fuel_succ (pg : page_id_t → Option BPlusTreePage) (key : GenericKey) (lm : Bool) :
    ∀ (f : Nat) (x a : page_id_t), descend pg f key x lm = some a →
      descend pg (f + 1) key x lm = some a := by
  intro f
  induction f with
  | zero => intro x a h; simp [descend] at h
  | succ f ih =>
    intro x a h
    rw [descend] at h
    rw [descend]
    cases hp : pg x with
    | none => rw [hp] at h; simp at h
    | some p =>
      rw [hp] at h
      cases p with
      | leaf l => exact h
      | internal n =>
        simp only at h ⊢
        cases lm with
        | true =>
          simp only [if_true] at h ⊢
          cases hc : n.ValueAt 0 with
          | none => rw [hc] at h; simp at h
          | some c => rw [hc] at h; exact ih c a h
        | false =>
          simp only [Bool.false_eq_true, if_false] at h ⊢
          cases hc : n.Lookup key with
          | none => rw [hc] at h; simp at h
          | some c => rw [hc] at h; exact ih c a h

theorem descend_fuel_le (pg : page_id_t → Option BPlusTreePage) (key : GenericKey) (lm : Bool)
    {f g : Nat} (hfg : f ≤ g) {x a : page_id_t} (h : descend pg f key x lm = some a) :
    descend pg g key x lm = some a := by
  induction hfg with
  | refl => exact h
  | step _ ih => exact descend_fuel_succ pg key lm _ x a ih

theorem Spine_trans {pg pg1 pg2 : page_id_t → Option BPlusTreePage} {r r1 r2 : page_id_t}
    (h1 : Spine pg r pg1 r1) (h2 : Spine pg1 r1 pg2 r2) : Spine pg r pg2 r2 := by
  intro f hd h
  obtain ⟨f1, hf1⟩ := h1 f hd h
  exact h2 f1 hd hf1

theorem Spine_of_ext {pg pg1 : page_id_t → Option BPlusTreePage} (he : Ext pg pg1) (r : page_id_t) :
    Spine pg r pg1 r :=
  fun f hd h => ⟨f, descend_ext he 0 f r hd h⟩

/-! ### List facts for the slot arrays -/

theorem ValueIndex_of_mem {n : InternalPage} {c : page_id_t} (h : c ∈ n.slots.map Prod.snd) :
    ∃ i, n.ValueIndex c = some i ∧ i < n.slots.length := by
  have hlt : n.slots.findIdx (fun e => e.2 == c) < n.slots.length := by
    apply List.findIdx_lt_length_of_exists
    obtain ⟨e, he, hec⟩ := List.mem_map.1 h
    exact ⟨e, he, by simp [hec]⟩
  exact ⟨_, by simp only [InternalPage.ValueIndex, hlt, if_true], hlt⟩

theorem insert_snd_perm {α β : Type} (s : List (α × β)) (j : Nat) (e : α × β) :
    ((s.take j ++ e :: s.drop j).map Prod.snd).Perm (e.2 :: s.map Prod.snd) := by
  have h : (s.take j ++ e :: s.drop j).Perm (e :: s) := by
    have := @List.perm_middle _ e (s.take j) (s.drop j)
    rw [List.take_append_drop] at this
    exact this
  exact h.map Prod.snd

theorem get?_zero_insert {α : Type} (s : List α) (j : Nat) (e : α) (hs : s ≠ []) :
    (s.take (j + 1) ++ e :: s.drop (j + 1)).get? 0 = s.get? 0 := by
  cases s with
  | nil => exact absurd rfl hs
  | cons a s => rfl

theorem get?_zero_take {α : Type} (s : List α) (k : Nat) (hk : 0 < k) :
    (s.take k).get? 0 = s.get? 0 := by
  cases k with
  | zero => omega
  | succ k =>
    cases s with
    | nil => rfl
    | cons a s => rfl

theorem leafView_SetParentPageId (pg : page_id_t → Option BPlusTreePage) (x a : page_id_t) :
    (match (pg x).map (fun q => q.SetParentPageId a) with
      | some (BPlusTreePage.leaf l) => some (l.next_page_id, l.slots)
      | _ => none) = leafView pg x := by
  unfold leafView
  cases hp : pg x with
  | none => rfl
  | some p => cases p <;> rfl

theorem parentInsert_ext {pg : page_id_t → Option BPlusTreePage} {P : page_id_t}
    {n : InternalPage} (hP : pg P = some (BPlusTreePage.internal n))
    (s : List (GenericKey × page_id_t)) (h0 : s.get? 0 = n.slots.get? 0) :
    Ext pg (fun x => if x = P then some (BPlusTreePage.internal { n with slots := s }) else pg x) ∧
    ∀ x, leafView (fun x => if x = P then some (BPlusTreePage.internal { n with slots := s })
      else pg x) x = leafView pg x := by
  constructor
  · intro x p hx
    by_cases hxP : x = P
    · subst hxP
      rw [hP] at hx
      simp only [Option.some.injEq] at hx
      subst hx
      refine ⟨_, if_pos rfl, ?_⟩
      simp only [spine, InternalPage.ValueAt, h0]
    · exact ⟨p, by simp only [if_neg hxP]; exact hx, rfl⟩
  · intro x
    by_cases hxP : x = P
    · subst hxP
      simp only [leafView, if_true, hP]
    · simp only [leafView, if_neg hxP]

theorem splitInternal_ext {pg : page_id_t → Option BPlusTreePage} {nx : page_id_t}
    (hfree : pg nx = none) {P : page_id_t} {n : InternalPage}
    (hP : pg P = some (BPlusTreePage.internal n)) (k im : Nat) (hk : 0 < k) :
    Ext pg (fun x =>
        if x = nx then some (BPlusTreePage.internal
          { parent_page_id := n.parent_page_id, max_size := im, slots := n.slots.drop k })
        else if x = P then some (BPlusTreePage.internal { n with slots := n.slots.take k })
        else if x ∈ (n.slots.drop k).map Prod.snd then
          (pg x).map (fun q => q.SetParentPageId nx)
        else pg x) ∧
    ∀ x, leafView (fun x =>
        if x = nx then some (BPlusTreePage.internal
          { parent_page_id := n.parent_page_id, max_size := im, slots := n.slots.drop k })
        else if x = P then some (BPlusTreePage.internal { n with slots := n.slots.take k })
        else if x ∈ (n.slots.drop k).map Prod.snd then
          (pg x).map (fun q => q.SetParentPageId nx)
        else pg x) x = leafView pg x := by
  constructor
  · intro x p hx
    have hxn : x ≠ nx := by
      intro h; rw [h, hfree] at hx; simp at hx
    by_cases hxP : x = P
    · subst hxP
      rw [hP] at hx
      simp only [Option.some.injEq] at hx
      subst hx
      refine ⟨BPlusTreePage.internal { n with slots := n.slots.take k },
        by simp only [if_neg hxn, if_true], ?_⟩
      simp only [spine, InternalPage.ValueAt, get?_zero_take _ _ hk]
    · by_cases hxm : x ∈ (n.slots.drop k).map Prod.snd
      · exact ⟨p.SetParentPageId nx, by simp only [if_neg hxn, if_neg hxP, if_pos hxm, hx,
          Option.map_some'], spine_SetParentPageId p nx⟩
      · exact ⟨p, by simp only [if_neg hxn, if_neg hxP, if_neg hxm, hx], rfl⟩
  · intro x
    by_cases hxn : x = nx
    · subst hxn
      simp only [leafView, if_true, hfree]
    · by_cases hxP : x = P
      · subst hxP
        simp only [leafView, if_neg hxn, if_true, hP]
      · by_cases hxm : x ∈ (n.slots.drop k).map Prod.snd
        · simp only [leafView, if_neg hxn, if_neg hxP, if_pos hxm]
          exact leafView_SetParentPageId pg x nx
        · simp only [leafView, if_neg hxn, if_neg hxP, if_neg hxm]

theorem newRoot_ext {pg : page_id_t → Option BPlusTreePage} {nx old new : page_id_t}
    (hfree : pg nx = none) {po pn : BPlusTreePage} (hold : pg old = some po)
    (hnew : pg new = some pn) (im : Nat) (k0 key : GenericKey) :
    Ext pg (fun x =>
        if x = new then some (pn.SetParentPageId nx)
        else if x = old then some (po.SetParentPageId nx)
        else if x = nx then some (BPlusTreePage.internal
          { parent_page_id := INVALID_PAGE_ID, max_size := im, slots := [(k0, old), (key, new)] })
        else pg x) ∧
    (∀ x, leafView (fun x =>
        if x = new then some (pn.SetParentPageId nx)
        else if x = old then some (po.SetParentPageId nx)
        else if x = nx then some (BPlusTreePage.internal
          { parent_page_id := INVALID_PAGE_ID, max_size := im, slots := [(k0, old), (key, new)] })
        else pg x) x = leafView pg x) ∧
    Spine pg old (fun x =>
        if x = new then some (pn.SetParentPageId nx)
        else if x = old then some (po.SetParentPageId nx)
        else if x = nx then some (BPlusTreePage.internal
          { parent_page_id := INVALID_PAGE_ID, max_size := im, slots := [(k0, old), (key, new)] })
        else pg x) nx := by
  have honx : old ≠ nx := by
    intro h; rw [h, hfree] at hold; simp at hold
  have hnnx : new ≠ nx := by
    intro h; rw [h, hfree] at hnew; simp at hnew
  have hext : Ext pg (fun x =>
        if x = new then some (pn.SetParentPageId nx)
        else if x = old then some (po.SetParentPageId nx)
        else if x = nx then some (BPlusTreePage.internal
          { parent_page_id := INVALID_PAGE_ID, max_size := im, slots := [(k0, old), (key, new)] })
        else pg x) := by
    intro x p hx
    have hxn : x ≠ nx := by
      intro h; rw [h, hfree] at hx; simp at hx
    by_cases h1 : x = new
    · subst h1
      rw [hnew] at hx
      simp only [Option.some.injEq] at hx
      subst hx
      exact ⟨_, if_pos rfl, spine_SetParentPageId _ _⟩
    · by_cases h2 : x = old
      · subst h2
        rw [hold] at hx
        simp only [Option.some.injEq] at hx
        subst hx
        exact ⟨po.SetParentPageId nx, by simp only [if_neg h1, if_true],
          spine_SetParentPageId _ _⟩
      · exact ⟨p, by simp only [if_neg h1, if_neg h2, if_neg hxn, hx], rfl⟩
  refine ⟨hext, ?_, ?_⟩
  · intro x
    by_cases h1 : x = new
    · subst h1
      simp only [leafView, if_true]
      have := leafView_SetParentPageId pg x nx
      rw [hnew] at this
      simpa [leafView, hnew] using this
    · by_cases h2 : x = old
      · subst h2
        simp only [leafView, if_neg h1, if_true]
        have := leafView_SetParentPageId pg x nx
        rw [hold] at this
        simpa [leafView, hold] using this
      · by_cases h3 : x = nx
        · subst h3
          simp only [leafView, if_neg h1, if_neg h2, if_true, hfree]
        · simp only [leafView, if_neg h1, if_neg h2, if_neg h3]
  · intro f hd h
    refine ⟨f + 1, ?_⟩
    have := descend_ext hext 0 f old hd h
    rw [descend]
    simp only [if_neg (Ne.symm hnnx), if_neg (Ne.symm honx), if_true,
      InternalPage.ValueAt, List.get?_cons_zero, Option.map_some']
    exact this

theorem UpdateRootPageId_next (t : BPlusTree) (b : Bool) :
    (t.UpdateRootPageId b).buffer_pool_manager_.next_page_id =
      t.buffer_pool_manager_.next_page_id := by
  simp only [BPlusTree.UpdateRootPageId, BPlusTree.withPool_pool, BufferPoolManager.UnpinPage,
    BufferPoolManager.RootsInsert, BufferPoolManager.RootsUpdate,
    BufferPoolManager.FetchIndexRoots]
  cases b <;> simp only [Bool.false_eq_true, if_false, if_true] <;> split <;> rfl

theorem InsertIntoParent_root_content (f : Nat) (t : BPlusTree) (old new : page_id_t)
    (key : GenericKey) {po pn : BPlusTreePage}
    (hold : t.buffer_pool_manager_.pages old = some po)
    (hnew : t.buffer_pool_manager_.pages new = some pn) (hne : old ≠ new)
    (hnnx : new ≠ t.buffer_pool_manager_.next_page_id)
    (hroot : po.GetParentPageId = INVALID_PAGE_ID) :
    ∃ t1, BPlusTree.InsertIntoParent (f + 1) t old key new = some t1 ∧
      t1.buffer_pool_manager_.pages = (fun x =>
        if x = new then some (pn.SetParentPageId t.buffer_pool_manager_.next_page_id)
        else if x = old then some (po.SetParentPageId t.buffer_pool_manager_.next_page_id)
        else if x = t.buffer_pool_manager_.next_page_id then some (BPlusTreePage.internal
          { parent_page_id := INVALID_PAGE_ID, max_size := t.internal_max_size_,
            slots := [(0, old), (key, new)] })
        else t.buffer_pool_manager_.pages x) ∧
      t1.buffer_pool_manager_.next_page_id = t.buffer_pool_manager_.next_page_id + 1 ∧
      t1.root_page_id_ = t.buffer_pool_manager_.next_page_id ∧ SameCaps t t1 := by
  have hIs : po.IsRootPage = true := by
    simp [BPlusTreePage.IsRootPage, hroot]
  have hpR : ((((t.buffer_pool_manager_.NewPage.1).write t.buffer_pool_manager_.NewPage.2
      (BPlusTreePage.internal ((InternalPage.Init INVALID_PAGE_ID
        t.internal_max_size_).PopulateNewRoot old key new))).write old
        (po.SetParentPageId t.buffer_pool_manager_.NewPage.2)).pages new) = some pn := by
    simp only [BufferPoolManager.write, BufferPoolManager.NewPage, if_neg (Ne.symm hne),
      if_neg hnnx]
    exact hnew
  simp only [BPlusTree.InsertIntoParent, hold, hIs, if_true, hpR]
  refine ⟨_, rfl, ?_, ?_, rfl, ⟨rfl, rfl, rfl⟩⟩
  · funext x
    simp only [BPlusTree.withPool_pool, BufferPoolManager.UnpinPage, UpdateRootPageId_pages,
      BufferPoolManager.write, BufferPoolManager.NewPage, InternalPage.PopulateNewRoot,
      InternalPage.Init]
  · simp only [BPlusTree.withPool_pool, BufferPoolManager.UnpinPage, UpdateRootPageId_next,
      BufferPoolManager.write, BufferPoolManager.NewPage]

theorem InsertIntoParent_step (f : Nat) (t : BPlusTree) (old new : page_id_t)
    (key : GenericKey) {po : BPlusTreePage} {bpm1 : BufferPoolManager} {n parent1 : InternalPage}
    {P : page_id_t}
    (hold : t.buffer_pool_manager_.pages old = some po)
    (hPdef : po.GetParentPageId = P)
    (hnr : P ≠ INVALID_PAGE_ID)
    (hf : t.buffer_pool_manager_.FetchPage P = some (bpm1, BPlusTreePage.internal n))
    (hv : n.InsertNodeAfter old key new = some parent1) :
    BPlusTree.InsertIntoParent (f + 1) t old key new =
      if parent1.GetSize > parent1.GetMaxSize then
        match BPlusTree.SplitInternal
          (t.withPool (bpm1.write P (BPlusTreePage.internal parent1))) P with
        | none => none
        | some (t1, new_parent_page) =>
          match (t1.buffer_pool_manager_.internalAt new_parent_page).bind
            (fun n => n.KeyAt 0) with
          | none => none
          | some key1 =>
            match BPlusTree.InsertIntoParent f t1 P key1 new_parent_page with
            | none => none
            | some t2 => some (t2.withPool (t2.buffer_pool_manager_.UnpinPage P true))
      else some (t.withPool ((bpm1.write P (BPlusTreePage.internal parent1)).UnpinPage P true)) := by
  subst hPdef
  have hIs : po.IsRootPage = false := by
    simp [BPlusTreePage.IsRootPage, hnr]
  simp only [BPlusTree.InsertIntoParent, hold, hIs, hf, hv]
  rfl

/-- The split of an internal node `P` with at least two children in a tree whose
pages have the node-local shape: the new node is `next_page_id`, it holds a
first key, and the pages have the shape again up to the entry of the new node
in the parent of `P`. -/
theorem SplitInternal_pending (t : BPlusTree) (ht : page_id_t → Nat) (P : page_id_t)
    (n : InternalPage)
    (hc : Core t.buffer_pool_manager_.pages t.buffer_pool_manager_.next_page_id t.root_page_id_ ht
      INVALID_PAGE_ID)
    (hP : t.buffer_pool_manager_.pages P = some (BPlusTreePage.internal n))
    (hlen : 2 ≤ n.slots.length) :
    ∃ t1 key1 po pn, t.SplitInternal P = some (t1, t.buffer_pool_manager_.next_page_id) ∧
      (t1.buffer_pool_manager_.internalAt t.buffer_pool_manager_.next_page_id).bind
        (fun n => n.KeyAt 0) = some key1 ∧
      Core t1.buffer_pool_manager_.pages t1.buffer_pool_manager_.next_page_id t1.root_page_id_
        (fun x => if x = t.buffer_pool_manager_.next_page_id then ht P else ht x)
        t.buffer_pool_manager_.next_page_id ∧
      t1.buffer_pool_manager_.pages P = some po ∧
      t1.buffer_pool_manager_.pages t.buffer_pool_manager_.next_page_id = some pn ∧
      pn.GetParentPageId = po.GetParentPageId ∧
      (∀ x, leafView t1.buffer_pool_manager_.pages x = leafView t.buffer_pool_manager_.pages x) ∧
      Ext t.buffer_pool_manager_.pages t1.buffer_pool_manager_.pages ∧
      t1.root_page_id_ = t.root_page_id_ ∧ SameCaps t t1 := by
  obtain ⟨g1, g2, g3⟩ := hc.node P n hP
  have hPnx : P ≠ t.buffer_pool_manager_.next_page_id := hc.ne_next hP
  obtain ⟨k, hk⟩ : ∃ k, k = (n.slots.length + 1) / 2 := ⟨_, rfl⟩
  have hk1 : 0 < k := by omega
  have hk2 : k < n.slots.length := by omega
  obtain ⟨t1, hsplit, hpgs, hnxs, hrs, hcapss⟩ := SplitInternal_content t P n hP hPnx k hk
    (by
      intro c hcm
      have hcm1 : c ∈ n.slots.map Prod.snd := by
        obtain ⟨e, he, rfl⟩ := List.mem_map.1 hcm
        exact List.mem_map.2 ⟨e, List.mem_of_mem_drop he, rfl⟩
      obtain ⟨-, q, hq, hqp, hh⟩ := g3 c hcm1
      refine ⟨?_, hc.ne_next hq, q, hq⟩
      intro h; rw [h] at hh; omega)
  have hcore2 := Core_splitInternal hc hP k t.internal_max_size_ hk1 hk2
  obtain ⟨y1, y2⟩ := splitInternal_ext hc.next_free hP k t.internal_max_size_ hk1
  obtain ⟨e0, rest, he0⟩ : ∃ e0 rest, n.slots.drop k = e0 :: rest := by
    have := drop_ne_nil hk2
    cases hd : n.slots.drop k with
    | nil => exact absurd hd this
    | cons e0 rest => exact ⟨e0, rest, rfl⟩
  have hnewpg : t1.buffer_pool_manager_.pages t.buffer_pool_manager_.next_page_id =
      some (BPlusTreePage.internal
        { parent_page_id := n.parent_page_id, max_size := t.internal_max_size_,
          slots := n.slots.drop k }) := by
    rw [hpgs]
    exact if_pos rfl
  have holdpg : t1.buffer_pool_manager_.pages P =
      some (BPlusTreePage.internal { n with slots := n.slots.take k }) := by
    rw [hpgs]
    simp only [if_neg hPnx, if_true]
  refine ⟨t1, e0.1, _, _, hsplit, ?_, ?_, holdpg, hnewpg, rfl, ?_, ?_, hrs, hcapss⟩
  · simp only [BufferPoolManager.internalAt, hnewpg, Option.some_bind, InternalPage.KeyAt, he0,
      List.get?_cons_zero, Option.map_some']
  · rw [hpgs, hnxs, hrs]
    exact hcore2
  · rw [hpgs]; exact y2
  · rw [hpgs]; exact y1

/-- The first step of `InsertIntoParent` below the root: the parent `P` of `old` is
fetched and takes the entry of `new`; the pages then have the node-local shape
with no exempt page. -/
theorem parent_written (t : BPlusTree) (old : page_id_t) (key : GenericKey) (new : page_id_t)
    (ht : page_id_t → Nat) (po pn : BPlusTreePage) (P : page_id_t)
    (hc : Core t.buffer_pool_manager_.pages t.buffer_pool_manager_.next_page_id t.root_page_id_
      ht new)
    (hold : t.buffer_pool_manager_.pages old = some po)
    (hnew : t.buffer_pool_manager_.pages new = some pn)
    (hne : old ≠ new) (hpar : pn.GetParentPageId = po.GetParentPageId) (hht : ht new = ht old)
    (hPdef : po.GetParentPageId = P) (hroot : P ≠ INVALID_PAGE_ID) :
    ∃ bpm1 n parent1 t1, t.buffer_pool_manager_.FetchPage P =
        some (bpm1, BPlusTreePage.internal n) ∧
      n.InsertNodeAfter old key new = some parent1 ∧
      t1 = t.withPool (bpm1.write P (BPlusTreePage.internal parent1)) ∧
      2 ≤ parent1.slots.length ∧
      t1.buffer_pool_manager_.pages P = some (BPlusTreePage.internal parent1) ∧
      Core t1.buffer_pool_manager_.pages t1.buffer_pool_manager_.next_page_id t1.root_page_id_ ht
        INVALID_PAGE_ID ∧
      (∀ x, leafView t1.buffer_pool_manager_.pages x = leafView t.buffer_pool_manager_.pages x) ∧
      Ext t.buffer_pool_manager_.pages t1.buffer_pool_manager_.pages ∧
      ht old + 1 = ht P ∧
      t1.buffer_pool_manager_.next_page_id = t.buffer_pool_manager_.next_page_id := by
  subst hPdef
  obtain ⟨n, hP, hmem⟩ := (hc.up old po hold hne).2 hroot
  obtain ⟨i, hi, hilt⟩ := ValueIndex_of_mem hmem
  obtain ⟨hn1, hn2, hn3⟩ := hc.node _ n hP
  obtain ⟨bpm1, hf⟩ := FetchPage_of_page hP
  obtain ⟨-, hb1, -, hb1n⟩ := FetchPage_eq_some hf
  obtain ⟨s1, hs1⟩ : ∃ s1, s1 = n.slots.take (i + 1) ++ (key, new) :: n.slots.drop (i + 1) :=
    ⟨_, rfl⟩
  have hv : n.InsertNodeAfter old key new = some { n with slots := s1 } := by
    simp only [InternalPage.InsertNodeAfter, hi, hs1]
  have hperm : (s1.map Prod.snd).Perm (new :: n.slots.map Prod.snd) := by
    rw [hs1]; exact insert_snd_perm n.slots (i + 1) (key, new)
  have h0 : s1.get? 0 = n.slots.get? 0 := by
    rw [hs1]; exact get?_zero_insert n.slots i (key, new) hn1
  have hlen : s1.length = n.slots.length + 1 := by
    have := hperm.length_eq
    simpa using this
  have hlen0 : 0 < n.slots.length := List.length_pos.2 hn1
  have hcore1 := Core_parentInsert hc hnew hpar hht hP hmem s1 hperm
  obtain ⟨x1, x2⟩ := parentInsert_ext hP s1 h0
  have hpg1 : (bpm1.write po.GetParentPageId
      (BPlusTreePage.internal { n with slots := s1 })).pages =
      (fun x => if x = po.GetParentPageId then some (BPlusTreePage.internal { n with slots := s1 })
        else t.buffer_pool_manager_.pages x) := by
    funext x
    simp only [BufferPoolManager.write, hb1]
  refine ⟨bpm1, n, { n with slots := s1 }, _, hf, hv, rfl, ?_, ?_, ?_, ?_, ?_,
    (hn3 old hmem).2.choose_spec.2.2, ?_⟩
  · show 2 ≤ s1.length
    omega
  · rw [BPlusTree.withPool_pool, hpg1]
    exact if_pos rfl
  · rw [BPlusTree.withPool_pool, hpg1, BufferPoolManager.write_next_page_id, hb1n]
    exact hcore1
  · rw [BPlusTree.withPool_pool, hpg1]
    exact x2
  · rw [BPlusTree.withPool_pool, hpg1]
    exact x1
  · rw [BPlusTree.withPool_pool, BufferPoolManager.write_next_page_id, hb1n]

theorem InsertIntoParent_ascent : ∀ (fuel : Nat) (t : BPlusTree) (old : page_id_t)
    (key : GenericKey) (new : page_id_t) (ht : page_id_t → Nat) (po pn : BPlusTreePage),
    Core t.buffer_pool_manager_.pages t.buffer_pool_manager_.next_page_id t.root_page_id_ ht new →
    t.buffer_pool_manager_.pages old = some po →
    t.buffer_pool_manager_.pages new = some pn →
    old ≠ new → pn.GetParentPageId = po.GetParentPageId → ht new = ht old →
    ht t.root_page_id_ + 1 ≤ fuel + ht old →
    ∃ t1, BPlusTree.InsertIntoParent fuel t old key new = some t1 ∧ Ascent t ht t1 := by
  intro fuel
  induction fuel with
  | zero =>
    intro t old key new ht po pn hc hold _ _ _ _ hfuel
    have := hc.top old po hold
    omega
  | succ f ih =>
    intro t old key new ht po pn hc hold hnew hne hpar hht hfuel
    by_cases hroot : po.GetParentPageId = INVALID_PAGE_ID
    · -- `old` is the root: a new root is made
      obtain ⟨t1, hins, hpg, hnx, hr, hcaps⟩ :=
        InsertIntoParent_root_content f t old new key hold hnew hne (hc.ne_next hnew) hroot
      have hor : old = t.root_page_id_ := (hc.up old po hold hne).1 hroot
      obtain ⟨e1, e2, e3⟩ := newRoot_ext hc.next_free hold hnew t.internal_max_size_ 0 key
      refine ⟨t1, hins, ⟨?_, ?_, ?_, hcaps⟩⟩
      · refine ⟨fun x => if x = t.buffer_pool_manager_.next_page_id then ht old + 1 else ht x,
          ?_, ?_⟩
        · rw [hpg, hnx, hr]
          exact Core_newRoot hc hold hnew hne hht hroot t.internal_max_size_ 0 key
        · rw [hr, hor]
          simp
      · rw [hpg]; exact e2
      · rw [hpg, hr, ← hor]; exact e3
    · -- `old` has a parent
      obtain ⟨P, hPdef⟩ : ∃ P, po.GetParentPageId = P := ⟨_, rfl⟩
      rw [hPdef] at hroot
      obtain ⟨bpm1, n, parent1, t', hf, hv, ht', hlen, hP', hcore1, hview1, hext1, hhP, hnx1⟩ :=
        parent_written t old key new ht po pn P hc hold hnew hne hpar hht hPdef hroot
      have hroot1 : t'.root_page_id_ = t.root_page_id_ := by rw [ht']; rfl
      have hcaps1 : SameCaps t t' := by rw [ht']; exact ⟨rfl, rfl, rfl⟩
      rw [InsertIntoParent_step f t old new key hold hPdef hroot hf hv, ← ht']
      by_cases hover : parent1.GetSize > parent1.GetMaxSize
      · -- the parent overflows and is split
        rw [if_pos hover]
        obtain ⟨t1, key1, po1, pn1, hsplit, hkey1, hcore2, hpo1, hpn1, hpar1, hview2, hext2, hroot2,
          hcaps2⟩ := SplitInternal_pending t' ht P parent1 hcore1 hP' hlen
        rw [hnx1] at hsplit hkey1 hcore2 hpn1
        simp only [hsplit, hkey1]
        obtain ⟨pr, hpr, -⟩ := hc.root
        have hrnx : t.root_page_id_ ≠ t.buffer_pool_manager_.next_page_id := hc.ne_next hpr
        obtain ⟨pP, hpP⟩ : ∃ pP, t.buffer_pool_manager_.pages P = some pP := by
          obtain ⟨q, hq⟩ := FetchPage_eq_some hf
          exact ⟨_, q⟩
        have hPnx : P ≠ t.buffer_pool_manager_.next_page_id := hc.ne_next hpP
        obtain ⟨t2, hins2, asc2⟩ := ih t1 P key1 t.buffer_pool_manager_.next_page_id _ po1 pn1
          hcore2 hpo1 hpn1 hPnx hpar1
          (by simp only [if_true, if_neg hPnx])
          (by
            rw [hroot2, hroot1]
            simp only [if_neg hrnx, if_neg hPnx]
            omega)
        rw [hins2]
        refine ⟨_, rfl, ⟨?_, ?_, ?_, ?_⟩⟩
        · obtain ⟨ht2, hc2, hh2⟩ := asc2.core
          refine ⟨ht2, hc2, ?_⟩
          rw [hroot2, hroot1] at hh2
          simp only [if_neg hrnx] at hh2
          exact hh2
        · intro x
          exact ((asc2.view x).trans (hview2 x)).trans (hview1 x)
        · have s1 : Spine t.buffer_pool_manager_.pages t.root_page_id_
              t1.buffer_pool_manager_.pages t1.root_page_id_ := by
            rw [hroot2, hroot1]
            exact Spine_trans (Spine_of_ext hext1 _) (Spine_of_ext hext2 _)
          exact Spine_trans s1 asc2.spine
        · exact SameCaps_trans (SameCaps_trans hcaps1 hcaps2) asc2.caps
      · -- the parent has room
        rw [if_neg hover]
        refine ⟨_, rfl, ⟨⟨ht, ?_, Nat.le_succ _⟩, ?_, ?_, ⟨rfl, rfl, rfl⟩⟩⟩
        · have hc1 := hcore1
          rw [ht'] at hc1
          exact hc1
        · intro x
          have := hview1 x
          rw [ht'] at this
          exact this
        · have := Spine_of_ext hext1 t.root_page_id_
          rw [ht'] at this
          exact this

theorem LinkedTo_congr {pg pg1 : page_id_t → Option BPlusTreePage} :
    ∀ (Ls : List page_id_t) (last : page_id_t),
    (∀ x ∈ Ls, (leafView pg1 x).map Prod.fst = (leafView pg x).map Prod.fst) →
    LinkedTo pg Ls last → LinkedTo pg1 Ls last := by
  intro Ls
  induction Ls with
  | nil => intro _ _ _; trivial
  | cons a rest ih =>
    intro last h hl
    exact ⟨(h a (List.mem_cons_self a rest)).trans hl.1,
      ih last (fun x hx => h x (List.mem_cons_of_mem a hx)) hl.2⟩

theorem LinkedTo_append {pg : page_id_t → Option BPlusTreePage} :
    ∀ (A B : List page_id_t) (last : page_id_t),
    LinkedTo pg (A ++ B) last ↔ LinkedTo pg A (B.headD last) ∧ LinkedTo pg B last := by
  intro A
  induction A with
  | nil => intro B last; simp [LinkedTo]
  | cons a A ih =>
    intro B last
    have hd : (A ++ B).headD last = A.headD (B.headD last) := by
      cases A <;> rfl
    constructor
    · intro h
      have h1 : (leafView pg a).map Prod.fst = some ((A ++ B).headD last) := h.1
      have h2 : LinkedTo pg (A ++ B) last := h.2
      rw [hd] at h1
      exact ⟨⟨h1, ((ih B last).1 h2).1⟩, ((ih B last).1 h2).2⟩
    · intro h
      have h1 : (leafView pg a).map Prod.fst = some (A.headD (B.headD last)) := h.1.1
      rw [← hd] at h1
      exact ⟨h1, (ih B last).2 ⟨h.1.2, h.2⟩⟩

theorem LinkedTo_isSome {pg : page_id_t → Option BPlusTreePage} :
    ∀ (Ls : List page_id_t) (last : page_id_t), LinkedTo pg Ls last →
    ∀ x ∈ Ls, (leafView pg x).isSome = true := by
  intro Ls
  induction Ls with
  | nil => intro _ _ x hx; simp at hx
  | cons a rest ih =>
    intro last hl x hx
    rcases List.mem_cons.1 hx with h | h
    · subst h
      have := hl.1
      cases hv : leafView pg x with
      | none => rw [hv] at this; simp at this
      | some v => rfl
    · exact ih last hl.2 x h

theorem chainEntries_congr {pg pg1 : page_id_t → Option BPlusTreePage} (Ls : List page_id_t)
    (h : ∀ x ∈ Ls, (leafView pg1 x).map Prod.snd = (leafView pg x).map Prod.snd) :
    chainEntries pg1 Ls = chainEntries pg Ls := by
  unfold chainEntries
  congr 1
  apply List.map_congr_left
  intro a ha
  rw [h a ha]

theorem chainEntries_append (pg : page_id_t → Option BPlusTreePage) (A B : List page_id_t) :
    chainEntries pg (A ++ B) = chainEntries pg A ++ chainEntries pg B := by
  simp [chainEntries]

theorem chainEntries_cons (pg : page_id_t → Option BPlusTreePage) (a : page_id_t)
    (B : List page_id_t) :
    chainEntries pg (a :: B) = ((leafView pg a).map Prod.snd).getD [] ++ chainEntries pg B := by
  simp [chainEntries]

/-- The chain is read off the leaves alone: it survives any change of the pages that
keeps the links and entries of the leaves and the leftmost leaf. -/
theorem Chain_transfer {pg pg1 : page_id_t → Option BPlusTreePage} {r r1 : page_id_t}
    {Ls : List page_id_t} {E : List (GenericKey × RowId)} (h : Chain pg r Ls E)
    (hv : ∀ x, leafView pg1 x = leafView pg x) (hs : Spine pg r pg1 r1) : Chain pg1 r1 Ls E := by
  refine ⟨h.nodup, fun x hx => h.all x (by rw [← hv x]; exact hx), ?_, ?_, ?_⟩
  · exact LinkedTo_congr Ls _ (fun x _ => by rw [hv x]) h.linked
  · rw [@chainEntries_congr pg pg1 Ls (fun x _ => by rw [hv x])]
    exact h.entries
  · obtain ⟨f, hd, h1, h2⟩ := h.first
    obtain ⟨f1, hf1⟩ := hs f hd h2
    exact ⟨f1, hd, h1, hf1⟩

theorem chainEntries_update_perm {pg pg1 : page_id_t → Option BPlusTreePage} {a : page_id_t}
    {kv : GenericKey × RowId}
    (hother : ∀ x, x ≠ a → leafView pg1 x = leafView pg x)
    (ha : (((leafView pg1 a).map Prod.snd).getD []).Perm
      (kv :: ((leafView pg a).map Prod.snd).getD [])) :
    ∀ (Ls : List page_id_t), Ls.Nodup → a ∈ Ls →
    (chainEntries pg1 Ls).Perm (kv :: chainEntries pg Ls) := by
  intro Ls
  induction Ls with
  | nil => intro _ h; simp at h
  | cons b rest ih =>
    intro hnd hmem
    rw [chainEntries_cons, chainEntries_cons]
    obtain ⟨hb, hrest⟩ := List.nodup_cons.1 hnd
    by_cases hba : b = a
    · subst hba
      have : chainEntries pg1 rest = chainEntries pg rest :=
        chainEntries_congr rest (fun x hx => by
          rw [hother x (fun h => hb (h ▸ hx))])
      rw [this]
      exact ha.append_right _
    · have hmem1 : a ∈ rest := by
        rcases List.mem_cons.1 hmem with h | h
        · exact absurd h.symm hba
        · exact h
      rw [hother b hba]
      exact ((ih hrest hmem1).append_left _).trans List.perm_middle

theorem leaf_write_ext {pg : page_id_t → Option BPlusTreePage} {a : page_id_t} {l : LeafPage}
    (ha : pg a = some (BPlusTreePage.leaf l)) (p1 : LeafPage) :
    Ext pg (fun x => if x = a then some (BPlusTreePage.leaf p1) else pg x) := by
  intro x p hx
  by_cases hxa : x = a
  · subst hxa
    rw [ha] at hx
    simp only [Option.some.injEq] at hx
    subst hx
    exact ⟨_, if_pos rfl, rfl⟩
  · exact ⟨p, by simp only [if_neg hxa]; exact hx, rfl⟩

/-- Step 1 on the chain: a leaf takes one more entry. -/
theorem Chain_leaf_write {pg : page_id_t → Option BPlusTreePage} {r : page_id_t}
    {Ls : List page_id_t} {E : List (GenericKey × RowId)} (h : Chain pg r Ls E)
    {a : page_id_t} {l : LeafPage} (ha : pg a = some (BPlusTreePage.leaf l))
    (s : List (GenericKey × RowId)) (kv : GenericKey × RowId) (hs : s.Perm (kv :: l.slots)) :
    Chain (fun x => if x = a then some (BPlusTreePage.leaf { l with slots := s }) else pg x)
      r Ls (kv :: E) := by
  have haL : a ∈ Ls := h.all a (by simp [leafView, ha])
  have hother : ∀ x, x ≠ a →
      leafView (fun x => if x = a then some (BPlusTreePage.leaf { l with slots := s })
        else pg x) x = leafView pg x := by
    intro x hxa
    simp only [leafView, if_neg hxa]
  have hfst : ∀ x, (leafView (fun x => if x = a then some (BPlusTreePage.leaf
      { l with slots := s }) else pg x) x).map Prod.fst = (leafView pg x).map Prod.fst := by
    intro x
    by_cases hxa : x = a
    · subst hxa
      simp [leafView, ha]
    · rw [hother x hxa]
  refine ⟨h.nodup, ?_, ?_, ?_, ?_⟩
  · intro x hx
    by_cases hxa : x = a
    · exact hxa ▸ haL
    · rw [hother x hxa] at hx
      exact h.all x hx
  · exact LinkedTo_congr Ls _ (fun x _ => hfst x) h.linked
  · refine (chainEntries_update_perm hother ?_ Ls h.nodup haL).trans (h.entries.cons kv)
    simp [leafView, ha, hs]
  · obtain ⟨f, hd, h1, h2⟩ := h.first
    exact ⟨f, hd, h1, descend_ext (leaf_write_ext ha _) 0 f r hd h2⟩

theorem splitLeaf_ext {pg : page_id_t → Option BPlusTreePage} {a nx : page_id_t} {l : LeafPage}
    (ha : pg a = some (BPlusTreePage.leaf l)) (hfree : pg nx = none) (p1 p2 : LeafPage) :
    Ext pg (fun x => if x = a then some (BPlusTreePage.leaf p1)
      else if x = nx then some (BPlusTreePage.leaf p2) else pg x) := by
  intro x p hx
  by_cases hxa : x = a
  · subst hxa
    rw [ha] at hx
    simp only [Option.some.injEq] at hx
    subst hx
    exact ⟨_, if_pos rfl, rfl⟩
  · have hxn : x ≠ nx := by
      intro h; rw [h, hfree] at hx; simp at hx
    exact ⟨p, by simp only [if_neg hxa, if_neg hxn]; exact hx, rfl⟩

/-- Step 2 on the chain: a leaf is split and the new leaf `nx` is linked in after it. -/
theorem Chain_splitLeaf {pg : page_id_t → Option BPlusTreePage} {r : page_id_t}
    {Ls : List page_id_t} {E : List (GenericKey × RowId)} (h : Chain pg r Ls E)
    {a nx : page_id_t} {l : LeafPage} (ha : pg a = some (BPlusTreePage.leaf l))
    (hfree : pg nx = none) (k lm : Nat) :
    ∃ Ls1, Chain (fun x =>
        if x = a then some (BPlusTreePage.leaf
          { l with slots := l.slots.take k, next_page_id := nx })
        else if x = nx then some (BPlusTreePage.leaf
          { parent_page_id := l.parent_page_id, max_size := lm,
            next_page_id := l.next_page_id, slots := l.slots.drop k })
        else pg x) r Ls1 E ∧ Ls1.length = Ls.length + 1 := by
  have haL : a ∈ Ls := h.all a (by simp [leafView, ha])
  obtain ⟨A, B, hAB⟩ := List.append_of_mem haL
  have hanx : a ≠ nx := by
    intro h1; rw [h1, hfree] at ha; simp at ha
  have hnxL : nx ∉ Ls := by
    intro hm
    have := LinkedTo_isSome Ls _ h.linked nx hm
    simp [leafView, hfree] at this
  have hnd := h.nodup
  rw [hAB] at hnd hnxL
  have haA : a ∉ A := by
    intro hm
    have := (List.nodup_append.1 hnd).2.2 hm (List.mem_cons_self a B)
    exact this
  have haB : a ∉ B := (List.nodup_cons.1 (List.nodup_append.1 hnd).2.1).1
  have hother : ∀ x, x ≠ a → x ≠ nx →
      leafView (fun x =>
        if x = a then some (BPlusTreePage.leaf
          { l with slots := l.slots.take k, next_page_id := nx })
        else if x = nx then some (BPlusTreePage.leaf
          { parent_page_id := l.parent_page_id, max_size := lm,
            next_page_id := l.next_page_id, slots := l.slots.drop k })
        else pg x) x = leafView pg x := by
    intro x h1 h2
    simp only [leafView, if_neg h1, if_neg h2]
  have hva : leafView (fun x =>
        if x = a then some (BPlusTreePage.leaf
          { l with slots := l.slots.take k, next_page_id := nx })
        else if x = nx then some (BPlusTreePage.leaf
          { parent_page_id := l.parent_page_id, max_size := lm,
            next_page_id := l.next_page_id, slots := l.slots.drop k })
        else pg x) a = some (nx, l.slots.take k) := by
    simp only [leafView, if_true]
  have hvn : leafView (fun x =>
        if x = a then some (BPlusTreePage.leaf
          { l with slots := l.slots.take k, next_page_id := nx })
        else if x = nx then some (BPlusTreePage.leaf
          { parent_page_id := l.parent_page_id, max_size := lm,
            next_page_id := l.next_page_id, slots := l.slots.drop k })
        else pg x) nx = some (l.next_page_id, l.slots.drop k) := by
    simp only [leafView, if_neg (Ne.symm hanx), if_true]
  have hvold : leafView pg a = some (l.next_page_id, l.slots) := by
    simp only [leafView, ha]
  have hA : ∀ x ∈ A, x ≠ a ∧ x ≠ nx := fun x hx =>
    ⟨fun h1 => haA (h1 ▸ hx), fun h1 => hnxL (List.mem_append_left _ (h1 ▸ hx))⟩
  have hB : ∀ x ∈ B, x ≠ a ∧ x ≠ nx := fun x hx =>
    ⟨fun h1 => haB (h1 ▸ hx),
      fun h1 => hnxL (List.mem_append_right _ (List.mem_cons_of_mem _ (h1 ▸ hx)))⟩
  have hlk := h.linked
  rw [hAB, LinkedTo_append] at hlk
  obtain ⟨hlA, hlaB⟩ := hlk
  have hlB : LinkedTo pg B INVALID_PAGE_ID := hlaB.2
  have hnext : l.next_page_id = B.headD INVALID_PAGE_ID := by
    have := hlaB.1
    rw [hvold] at this
    simpa using this
  have hperm : (A ++ a :: nx :: B).Perm (nx :: (A ++ a :: B)) := by
    have h1 : (A ++ a :: nx :: B) = (A ++ [a]) ++ nx :: B := by simp
    have h2 : (A ++ a :: B) = (A ++ [a]) ++ B := by simp
    rw [h1, h2]
    exact List.perm_middle
  refine ⟨A ++ a :: nx :: B, ⟨?_, ?_, ?_, ?_, ?_⟩, ?_⟩
  · exact hperm.nodup_iff.2 (List.nodup_cons.2 ⟨hnxL, hnd⟩)
  · intro x hx
    by_cases h1 : x = a
    · rw [h1]; simp
    · by_cases h2 : x = nx
      · rw [h2]; simp
      · rw [hother x h1 h2] at hx
        have := h.all x hx
        rw [hAB] at this
        exact hperm.mem_iff.2 (List.mem_cons_of_mem _ this)
  · rw [LinkedTo_append]
    refine ⟨?_, ?_, ?_, ?_⟩
    · exact LinkedTo_congr A _ (fun x hx => by rw [hother x (hA x hx).1 (hA x hx).2]) hlA
    · rw [hva]; rfl
    · rw [hvn, hnext]; rfl
    · exact LinkedTo_congr B _ (fun x hx => by rw [hother x (hB x hx).1 (hB x hx).2]) hlB
  · have e1 : chainEntries (fun x =>
        if x = a then some (BPlusTreePage.leaf
          { l with slots := l.slots.take k, next_page_id := nx })
        else if x = nx then some (BPlusTreePage.leaf
          { parent_page_id := l.parent_page_id, max_size := lm,
            next_page_id := l.next_page_id, slots := l.slots.drop k })
        else pg x) (A ++ a :: nx :: B) = chainEntries pg Ls := by
      rw [hAB, chainEntries_append, chainEntries_cons, chainEntries_cons, chainEntries_append,
        chainEntries_cons, hva, hvn, hvold,
        @chainEntries_congr pg _ A (fun x hx => by rw [hother x (hA x hx).1 (hA x hx).2]),
        @chainEntries_congr pg _ B (fun x hx => by rw [hother x (hB x hx).1 (hB x hx).2])]
      simp only [Option.map_some', Option.getD_some]
      rw [← List.append_assoc (l.slots.take k), List.take_append_drop]
    rw [e1]
    exact h.entries
  · obtain ⟨f, hd, h1, h2⟩ := h.first
    refine ⟨f, hd, ?_, descend_ext (splitLeaf_ext ha hfree _ _) 0 f r hd h2⟩
    rw [hAB] at h1
    cases A with
    | nil => exact h1
    | cons b A => exact h1
  · rw [hAB]
    simp only [List.length_append, List.length_cons]
    omega

theorem leafChain_of_linked (bpm : BufferPoolManager) : ∀ (Ls : List page_id_t) (fuel : Nat),
    LinkedTo bpm.pages Ls INVALID_PAGE_ID → (∀ a ∈ Ls, a ≠ INVALID_PAGE_ID) →
    Ls.length < fuel →
    leafChain bpm fuel (Ls.headD INVALID_PAGE_ID) = some (chainEntries bpm.pages Ls) := by
  intro Ls
  induction Ls with
  | nil =>
    intro fuel _ _ hf
    obtain ⟨f, rfl⟩ : ∃ f, fuel = f + 1 := ⟨fuel - 1, by simp at hf; omega⟩
    simp [leafChain, chainEntries]
  | cons a rest ih =>
    intro fuel hl hne hf
    obtain ⟨f, rfl⟩ : ∃ f, fuel = f + 1 := ⟨fuel - 1, by simp at hf; omega⟩
    have ha : a ≠ INVALID_PAGE_ID := hne a (List.mem_cons_self a rest)
    have h1 := hl.1
    have hrec := ih f hl.2 (fun x hx => hne x (List.mem_cons_of_mem a hx))
      (by simp at hf; omega)
    simp only [List.headD_cons, leafChain, if_neg ha]
    unfold leafView at h1
    rw [chainEntries_cons]
    unfold leafView
    unfold BufferPoolManager.leafAt
    cases hp : bpm.pages a with
    | none => rw [hp] at h1; simp at h1
    | some p =>
      cases p with
      | internal n => rw [hp] at h1; simp at h1
      | leaf l =>
        rw [hp] at h1
        simp only [Option.map_some', Option.some.injEq] at h1
        simp only [h1, hrec, Option.map_some', Option.getD_some]

theorem descend_total {pg : page_id_t → Option BPlusTreePage} {nx r : page_id_t}
    {ht : page_id_t → Nat} {ex : page_id_t} (hc : Core pg nx r ht ex) (key : GenericKey)
    (lm : Bool) : ∀ (f : Nat) (x : page_id_t) (p : BPlusTreePage), pg x = some p → ht x < f →
    ∃ leaf l, descend pg f key x lm = some leaf ∧ pg leaf = some (BPlusTreePage.leaf l) := by
  intro f
  induction f with
  | zero => intro x p _ h; omega
  | succ f ih =>
    intro x p hx hlt
    cases p with
    | leaf l =>
      exact ⟨x, l, by simp only [descend, hx], hx⟩
    | internal n =>
      obtain ⟨h1, -, h3⟩ := hc.node x n hx
      obtain ⟨c, hcs, e, he, hec⟩ := child_step_some h1 key lm
      have hcm : c ∈ n.slots.map Prod.snd := List.mem_map.2 ⟨e, he, hec⟩
      obtain ⟨-, q, hq, -, hh⟩ := h3 c hcm
      obtain ⟨leaf, l, hd, hl⟩ := ih c q hq (by omega)
      exact ⟨leaf, l, by rw [descend_step f key lm hx hcs]; exact hd, hl⟩

theorem mem_chainEntries {pg : page_id_t → Option BPlusTreePage} {a : page_id_t}
    {l : LeafPage} (ha : pg a = some (BPlusTreePage.leaf l)) {e : GenericKey × RowId}
    (he : e ∈ l.slots) : ∀ (Ls : List page_id_t), a ∈ Ls → e ∈ chainEntries pg Ls := by
  intro Ls hm
  unfold chainEntries
  rw [List.mem_flatten]
  refine ⟨l.slots, List.mem_map.2 ⟨a, hm, ?_⟩, he⟩
  simp [leafView, ha]

theorem LeafPage_Lookup_none {l : LeafPage} {key : GenericKey}
    (h : ∀ e ∈ l.slots, e.1 ≠ key) : l.Lookup key = none := by
  unfold LeafPage.Lookup
  rw [Option.map_eq_none', List.find?_eq_none]
  intro e he
  simpa using h e he

theorem InsertIntoLeaf_step {fuel : Nat} {t t1 : BPlusTree} {key : GenericKey} (value : RowId)
    {leaf : page_id_t} {l : LeafPage} {s1 : List (GenericKey × RowId)}
    (hfind : BPlusTree.FindLeafPage fuel t key t.root_page_id_ false = some (t1, leaf))
    (hleaf : t1.buffer_pool_manager_.leafAt leaf = some l) (hlook : l.Lookup key = none)
    (hs1 : s1 = l.slots.take (l.KeyIndex key) ++ (key, value) :: l.slots.drop (l.KeyIndex key)) :
    t.InsertIntoLeaf fuel key value =
      if (LeafPage.GetSize { l with slots := s1 }) > (LeafPage.GetMaxSize { l with slots := s1 })
      then
        match BPlusTree.SplitLeaf (t1.withPool (t1.buffer_pool_manager_.write leaf
          (BPlusTreePage.leaf { l with slots := s1 }))) leaf with
        | none => none
        | some (t3, new_leaf) =>
          match (t3.buffer_pool_manager_.leafAt new_leaf).bind (fun n => n.KeyAt 0) with
          | none => none
          | some key1 =>
            match BPlusTree.InsertIntoParent fuel t3 leaf key1 new_leaf with
            | none => none
            | some t4 => some (t4.withPool (t4.buffer_pool_manager_.UnpinPage leaf true), true)
      else some ((t1.withPool (t1.buffer_pool_manager_.write leaf
          (BPlusTreePage.leaf { l with slots := s1 }))).withPool
          ((t1.withPool (t1.buffer_pool_manager_.write leaf
            (BPlusTreePage.leaf { l with slots := s1 }))).buffer_pool_manager_.UnpinPage
              leaf true), true) := by
  have hins : l.Insert key value = ({ l with slots := s1 }, true) := by
    rw [hs1]
    simp only [LeafPage.Insert, hlook, Option.isSome_none, Bool.false_eq_true, if_false]
  simp only [BPlusTree.InsertIntoLeaf, hfind, hleaf, hlook, Option.isSome_none,
    Bool.false_eq_true, if_false, hins, if_true]

/-- The split of a leaf `a` with at least two entries in a tree whose pages have the
node-local shape and whose chain holds `E`. -/
theorem SplitLeaf_pending (t : BPlusTree) (ht : page_id_t → Nat) (a : page_id_t) (l : LeafPage)
    (Ls : List page_id_t) (E : List (GenericKey × RowId))
    (hc : Core t.buffer_pool_manager_.pages t.buffer_pool_manager_.next_page_id t.root_page_id_ ht
      INVALID_PAGE_ID)
    (hch : Chain t.buffer_pool_manager_.pages t.root_page_id_ Ls E)
    (ha : t.buffer_pool_manager_.pages a = some (BPlusTreePage.leaf l))
    (hlen : 2 ≤ l.slots.length) :
    ∃ t1 key1 po pn Ls1, t.SplitLeaf a = some (t1, t.buffer_pool_manager_.next_page_id) ∧
      (t1.buffer_pool_manager_.leafAt t.buffer_pool_manager_.next_page_id).bind
        (fun n => n.KeyAt 0) = some key1 ∧
      Core t1.buffer_pool_manager_.pages t1.buffer_pool_manager_.next_page_id t1.root_page_id_
        (fun x => if x = t.buffer_pool_manager_.next_page_id then 0 else ht x)
        t.buffer_pool_manager_.next_page_id ∧
      Chain t1.buffer_pool_manager_.pages t1.root_page_id_ Ls1 E ∧
      Ls1.length = Ls.length + 1 ∧
      t1.buffer_pool_manager_.pages a = some po ∧
      t1.buffer_pool_manager_.pages t.buffer_pool_manager_.next_page_id = some pn ∧
      pn.GetParentPageId = po.GetParentPageId ∧
      t1.root_page_id_ = t.root_page_id_ ∧ SameCaps t t1 := by
  have hanx : a ≠ t.buffer_pool_manager_.next_page_id := hc.ne_next ha
  obtain ⟨k, hk⟩ : ∃ k, k = (l.slots.length + 1) / 2 := ⟨_, rfl⟩
  have hk1 : 0 < k := by omega
  have hk2 : k < l.slots.length := by omega
  obtain ⟨t1, hsplit, hpgs, hnxs, hrs, hcapss⟩ := SplitLeaf_content t a l ha k hk
  have hcore2 := Core_splitLeaf hc ha k t.leaf_max_size_ hk1 hk2
  obtain ⟨Ls1, hch1, hlen1⟩ := Chain_splitLeaf hch ha hc.next_free k t.leaf_max_size_
  obtain ⟨e0, rest, he0⟩ : ∃ e0 rest, l.slots.drop k = e0 :: rest := by
    have := drop_ne_nil hk2
    cases hd : l.slots.drop k with
    | nil => exact absurd hd this
    | cons e0 rest => exact ⟨e0, rest, rfl⟩
  have hnewpg : t1.buffer_pool_manager_.pages t.buffer_pool_manager_.next_page_id =
      some (BPlusTreePage.leaf
        { parent_page_id := l.parent_page_id, max_size := t.leaf_max_size_,
          next_page_id := l.next_page_id, slots := l.slots.drop k }) := by
    rw [hpgs]
    simp only [if_neg (Ne.symm hanx), if_true]
  have holdpg : t1.buffer_pool_manager_.pages a =
      some (BPlusTreePage.leaf
        { l with slots := l.slots.take k,
                 next_page_id := t.buffer_pool_manager_.next_page_id }) := by
    rw [hpgs]
    simp only [if_true]
  refine ⟨t1, e0.1, _, _, Ls1, hsplit, ?_, ?_, ?_, hlen1, holdpg, hnewpg, rfl, hrs, hcapss⟩
  · simp only [BufferPoolManager.leafAt, hnewpg, Option.some_bind, LeafPage.KeyAt, he0,
      List.get?_cons_zero, Option.map_some']
  · rw [hpgs, hnxs, hrs]
    exact hcore2
  · rw [hpgs, hrs]
    exact hch1

/-- One `Insert` of a key that is not stored yet, in a non-empty tree; the budget
covers the height of the tree. -/
theorem Insert_grows (fuel : Nat) (t : BPlusTree) (E : List (GenericKey × RowId))
    (key : GenericKey) (value : RowId) (hinv : TreeInv t E) (hkey : key ∉ E.map Prod.fst)
    (hfuel : E.length ≤ fuel) :
    ∃ t1, t.Insert fuel key value = some (t1, true) ∧ TreeInv t1 ((key, value) :: E) ∧
      SameCaps t t1 := by
  obtain ⟨ht, Ls, hc, hch, hht, hshort⟩ := hinv
  obtain ⟨pr, hpr, -⟩ := hc.root
  have hrne : t.root_page_id_ ≠ INVALID_PAGE_ID := hc.ne_invalid hpr
  have he : t.IsEmpty = false := by
    simp [BPlusTree.IsEmpty, hrne]
  obtain ⟨leaf, l, hd, hl⟩ := descend_total hc key false fuel t.root_page_id_ pr hpr (by omega)
  obtain ⟨t1, hfind⟩ := BPlusTree.FindLeafPage_of_descend fuel t key t.root_page_id_ false leaf he hd
  obtain ⟨hs1, hs2, hs3, hs4, hs5, hs6, hs7⟩ :=
    (BPlusTree.FindLeafPage_descend fuel t t1 key _ _ _ hfind).2
  have hleafAt : t1.buffer_pool_manager_.leafAt leaf = some l := by
    simp only [BufferPoolManager.leafAt, hs5, hl]
  have hleafL : leaf ∈ Ls := hch.all leaf (by simp [leafView, hl])
  have hlook : l.Lookup key = none := by
    apply LeafPage_Lookup_none
    intro e hel hek
    have h1 : e ∈ chainEntries t.buffer_pool_manager_.pages Ls := mem_chainEntries hl hel Ls hleafL
    have h2 : e ∈ E := hch.entries.mem_iff.1 h1
    exact hkey (List.mem_map.2 ⟨e, h2, hek⟩)
  obtain ⟨s1, hs1def⟩ : ∃ s1, s1 = l.slots.take (l.KeyIndex key) ++ (key, value) ::
      l.slots.drop (l.KeyIndex key) := ⟨_, rfl⟩
  have hperm : s1.Perm ((key, value) :: l.slots) := by
    rw [hs1def]
    have := @List.perm_middle _ (key, value) (l.slots.take (l.KeyIndex key))
      (l.slots.drop (l.KeyIndex key))
    rw [List.take_append_drop] at this
    exact this
  have hl0 : l.slots ≠ [] := (hc.leaf leaf l hl).2
  have hlen : s1.length = l.slots.length + 1 := by
    simpa using hperm.length_eq
  have hs1ne : s1 ≠ [] := by
    intro h; rw [h] at hlen; simp at hlen
  have hInsert : t.Insert fuel key value = t.InsertIntoLeaf fuel key value := by
    simp only [BPlusTree.Insert, he, Bool.false_eq_true, if_false]
  rw [hInsert, InsertIntoLeaf_step value hfind hleafAt hlook hs1def]
  -- the state after the leaf is written
  obtain ⟨t2, ht2⟩ : ∃ t2, t2 = t1.withPool (t1.buffer_pool_manager_.write leaf
      (BPlusTreePage.leaf { l with slots := s1 })) := ⟨_, rfl⟩
  rw [← ht2]
  have hpg2 : t2.buffer_pool_manager_.pages = (fun x =>
      if x = leaf then some (BPlusTreePage.leaf { l with slots := s1 })
      else t.buffer_pool_manager_.pages x) := by
    rw [ht2]
    funext x
    simp only [BPlusTree.withPool_pool, BufferPoolManager.write, hs5]
  have hnx2 : t2.buffer_pool_manager_.next_page_id = t.buffer_pool_manager_.next_page_id := by
    rw [ht2]
    simp only [BPlusTree.withPool_pool, BufferPoolManager.write_next_page_id, hs7]
  have hroot2 : t2.root_page_id_ = t.root_page_id_ := by
    rw [ht2]; exact hs1
  have hcaps2 : SameCaps t t2 := by
    rw [ht2]; exact ⟨hs3, hs4, hs2⟩
  have hcore2 : Core t2.buffer_pool_manager_.pages t2.buffer_pool_manager_.next_page_id
      t2.root_page_id_ ht INVALID_PAGE_ID := by
    rw [hpg2, hnx2, hroot2]
    exact Core_leaf_write hc hl s1 hs1ne
  have hch2 : Chain t2.buffer_pool_manager_.pages t2.root_page_id_ Ls ((key, value) :: E) := by
    rw [hpg2, hroot2]
    exact Chain_leaf_write hch hl s1 (key, value) hperm
  have hl2 : t2.buffer_pool_manager_.pages leaf = some (BPlusTreePage.leaf { l with slots := s1 }) := by
    rw [hpg2]; exact if_pos rfl
  by_cases hover : (LeafPage.GetSize { l with slots := s1 }) >
      (LeafPage.GetMaxSize { l with slots := s1 })
  · rw [if_pos hover]
    have hlen0 : 0 < l.slots.length := List.length_pos.2 hl0
    obtain ⟨t3, key1, po, pn, Ls1, hsplit, hkey1, hcore3, hch3, hlen1, hpo, hpn, hpar, hroot3,
      hcaps3⟩ := SplitLeaf_pending t2 ht leaf { l with slots := s1 } Ls ((key, value) :: E) hcore2
        hch2 hl2 (by show 2 ≤ s1.length; omega)
    rw [hnx2] at hsplit hkey1 hcore3 hpn
    simp only [hsplit, hkey1]
    have hlnx : leaf ≠ t.buffer_pool_manager_.next_page_id := hc.ne_next hl
    have hrnx : t.root_page_id_ ≠ t.buffer_pool_manager_.next_page_id := hc.ne_next hpr
    have hhl : ht leaf = 0 := (hc.leaf leaf l hl).1
    obtain ⟨t4, hins4, asc⟩ := InsertIntoParent_ascent fuel t3 leaf key1
      t.buffer_pool_manager_.next_page_id _ po pn hcore3 hpo hpn hlnx hpar
      (by simp only [if_true, if_neg hlnx, hhl])
      (by
        rw [hroot3, hroot2]
        simp only [if_neg hrnx, if_neg hlnx]
        omega)
    rw [hins4]
    refine ⟨_, rfl, ?_, ?_⟩
    · obtain ⟨ht4, hc4, hh4⟩ := asc.core
      rw [hroot3, hroot2] at hh4
      simp only [if_neg hrnx] at hh4
      refine ⟨ht4, Ls1, hc4, Chain_transfer hch3 asc.view asc.spine, ?_, ?_⟩
      · show ht4 t4.root_page_id_ < ((key, value) :: E).length
        simp only [List.length_cons]
        omega
      · simp only [List.length_cons]
        omega
    · exact SameCaps_trans (SameCaps_trans hcaps2 hcaps3) asc.caps
  · rw [if_neg hover]
    refine ⟨_, rfl, ⟨ht, Ls, hcore2, hch2, ?_, ?_⟩, hcaps2⟩
    · show ht t2.root_page_id_ < ((key, value) :: E).length
      rw [hroot2]
      simp only [List.length_cons]
      omega
    · simp only [List.length_cons]
      omega

theorem create_fresh_EmptyInv (index_id : index_id_t) (leaf_max_size internal_max_size : Nat) :
    EmptyInv (BPlusTree.create index_id BufferPoolManager.fresh leaf_max_size
      internal_max_size) := by
  refine ⟨rfl, fun x => rfl, ?_⟩
  show (2 : page_id_t) ≤ 2
  exact le_refl _

theorem StartNewTree_content (t : BPlusTree) (key : GenericKey) (value : RowId) :
    (t.StartNewTree key value).buffer_pool_manager_.pages = (fun x =>
      if x = t.buffer_pool_manager_.next_page_id then some (BPlusTreePage.leaf
        { parent_page_id := INVALID_PAGE_ID, max_size := t.leaf_max_size_,
          next_page_id := INVALID_PAGE_ID, slots := [(key, value)] })
      else t.buffer_pool_manager_.pages x) ∧
    (t.StartNewTree key value).buffer_pool_manager_.next_page_id =
      t.buffer_pool_manager_.next_page_id + 1 ∧
    (t.StartNewTree key value).root_page_id_ = t.buffer_pool_manager_.next_page_id ∧
    SameCaps t (t.StartNewTree key value) := by
  refine ⟨?_, ?_, rfl, ⟨rfl, rfl, rfl⟩⟩
  · funext x
    simp [BPlusTree.StartNewTree, BufferPoolManager.UnpinPage, UpdateRootPageId_pages,
      BufferPoolManager.write, BufferPoolManager.NewPage, LeafPage.Init, LeafPage.Insert,
      LeafPage.Lookup, LeafPage.KeyIndex]
  · simp [BPlusTree.StartNewTree, BufferPoolManager.UnpinPage, UpdateRootPageId_next,
      BufferPoolManager.NewPage]

/-- The first `Insert`: the tree becomes a single leaf that holds the pair. -/
theorem Insert_first (fuel : Nat) (t : BPlusTree) (key : GenericKey) (value : RowId)
    (hinv : EmptyInv t) :
    ∃ t1, t.Insert fuel key value = some (t1, true) ∧ TreeInv t1 [(key, value)] := by
  obtain ⟨hr, hpg, hnx⟩ := hinv
  have he : t.IsEmpty = true := by
    simp [BPlusTree.IsEmpty, hr]
  obtain ⟨c1, c2, c3, -⟩ := StartNewTree_content t key value
  refine ⟨t.StartNewTree key value, by simp only [BPlusTree.Insert, he, if_true], ?_⟩
  have hnxi : t.buffer_pool_manager_.next_page_id ≠ INVALID_PAGE_ID := by
    intro h; rw [h] at hnx; exact invalid_lt_two hnx
  have hpg1 : ∀ x p, (fun x =>
      if x = t.buffer_pool_manager_.next_page_id then some (BPlusTreePage.leaf
        { parent_page_id := INVALID_PAGE_ID, max_size := t.leaf_max_size_,
          next_page_id := INVALID_PAGE_ID, slots := [(key, value)] })
      else t.buffer_pool_manager_.pages x) x = some p →
      x = t.buffer_pool_manager_.next_page_id ∧ p = BPlusTreePage.leaf
        { parent_page_id := INVALID_PAGE_ID, max_size := t.leaf_max_size_,
          next_page_id := INVALID_PAGE_ID, slots := [(key, value)] } := by
    intro x p hx
    by_cases hxn : x = t.buffer_pool_manager_.next_page_id
    · simp only [if_pos hxn, Option.some.injEq] at hx
      exact ⟨hxn, hx.symm⟩
    · simp only [if_neg hxn, hpg x] at hx
      simp at hx
  refine ⟨fun _ => 0, [t.buffer_pool_manager_.next_page_id], ?_, ?_, ?_, ?_⟩
  · rw [c1, c2, c3]
    constructor
    · intro x p hx
      obtain ⟨h1, -⟩ := hpg1 x p hx
      rw [h1]
      exact ⟨hnx, Int.lt_succ_self _⟩
    · intro x n hx
      obtain ⟨-, h2⟩ := hpg1 x _ hx
      simp at h2
    · intro x l hx
      obtain ⟨-, h2⟩ := hpg1 x _ hx
      simp only [BPlusTreePage.leaf.injEq] at h2
      subst h2
      exact ⟨rfl, by simp⟩
    · intro x p hx _
      obtain ⟨h1, h2⟩ := hpg1 x p hx
      subst h2
      exact ⟨fun _ => h1, fun h => absurd rfl h⟩
    · exact ⟨_, if_pos rfl, rfl⟩
    · intro x p _
      exact le_refl _
  · rw [c1, c3]
    refine ⟨by simp, ?_, ?_, ?_, ?_⟩
    · intro x hx
      by_cases hxn : x = t.buffer_pool_manager_.next_page_id
      · simp [hxn]
      · simp [leafView, hxn, hpg x] at hx
    · refine ⟨?_, trivial⟩
      simp [leafView]
    · simp [chainEntries, leafView]
    · exact ⟨1, _, rfl, by simp [descend]⟩
  · simp
  · simp

theorem inserts_run (fuel : Nat) : ∀ (l : List (GenericKey × RowId)) (t : BPlusTree)
    (E : List (GenericKey × RowId)), GenInv t E → (l.map Prod.fst ++ E.map Prod.fst).Nodup →
    E.length + l.length ≤ fuel + 1 →
    ∃ t1, applyOps fuel t (insertAll l) = some t1 ∧ GenInv t1 (l.reverse ++ E) := by
  intro l
  induction l with
  | nil =>
    intro t E hinv _ _
    exact ⟨t, rfl, by simpa using hinv⟩
  | cons e rest ih =>
    intro t E hinv hnd hlen
    simp only [List.map_cons, List.cons_append, List.nodup_cons, List.mem_append, not_or] at hnd
    obtain ⟨⟨he1, he2⟩, hnd1⟩ := hnd
    simp only [List.length_cons] at hlen
    have hstep : ∃ t1, t.Insert fuel e.1 e.2 = some (t1, true) ∧ TreeInv t1 (e :: E) := by
      rcases hinv with ⟨hE, hemp⟩ | htree
      · subst hE
        exact Insert_first fuel t e.1 e.2 hemp
      · obtain ⟨t1, h1, h2, -⟩ := Insert_grows fuel t E e.1 e.2 htree he2 (by omega)
        exact ⟨t1, h1, h2⟩
    obtain ⟨t1, hins, hinv1⟩ := hstep
    have hnd2 : (rest.map Prod.fst ++ (e :: E).map Prod.fst).Nodup := by
      have hp : (rest.map Prod.fst ++ (e :: E).map Prod.fst).Perm
          (e.1 :: (rest.map Prod.fst ++ E.map Prod.fst)) := by
        simp only [List.map_cons]
        exact List.perm_middle
      exact hp.nodup_iff.2 (List.nodup_cons.2 ⟨by simp [he1, he2], hnd1⟩)
    obtain ⟨t2, hrun, hinv2⟩ := ih t1 (e :: E) (Or.inr hinv1) hnd2
      (by simp only [List.length_cons]; omega)
    refine ⟨t2, ?_, ?_⟩
    · simp only [insertAll, List.map_cons, applyOps, hins]
      exact hrun
    · simpa using hinv2

/-- The scan of the leaf chain of a tree that holds the pairs `E` returns them, up to
order. -/
theorem scan_of_GenInv (fuel : Nat) (t : BPlusTree) (E : List (GenericKey × RowId))
    (hinv : GenInv t E) (hfuel : E.length < fuel) :
    ∃ es, scanLeafChain fuel t = some es ∧ es.Perm E := by
  rcases hinv with ⟨hE, hr, -, -⟩ | ⟨ht, Ls, hc, hch, hht, hshort⟩
  · subst hE
    obtain ⟨f, rfl⟩ : ∃ f, fuel = f + 1 := ⟨fuel - 1, by omega⟩
    refine ⟨[], ?_, List.Perm.refl _⟩
    simp [scanLeafChain, BPlusTree.Begin, hr, leafChain]
  · obtain ⟨pr, hpr, -⟩ := hc.root
    have hrne : t.root_page_id_ ≠ INVALID_PAGE_ID := hc.ne_invalid hpr
    have he : t.IsEmpty = false := by
      simp [BPlusTree.IsEmpty, hrne]
    obtain ⟨f, hd, hhead, hdesc⟩ := hch.first
    obtain ⟨leaf, l, hd1, -⟩ := descend_total hc 0 true fuel t.root_page_id_ pr hpr (by omega)
    have hsame : leaf = hd := by
      have a1 := descend_fuel_le t.buffer_pool_manager_.pages 0 true (Nat.le_max_left fuel f) hd1
      have a2 := descend_fuel_le t.buffer_pool_manager_.pages 0 true (Nat.le_max_right fuel f)
        hdesc
      rw [a1] at a2
      exact Option.some.inj a2
    subst hsame
    obtain ⟨t1, hfind⟩ :=
      BPlusTree.FindLeafPage_of_descend fuel t 0 t.root_page_id_ true leaf he hd1
    obtain ⟨-, -, -, -, hs5, -, -⟩ :=
      (BPlusTree.FindLeafPage_descend fuel t t1 0 _ _ _ hfind).2
    have hne : ∀ a ∈ Ls, a ≠ INVALID_PAGE_ID := by
      intro a ha
      have := LinkedTo_isSome Ls _ hch.linked a ha
      unfold leafView at this
      cases hp : t.buffer_pool_manager_.pages a with
      | none => rw [hp] at this; simp at this
      | some p => exact hc.ne_invalid hp
    have hlk : LinkedTo t1.buffer_pool_manager_.pages Ls INVALID_PAGE_ID := by
      rw [hs5]; exact hch.linked
    have hchain := leafChain_of_linked t1.buffer_pool_manager_ Ls fuel hlk hne (by omega)
    have hheadD : Ls.headD INVALID_PAGE_ID = leaf := by
      cases Ls with
      | nil => simp at hhead
      | cons a rest =>
        simp only [List.head?_cons, Option.some.injEq] at hhead
        simp [hhead]
    rw [hheadD, hs5] at hchain
    refine ⟨chainEntries t.buffer_pool_manager_.pages Ls, ?_, hch.entries⟩
    simp only [scanLeafChain, BPlusTree.Begin, if_neg hrne, hfind]
    exact hchain

/-! ### C13 -/

/-- C13: for every list of pairs with distinct keys, every reordering of it and all
capacities, inserting the pairs into a freshly constructed empty tree in
either order returns (with a budget above the number of pairs), and the scan
of the leaf chain from `Begin()` then yields, in both trees, exactly the
inserted pairs, each once: the two scans hold the same pairs. -/
theorem leaf_chain_independent_of_insert_order (index_id : index_id_t)
    (leaf_max_size internal_max_size : Nat) (l1 l2 : List (GenericKey × RowId)) (fuel : Nat)
    (hperm : l1.Perm l2) (hnd : (l1.map Prod.fst).Nodup) (hfuel : l1.length < fuel) :
    ∃ t1 t2 e1 e2,
      applyOps fuel (BPlusTree.create index_id BufferPoolManager.fresh leaf_max_size
        internal_max_size) (insertAll l1) = some t1 ∧
      applyOps fuel (BPlusTree.create index_id BufferPoolManager.fresh leaf_max_size
        internal_max_size) (insertAll l2) = some t2 ∧
      scanLeafChain fuel t1 = some e1 ∧ scanLeafChain fuel t2 = some e2 ∧
      e1.Perm l1 ∧ e2.Perm l1 ∧ ∀ p, p ∈ e1 ↔ p ∈ e2 := by
  have hemp := create_fresh_EmptyInv index_id leaf_max_size internal_max_size
  have hnd2 : (l2.map Prod.fst).Nodup := (hperm.map Prod.fst).nodup_iff.1 hnd
  have hlen2 : l2.length = l1.length := hperm.length_eq.symm
  obtain ⟨t1, hrun1, hinv1⟩ := inserts_run fuel l1 _ [] (Or.inl ⟨rfl, hemp⟩)
    (by simpa using hnd) (by simp only [List.length_nil]; omega)
  obtain ⟨t2, hrun2, hinv2⟩ := inserts_run fuel l2 _ [] (Or.inl ⟨rfl, hemp⟩)
    (by simpa using hnd2) (by simp only [List.length_nil]; omega)
  obtain ⟨e1, hscan1, hp1⟩ := scan_of_GenInv fuel t1 _ hinv1 (by simp; omega)
  obtain ⟨e2, hscan2, hp2⟩ := scan_of_GenInv fuel t2 _ hinv2 (by simp; omega)
  have q1 : e1.Perm l1 := hp1.trans (by simp)
  have q2 : e2.Perm l1 := (hp2.trans (by simp)).trans hperm.symm
  exact ⟨t1, t2, e1, e2, hrun1, hrun2, hscan1, hscan2, q1, q2,
    fun p => (q1.trans q2.symm).mem_iff⟩

set_option maxRecDepth 1000000 in
/-- C13, at a concrete input: with leaf and internal capacity 3 the pairs
(k, 10·k) for k = 1..7 are inserted in the orders 4, 1, 6, 3, 7, 2, 5 and
7, 6, 5, 4, 3, 2, 1; both runs return and both scans of the leaf chain yield
the seven pairs (here in key order). -/
theorem leaf_chain_independent_of_insert_order_witness :
    ((applyOps 8 (BPlusTree.create 0 BufferPoolManager.fresh 3 3)
        (insertAll [(4, 40), (1, 10), (6, 60), (3, 30), (7, 70), (2, 20), (5, 50)])).bind
      (scanLeafChain 8) =
      some [(1, 10), (2, 20), (3, 30), (4, 40), (5, 50), (6, 60), (7, 70)]) ∧
    ((applyOps 8 (BPlusTree.create 0 BufferPoolManager.fresh 3 3)
        (insertAll [(7, 70), (6, 60), (5, 50), (4, 40), (3, 30), (2, 20), (1, 10)])).bind
      (scanLeafChain 8) =
      some [(1, 10), (2, 20), (3, 30), (4, 40), (5, 50), (6, 60), (7, 70)]) ∧
    ∃ t1 t2 e1 e2,
      applyOps 8 (BPlusTree.create 0 BufferPoolManager.fresh 3 3)
        (insertAll [(4, 40), (1, 10), (6, 60), (3, 30), (7, 70), (2, 20), (5, 50)]) = some t1 ∧
      applyOps 8 (BPlusTree.create 0 BufferPoolManager.fresh 3 3)
        (insertAll [(7, 70), (6, 60), (5, 50), (4, 40), (3, 30), (2, 20), (1, 10)]) = some t2 ∧
      scanLeafChain 8 t1 = some e1 ∧ scanLeafChain 8 t2 = some e2 ∧
      e1.Perm [(4, 40), (1, 10), (6, 60), (3, 30), (7, 70), (2, 20), (5, 50)] ∧
      e2.Perm [(4, 40), (1, 10), (6, 60), (3, 30), (7, 70), (2, 20), (5, 50)] ∧
      ∀ p, p ∈ e1 ↔ p ∈ e2 :=
  ⟨by decide, by decide,
    leaf_chain_independent_of_insert_order 0 3 3
      [(4, 40), (1, 10), (6, 60), (3, 30), (7, 70), (2, 20), (5, 50)]
      [(7, 70), (6, 60), (5, 50), (4, 40), (3, 30), (2, 20), (1, 10)] 8
      (by decide) (by decide) (by decide)⟩

/-! ## The separator walk and redistribution in `Remove` -/

/-! ### C21 -/

/-- `Remove(key)` never returns when the key is the only entry of a non-root leaf that
sits at a nonzero index of its parent: the walk reads `KeyAt(0)` of the emptied
leaf. -/
theorem Remove_emptied_leaf_none (N : Nat) (t : BPlusTree) (key : GenericKey) (leaf : page_id_t)
    (l : LeafPage) (p : InternalPage) (i : Nat)
    (he : t.IsEmpty = false)
    (hd : descend t.buffer_pool_manager_.pages N key t.root_page_id_ false = some leaf)
    (hl : t.buffer_pool_manager_.pages leaf = some (BPlusTreePage.leaf l))
    (hfound : (l.RemoveAndDeleteRecord key).2 = true)
    (hk0 : (l.RemoveAndDeleteRecord key).1.KeyAt 0 = none)
    (hnr : l.parent_page_id ≠ INVALID_PAGE_ID)
    (hp : t.buffer_pool_manager_.pages l.parent_page_id = some (BPlusTreePage.internal p))
    (hi : p.ValueIndex leaf = some i) (hi0 : i ≠ 0) (fuel : Nat) :
    t.Remove fuel key = none := by
  have hpar : (l.RemoveAndDeleteRecord key).1.parent_page_id = l.parent_page_id := by
    unfold LeafPage.RemoveAndDeleteRecord; split <;> rfl
  have hPl : l.parent_page_id ≠ leaf := by
    intro h; rw [h, hl] at hp; cases hp
  cases fuel with
  | zero => simp [BPlusTree.Remove, he, BPlusTree.FindLeafPage]
  | succ f =>
    cases hfl : BPlusTree.FindLeafPage (f + 1) t key t.root_page_id_ false with
    | none => simp [BPlusTree.Remove, he, hfl]
    | some r =>
      obtain ⟨t1, leaf1⟩ := r
      obtain ⟨hd1, hsc⟩ := BPlusTree.FindLeafPage_descend _ _ _ _ _ _ _ hfl
      have hpg : t1.buffer_pool_manager_.pages = t.buffer_pool_manager_.pages := hsc.2.2.2.2.1
      have hleaf : leaf1 = leaf := by
        have a := descend_fuel_le t.buffer_pool_manager_.pages key false (le_max_left (f + 1) N) hd1
        have b := descend_fuel_le t.buffer_pool_manager_.pages key false (le_max_right (f + 1) N) hd
        rw [a] at b
        exact Option.some.inj b
      subst hleaf
      have hroot : (l.RemoveAndDeleteRecord key).1.IsRootPage = false := by
        simp [LeafPage.IsRootPage, hpar, hnr]
      obtain ⟨bpm1, hf1⟩ := @FetchPage_of_page
        (t1.withPool (t1.buffer_pool_manager_.write leaf1
          (BPlusTreePage.leaf (l.RemoveAndDeleteRecord key).1))).buffer_pool_manager_
        l.parent_page_id (BPlusTreePage.internal p)
        (by simp [BPlusTree.withPool, BufferPoolManager.write, hPl, hpg, hp])
      have hp1 := (FetchPage_eq_some hf1).2.1
      have hwalk : BPlusTree.bubbleUp (f + 1)
          ((t1.withPool (t1.buffer_pool_manager_.write leaf1
            (BPlusTreePage.leaf (l.RemoveAndDeleteRecord key).1))).withPool bpm1)
          l.parent_page_id leaf1 none = none := by
        have : bpm1.pages l.parent_page_id = some (BPlusTreePage.internal p) := by
          rw [hp1]
          simp [BPlusTree.withPool, BufferPoolManager.write, hPl, hpg, hp]
        simp [BPlusTree.bubbleUp, BufferPoolManager.internalAt, BPlusTree.withPool, this, hi,
          Nat.pos_of_ne_zero hi0]
      have hla : t1.buffer_pool_manager_.leafAt leaf1 = some l := by
        simp [BufferPoolManager.leafAt, hpg, hl]
      simp only [BPlusTree.Remove, he, hfl, hla, hfound, hroot, hpar, hf1, hk0, hwalk,
        Bool.false_eq_true, if_false, if_true, Bool.not_false]

set_option maxRecDepth 1000000 in
theorem treeSmallLeaves_reachable : Reachable treeSmallLeaves :=
  reachable_applyOps 5 _ (Reachable.empty 0 2 3) (applyOps_get (by decide))

set_option maxRecDepth 1000000 in
/-- C21 (failing input): with leaf capacity 2 and internal capacity 3, in the reachable
tree holding 1, 2, 3 the root 4 has the leaves 2 = {1, 2} and 3 = {3}, leaf 3
at index 1 under the separator 3.  `Remove(3)` deletes the entry at index 0 of
the non-root leaf 3 and empties it; the walk then takes `KeyAt(0)` of the empty
leaf as the new separator of slot 1, and the call returns nothing, whatever the
budget. -/
theorem Remove_walk_reads_emptied_leaf :
    Reachable treeSmallLeaves ∧ treeSmallLeaves.root_page_id_ = 4 ∧
    (treeSmallLeaves.buffer_pool_manager_.internalAt 4).map (fun n => n.slots) =
      some [(0, 2), (3, 3)] ∧
    (treeSmallLeaves.buffer_pool_manager_.leafAt 2).map (fun l => l.slots) =
      some [(1, 1), (2, 2)] ∧
    (treeSmallLeaves.buffer_pool_manager_.leafAt 3).map (fun l => (l.parent_page_id, l.slots)) =
      some (4, [(3, 3)]) ∧
    ((treeSmallLeaves.buffer_pool_manager_.leafAt 3).map
      (fun l => (l.RemoveAndDeleteRecord 3).1)).bind (fun l => l.KeyAt 0) = none ∧
    ∀ fuel, treeSmallLeaves.Remove fuel 3 = none :=
  ⟨treeSmallLeaves_reachable, by decide, by decide, by decide, by decide, by decide,
    Remove_emptied_leaf_none 2 treeSmallLeaves 3 3
      { parent_page_id := 4, max_size := 2, next_page_id := INVALID_PAGE_ID, slots := [(3, 3)] }
      { parent_page_id := INVALID_PAGE_ID, max_size := 3, slots := [(0, 2), (3, 3)] } 1
      (by decide) (by decide) (by decide) (by decide) (by decide) (by decide) (by decide)
      (by decide) (by decide)⟩

/-! ### C22 -/

set_option maxRecDepth 1000000 in
theorem treeBorrowRight_reachable : Reachable treeBorrowRight :=
  reachable_applyOps 6 _ (Reachable.empty 0 4 4) (applyOps_get (by decide))

set_option maxRecDepth 1000000 in
/-- C22 (counterexample): with capacity 4, after inserting 1..7 and removing 1 the root 4
holds the leaves 2 = {2, 3} and 3 = {4, 5, 6, 7} under the separator 4.
`Remove(2)` leaves leaf 2, the leftmost child, with one entry; it borrows the
entry 4 from leaf 3.  Afterwards the separator between the two leaves is 5, the
first key of the right sibling, while the first key of the underflowed leaf is 3. -/
theorem leaf_borrow_separator_is_not_own_first_key :
    Reachable treeBorrowRight ∧
    (treeBorrowRight.buffer_pool_manager_.internalAt 4).map (fun n => n.slots) =
      some [(0, 2), (4, 3)] ∧
    (treeBorrowRight.buffer_pool_manager_.leafAt 2).map (fun l => l.slots) =
      some [(2, 2), (3, 3)] ∧
    (treeBorrowRight.buffer_pool_manager_.leafAt 3).map (fun l => l.slots) =
      some [(4, 4), (5, 5), (6, 6), (7, 7)] ∧
    ((treeBorrowRight.Remove 6 2).bind (fun t => t.buffer_pool_manager_.leafAt 2)).map
      (fun l => l.slots) = some [(3, 3), (4, 4)] ∧
    ((treeBorrowRight.Remove 6 2).bind (fun t => t.buffer_pool_manager_.leafAt 3)).map
      (fun l => l.slots) = some [(5, 5), (6, 6), (7, 7)] ∧
    ((treeBorrowRight.Remove 6 2).bind (fun t => t.buffer_pool_manager_.internalAt 4)).map
      (fun n => n.slots) = some [(0, 2), (5, 3)] ∧
    ((treeUnderflowLeft.RedistributeLeaf 3 2 4 0).bind
      (fun t => t.buffer_pool_manager_.internalAt 4)).bind (fun n => n.KeyAt 1) = some 5 ∧
    ((treeUnderflowLeft.RedistributeLeaf 3 2 4 0).bind
      (fun t => t.buffer_pool_manager_.leafAt 2)).bind (fun l => l.KeyAt 0) = some 3 :=
  ⟨treeBorrowRight_reachable, by decide, by decide, by decide, by decide, by decide, by decide,
    by decide, by decide⟩

/-- Leaf `Redistribute` with index 0.  When the right sibling `neighbor_node` holds at
least two entries and the parent at least two slots, the call returns; the first
entry of the sibling has moved to the end of `node`, the key of the parent's
slot 1 is the new first key of the right sibling, and nothing else has changed. -/
theorem RedistributeLeaf_from_right_sibling (t : BPlusTree) (neighbor_node node parent : page_id_t)
    (nb nd : LeafPage) (p : InternalPage) (e e1 : GenericKey × RowId)
    (rest : List (GenericKey × RowId)) (s0 s1 : GenericKey × page_id_t)
    (others : List (GenericKey × page_id_t))
    (hnb : t.buffer_pool_manager_.pages neighbor_node = some (BPlusTreePage.leaf nb))
    (hnd : t.buffer_pool_manager_.pages node = some (BPlusTreePage.leaf nd))
    (hp : t.buffer_pool_manager_.pages parent = some (BPlusTreePage.internal p))
    (hs : nb.slots = e :: e1 :: rest) (hps : p.slots = s0 :: s1 :: others)
    (hne : neighbor_node ≠ node) :
    ∃ t1, t.RedistributeLeaf neighbor_node node parent 0 = some t1 ∧
      t1.buffer_pool_manager_.pages node =
        some (BPlusTreePage.leaf { nd with slots := nd.slots ++ [e] }) ∧
      t1.buffer_pool_manager_.pages neighbor_node =
        some (BPlusTreePage.leaf { nb with slots := e1 :: rest }) ∧
      t1.buffer_pool_manager_.pages parent =
        some (BPlusTreePage.internal { p with slots := s0 :: (e1.1, s1.2) :: others }) ∧
      ∀ x, x ≠ node → x ≠ neighbor_node → x ≠ parent →
        t1.buffer_pool_manager_.pages x = t.buffer_pool_manager_.pages x := by
  have hpn : parent ≠ node := by
    intro h; rw [h, hnd] at hp; cases hp
  have hpb : parent ≠ neighbor_node := by
    intro h; rw [h, hnb] at hp; cases hp
  refine ⟨t.withPool (((t.buffer_pool_manager_.write node
      (BPlusTreePage.leaf { nd with slots := nd.slots ++ [e] })).write neighbor_node
      (BPlusTreePage.leaf { nb with slots := e1 :: rest })).write parent
      (BPlusTreePage.internal { p with slots := s0 :: (e1.1, s1.2) :: others })), ?_, ?_, ?_, ?_, ?_⟩
  · simp [BPlusTree.RedistributeLeaf, BufferPoolManager.leafAt, BufferPoolManager.internalAt,
      hnb, hnd, hp, LeafPage.MoveFirstToEndOf, hs, LeafPage.KeyAt, InternalPage.SetKeyAt, hps]
  · simp [BPlusTree.withPool, BufferPoolManager.write, hpn.symm, hne.symm]
  · simp [BPlusTree.withPool, BufferPoolManager.write, hpb.symm]
  · simp [BPlusTree.withPool, BufferPoolManager.write]
  · intro x h1 h2 h3
    simp [BPlusTree.withPool, BufferPoolManager.write, h1, h2, h3]

/-- C22 (amended): `CoalesceOrRedistribute` on an underflowing leaf `node` that is the
leftmost child of its parent (index 0), with the right sibling `sibling` (the
child of slot 1) too full to merge.  The call returns false; the first entry
of the sibling has moved to the end of `node`, the key of the parent's slot 1
(the separator between the two leaves) is the new first key of the right
sibling, and no other page has changed. -/
theorem leaf_borrow_from_right_sibling (fuel : Nat) (t : BPlusTree) (node sibling : page_id_t)
    (nd sb : LeafPage) (p : InternalPage)
    (hnd : t.buffer_pool_manager_.pages node = some (BPlusTreePage.leaf nd))
    (hnr : nd.parent_page_id ≠ INVALID_PAGE_ID)
    (hp : t.buffer_pool_manager_.pages nd.parent_page_id = some (BPlusTreePage.internal p))
    (hi : p.ValueIndex node = some 0) (hsib : p.ValueAt 1 = some sibling)
    (hsb : t.buffer_pool_manager_.pages sibling = some (BPlusTreePage.leaf sb))
    (hne : sibling ≠ node)
    (hu : nd.GetSize < nd.GetMinSize) (hb : sb.GetSize + nd.GetSize > nd.GetMaxSize) :
    ∃ t1 e e1 rest, sb.slots = e :: e1 :: rest ∧
      t.CoalesceOrRedistributeLeaf fuel node = some (t1, false) ∧
      t1.buffer_pool_manager_.pages node =
        some (BPlusTreePage.leaf { nd with slots := nd.slots ++ [e] }) ∧
      t1.buffer_pool_manager_.pages sibling =
        some (BPlusTreePage.leaf { sb with slots := e1 :: rest }) ∧
      t1.buffer_pool_manager_.pages nd.parent_page_id =
        some (BPlusTreePage.internal { p with slots := p.slots.set 1 (e1.1, sibling) }) ∧
      ∀ x, x ≠ node → x ≠ sibling → x ≠ nd.parent_page_id →
        t1.buffer_pool_manager_.pages x = t.buffer_pool_manager_.pages x := by
  have hlen : 2 ≤ sb.slots.length := by
    simp only [LeafPage.GetSize, LeafPage.GetMinSize, LeafPage.GetMaxSize] at hu hb
    omega
  obtain ⟨e, e1, rest, hs⟩ : ∃ e e1 rest, sb.slots = e :: e1 :: rest := by
    match hm : sb.slots with
    | [] => rw [hm] at hlen; simp at hlen
    | [_] => rw [hm] at hlen; simp at hlen
    | e :: e1 :: rest => exact ⟨e, e1, rest, rfl⟩
  obtain ⟨s0, s1, others, hps, hs1⟩ : ∃ s0 s1 others, p.slots = s0 :: s1 :: others ∧
      s1.2 = sibling := by
    unfold InternalPage.ValueAt at hsib
    match hm : p.slots with
    | [] => rw [hm] at hsib; simp at hsib
    | [_] => rw [hm] at hsib; simp at hsib
    | s0 :: s1 :: others =>
      rw [hm] at hsib
      simp only [List.get?_cons_succ, List.get?_cons_zero, Option.map_some',
        Option.some.injEq] at hsib
      exact ⟨s0, s1, others, rfl, hsib⟩
  obtain ⟨bpm1, hf1⟩ := FetchPage_of_page hp
  have hp1 := (FetchPage_eq_some hf1).2.1
  obtain ⟨bpm2, hf2⟩ := @FetchPage_of_page bpm1 sibling _ (by rw [hp1]; exact hsb)
  have hp2 := (FetchPage_eq_some hf2).2.1
  have hpg : (t.withPool bpm2).buffer_pool_manager_.pages = t.buffer_pool_manager_.pages := by
    rw [← hp1, ← hp2]; rfl
  obtain ⟨t1, hred, h1, h2, h3, h4⟩ := RedistributeLeaf_from_right_sibling (t.withPool bpm2)
    sibling node nd.parent_page_id sb nd p e e1 rest s0 s1 others (by rw [hpg]; exact hsb)
    (by rw [hpg]; exact hnd) (by rw [hpg]; exact hp) hs hps hne
  have hroot : nd.IsRootPage = false := by
    simp [LeafPage.IsRootPage, hnr]
  refine ⟨t1.withPool ((t1.buffer_pool_manager_.UnpinPage sibling true).UnpinPage
    nd.parent_page_id true), e, e1, rest, hs, ?_, h1, h2, ?_, ?_⟩
  · simp only [BPlusTree.CoalesceOrRedistributeLeaf, BufferPoolManager.leafAt, hnd, hroot,
      hf1, hi, if_true, hsib, hf2, ge_iff_le, if_neg (not_le.mpr hu), if_pos hb, hred,
      Bool.false_eq_true, if_false]
  · rw [hps, ← hs1]
    exact h3
  · intro x hx1 hx2 hx3
    exact (h4 x hx1 hx2 hx3).trans (congrFun hpg x)

set_option maxRecDepth 1000000 in
/-- C22 (amended), at a concrete input: capacity 4, leaf 2 = {3} underflowing at index 0 of
the root 4, right sibling 3 = {4, 5, 6, 7}. -/
theorem leaf_borrow_from_right_sibling_witness :
    ∃ t1, treeUnderflowLeft.CoalesceOrRedistributeLeaf 1 2 = some (t1, false) ∧
      t1.buffer_pool_manager_.pages 2 = some (BPlusTreePage.leaf
        { parent_page_id := 4, max_size := 4, next_page_id := 3, slots := [(3, 3), (4, 4)] }) ∧
      t1.buffer_pool_manager_.pages 3 = some (BPlusTreePage.leaf
        { parent_page_id := 4, max_size := 4, next_page_id := INVALID_PAGE_ID,
          slots := [(5, 5), (6, 6), (7, 7)] }) ∧
      t1.buffer_pool_manager_.pages 4 = some (BPlusTreePage.internal
        { parent_page_id := INVALID_PAGE_ID, max_size := 4, slots := [(0, 2), (5, 3)] }) := by
  obtain ⟨t1, e, e1, rest, hs, h, h1, h2, h3, -⟩ := leaf_borrow_from_right_sibling 1
    treeUnderflowLeft 2 3
    { parent_page_id := 4, max_size := 4, next_page_id := 3, slots := [(3, 3)] }
    { parent_page_id := 4, max_size := 4, next_page_id := INVALID_PAGE_ID,
      slots := [(4, 4), (5, 5), (6, 6), (7, 7)] }
    { parent_page_id := INVALID_PAGE_ID, max_size := 4, slots := [(0, 2), (4, 3)] }
    (by decide) (by decide) (by decide) (by decide) (by decide) (by decide) (by decide)
    (by decide) (by decide)
  simp only [List.cons.injEq] at hs
  obtain ⟨rfl, rfl, rfl⟩ := hs
  exact ⟨t1, h, h1, h2, h3⟩

/-! ### C23 -/

theorem RedistributeInternal_left_none (t : BPlusTree) (neighbor_node node parent : page_id_t)
    (index : Nat) (h : index ≠ 0) :
    t.RedistributeInternal neighbor_node node parent index = none := by
  unfold BPlusTree.RedistributeInternal
  simp only [if_neg h]
  split
  · rfl
  · split
    · rfl
    · split
      · rename_i nb1 p1 _ _
        have : nb1.KeyAt nb1.GetSize = none := by
          simp [InternalPage.KeyAt, InternalPage.GetSize]
        simp [this]
      · rfl

theorem CoalesceOrRedistributeInternal_left_borrow (fuel : Nat) (t : BPlusTree) (node S : page_id_t)
    (nd g s : InternalPage) (j : Nat)
    (hnd : t.buffer_pool_manager_.pages node = some (BPlusTreePage.internal nd))
    (hnr : nd.parent_page_id ≠ INVALID_PAGE_ID)
    (hg : t.buffer_pool_manager_.pages nd.parent_page_id = some (BPlusTreePage.internal g))
    (hj : g.ValueIndex node = some j) (hj0 : j ≠ 0) (hS : g.ValueAt (j - 1) = some S)
    (hs : t.buffer_pool_manager_.pages S = some (BPlusTreePage.internal s))
    (hu : nd.GetSize < nd.GetMinSize) (hb : s.GetSize + nd.GetSize > nd.GetMaxSize) :
    t.CoalesceOrRedistributeInternal fuel node = none := by
  cases fuel with
  | zero => rfl
  | succ f =>
    obtain ⟨bpm1, hf1⟩ := FetchPage_of_page hg
    have hp1 := (FetchPage_eq_some hf1).2.1
    obtain ⟨bpm2, hf2⟩ := @FetchPage_of_page bpm1 S _ (by rw [hp1]; exact hs)
    have hroot : nd.IsRootPage = false := by
      simp [InternalPage.IsRootPage, hnr]
    simp only [BPlusTree.CoalesceOrRedistributeInternal, BufferPoolManager.internalAt, hnd, hroot,
      hf1, hj, if_neg hj0, hS, hf2, ge_iff_le, if_neg (not_le.mpr hu), if_pos hb,
      RedistributeInternal_left_none _ _ _ _ _ hj0, Bool.false_eq_true, if_false]


theorem CoalesceLeaf_left_none (fuel : Nat) (t : BPlusTree) (sib leaf P : page_id_t) (i : Nat)
    (sb nd : LeafPage) (p p1 : InternalPage)
    (hsb : t.buffer_pool_manager_.pages sib = some (BPlusTreePage.leaf sb))
    (hnd : t.buffer_pool_manager_.pages leaf = some (BPlusTreePage.leaf nd))
    (hp : t.buffer_pool_manager_.pages P = some (BPlusTreePage.internal p))
    (hi : i ≠ 0) (hrm : p.Remove i = some p1)
    (H : (t.withPool ((((t.buffer_pool_manager_.write sib
        (BPlusTreePage.leaf (nd.MoveAllTo sb).2)).write leaf
        (BPlusTreePage.leaf (nd.MoveAllTo sb).1)).write P
        (BPlusTreePage.internal p1)).DeletePage leaf)).CoalesceOrRedistributeInternal fuel P =
      none) :
    t.CoalesceLeaf fuel sib leaf P i = none := by
  simp only [BPlusTree.CoalesceLeaf, BufferPoolManager.leafAt, BufferPoolManager.internalAt, hsb,
    hnd, hp, if_neg hi, hrm, H]

theorem CoalesceOrRedistributeLeaf_left_coalesce (fuel : Nat) (t : BPlusTree)
    (leaf sib : page_id_t) (nd sb : LeafPage) (p : InternalPage) (i : Nat)
    (hnd : t.buffer_pool_manager_.pages leaf = some (BPlusTreePage.leaf nd))
    (hnr : nd.parent_page_id ≠ INVALID_PAGE_ID)
    (hp : t.buffer_pool_manager_.pages nd.parent_page_id = some (BPlusTreePage.internal p))
    (hi : p.ValueIndex leaf = some i) (hi0 : i ≠ 0) (hsib : p.ValueAt (i - 1) = some sib)
    (hsb : t.buffer_pool_manager_.pages sib = some (BPlusTreePage.leaf sb))
    (hu : nd.GetSize < nd.GetMinSize) (hc : ¬ sb.GetSize + nd.GetSize > nd.GetMaxSize)
    (H : ∀ t1 : BPlusTree, t1.buffer_pool_manager_.pages = t.buffer_pool_manager_.pages →
      t1.CoalesceLeaf fuel sib leaf nd.parent_page_id i = none) :
    t.CoalesceOrRedistributeLeaf fuel leaf = none := by
  obtain ⟨bpm1, hf1⟩ := FetchPage_of_page hp
  have hp1 := (FetchPage_eq_some hf1).2.1
  obtain ⟨bpm2, hf2⟩ := @FetchPage_of_page bpm1 sib _ (by rw [hp1]; exact hsb)
  have hp2 := (FetchPage_eq_some hf2).2.1
  have hroot : nd.IsRootPage = false := by
    simp [LeafPage.IsRootPage, hnr]
  simp only [BPlusTree.CoalesceOrRedistributeLeaf, BufferPoolManager.leafAt, hnd, hroot,
    hf1, hi, if_neg hi0, hsib, hf2, ge_iff_le, if_neg (not_le.mpr hu), if_neg hc,
    H (t.withPool bpm2) (by rw [← hp1, ← hp2]; rfl), Bool.false_eq_true, if_false]


theorem InternalPage_Remove_header {p p1 : InternalPage} {i : Nat} (h : p.Remove i = some p1) :
    p1.parent_page_id = p.parent_page_id ∧ p1.max_size = p.max_size := by
  unfold InternalPage.Remove at h
  split at h
  · simp only [Option.some.injEq] at h
    subst h
    exact ⟨rfl, rfl⟩
  · simp at h

theorem CoalesceOrRedistributeLeaf_then_left_borrow (fuel : Nat) (t : BPlusTree)
    (leaf sib S : page_id_t) (nd sb : LeafPage) (p p1 g s : InternalPage) (i j : Nat)
    (hnd : t.buffer_pool_manager_.pages leaf = some (BPlusTreePage.leaf nd))
    (hnr : nd.parent_page_id ≠ INVALID_PAGE_ID)
    (hp : t.buffer_pool_manager_.pages nd.parent_page_id = some (BPlusTreePage.internal p))
    (hi : p.ValueIndex leaf = some i) (hi0 : i ≠ 0) (hsib : p.ValueAt (i - 1) = some sib)
    (hsb : t.buffer_pool_manager_.pages sib = some (BPlusTreePage.leaf sb))
    (hu : nd.GetSize < nd.GetMinSize) (hc : ¬ sb.GetSize + nd.GetSize > nd.GetMaxSize)
    (hrm : p.Remove i = some p1) (hGr : p.parent_page_id ≠ INVALID_PAGE_ID)
    (hGP : p.parent_page_id ≠ nd.parent_page_id)
    (hg : t.buffer_pool_manager_.pages p.parent_page_id = some (BPlusTreePage.internal g))
    (hj : g.ValueIndex nd.parent_page_id = some j) (hj0 : j ≠ 0)
    (hS : g.ValueAt (j - 1) = some S) (hSP : S ≠ nd.parent_page_id)
    (hs : t.buffer_pool_manager_.pages S = some (BPlusTreePage.internal s))
    (hu2 : p1.GetSize < p1.GetMinSize) (hb2 : s.GetSize + p1.GetSize > p1.GetMaxSize) :
    t.CoalesceOrRedistributeLeaf fuel leaf = none := by
  have hPl : nd.parent_page_id ≠ leaf := by
    intro h; rw [h, hnd] at hp; cases hp
  have hGl : p.parent_page_id ≠ leaf := by
    intro h; rw [h, hnd] at hg; cases hg
  have hGs : p.parent_page_id ≠ sib := by
    intro h; rw [h, hsb] at hg; cases hg
  have hSl : S ≠ leaf := by
    intro h; rw [h, hnd] at hs; cases hs
  have hSs : S ≠ sib := by
    intro h; rw [h, hsb] at hs; cases hs
  obtain ⟨hh1, hh2⟩ := InternalPage_Remove_header hrm
  refine CoalesceOrRedistributeLeaf_left_coalesce fuel t leaf sib nd sb p i hnd hnr hp hi hi0 hsib
    hsb hu hc ?_
  intro t1 hpg
  refine CoalesceLeaf_left_none fuel t1 sib leaf nd.parent_page_id i sb nd p p1
    (by rw [hpg]; exact hsb) (by rw [hpg]; exact hnd) (by rw [hpg]; exact hp) hi0 hrm ?_
  refine CoalesceOrRedistributeInternal_left_borrow fuel _ nd.parent_page_id S p1 g s j ?_ ?_ ?_ hj
    hj0 hS ?_ hu2 hb2
  · simp [BPlusTree.withPool, BufferPoolManager.write, BufferPoolManager.DeletePage, hPl]
  · rw [hh1]; exact hGr
  · rw [hh1]
    simp [BPlusTree.withPool, BufferPoolManager.write, BufferPoolManager.DeletePage, hGl, hGP,
      hGs, hpg, hg]
  · simp [BPlusTree.withPool, BufferPoolManager.write, BufferPoolManager.DeletePage, hSl, hSP,
      hSs, hpg, hs]

/-- `Remove(key)` never returns when the entry leaves a leaf at a nonzero index `i`
of its parent, the leaf merges into its left sibling and the parent, itself
at a nonzero index `j`, would borrow from its left sibling `S`. -/
theorem Remove_internal_borrow_left_none (N : Nat) (t : BPlusTree) (key k0 : GenericKey)
    (leaf sib S : page_id_t) (l sb : LeafPage) (p p0 p1 g s : InternalPage) (i j : Nat)
    (he : t.IsEmpty = false)
    (hd : descend t.buffer_pool_manager_.pages N key t.root_page_id_ false = some leaf)
    (hl : t.buffer_pool_manager_.pages leaf = some (BPlusTreePage.leaf l))
    (hfound : (l.RemoveAndDeleteRecord key).2 = true)
    (hk0 : (l.RemoveAndDeleteRecord key).1.KeyAt 0 = some k0)
    (hnr : l.parent_page_id ≠ INVALID_PAGE_ID)
    (hp0 : t.buffer_pool_manager_.pages l.parent_page_id = some (BPlusTreePage.internal p0))
    (hi0' : p0.ValueIndex leaf = some i) (hi0 : i ≠ 0) (hset : p0.SetKeyAt i k0 = some p)
    (hi : p.ValueIndex leaf = some i) (hsib : p.ValueAt (i - 1) = some sib)
    (hsl : sib ≠ leaf)
    (hsb : t.buffer_pool_manager_.pages sib = some (BPlusTreePage.leaf sb))
    (hu : (l.RemoveAndDeleteRecord key).1.GetSize < (l.RemoveAndDeleteRecord key).1.GetMinSize)
    (hc : ¬ sb.GetSize + (l.RemoveAndDeleteRecord key).1.GetSize >
      (l.RemoveAndDeleteRecord key).1.GetMaxSize)
    (hrm : p.Remove i = some p1) (hGr : p.parent_page_id ≠ INVALID_PAGE_ID)
    (hGP : p.parent_page_id ≠ l.parent_page_id)
    (hg : t.buffer_pool_manager_.pages p.parent_page_id = some (BPlusTreePage.internal g))
    (hj : g.ValueIndex l.parent_page_id = some j) (hj0 : j ≠ 0)
    (hS : g.ValueAt (j - 1) = some S) (hSP : S ≠ l.parent_page_id)
    (hs : t.buffer_pool_manager_.pages S = some (BPlusTreePage.internal s))
    (hu2 : p1.GetSize < p1.GetMinSize) (hb2 : s.GetSize + p1.GetSize > p1.GetMaxSize)
    (fuel : Nat) : t.Remove fuel key = none := by
  have hpar : (l.RemoveAndDeleteRecord key).1.parent_page_id = l.parent_page_id := by
    unfold LeafPage.RemoveAndDeleteRecord; split <;> rfl
  have hPl : l.parent_page_id ≠ leaf := by
    intro h; rw [h, hl] at hp0; cases hp0
  have hsP : sib ≠ l.parent_page_id := by
    intro h; rw [h, hp0] at hsb; cases hsb
  have hGl : p.parent_page_id ≠ leaf := by
    intro h; rw [h, hl] at hg; cases hg
  have hSl : S ≠ leaf := by
    intro h; rw [h, hl] at hs; cases hs
  cases fuel with
  | zero => simp [BPlusTree.Remove, he, BPlusTree.FindLeafPage]
  | succ f =>
    cases hfl : BPlusTree.FindLeafPage (f + 1) t key t.root_page_id_ false with
    | none => simp [BPlusTree.Remove, he, hfl]
    | some r =>
      obtain ⟨t1, leaf1⟩ := r
      obtain ⟨hd1, hsc⟩ := BPlusTree.FindLeafPage_descend _ _ _ _ _ _ _ hfl
      have hpg : t1.buffer_pool_manager_.pages = t.buffer_pool_manager_.pages := hsc.2.2.2.2.1
      have hleaf : leaf1 = leaf := by
        have a := descend_fuel_le t.buffer_pool_manager_.pages key false (le_max_left (f + 1) N) hd1
        have b := descend_fuel_le t.buffer_pool_manager_.pages key false (le_max_right (f + 1) N) hd
        rw [a] at b
        exact Option.some.inj b
      subst hleaf
      have hroot : (l.RemoveAndDeleteRecord key).1.IsRootPage = false := by
        simp [LeafPage.IsRootPage, hpar, hnr]
      obtain ⟨bpm1, hf1⟩ := @FetchPage_of_page
        (t1.withPool (t1.buffer_pool_manager_.write leaf1
          (BPlusTreePage.leaf (l.RemoveAndDeleteRecord key).1))).buffer_pool_manager_
        l.parent_page_id (BPlusTreePage.internal p0)
        (by simp [BPlusTree.withPool, BufferPoolManager.write, hPl, hpg, hp0])
      have hp1 := (FetchPage_eq_some hf1).2.1
      have hb1 : ∀ x, bpm1.pages x = if x = leaf1 then
          some (BPlusTreePage.leaf (l.RemoveAndDeleteRecord key).1)
          else t.buffer_pool_manager_.pages x := by
        intro x
        rw [hp1]
        simp [BPlusTree.withPool, BufferPoolManager.write, hpg]
      have hwalk : BPlusTree.bubbleUp (f + 1)
          ((t1.withPool (t1.buffer_pool_manager_.write leaf1
            (BPlusTreePage.leaf (l.RemoveAndDeleteRecord key).1))).withPool bpm1)
          l.parent_page_id leaf1 (some k0) =
          some (((t1.withPool (t1.buffer_pool_manager_.write leaf1
            (BPlusTreePage.leaf (l.RemoveAndDeleteRecord key).1))).withPool bpm1).withPool
            (bpm1.write l.parent_page_id (BPlusTreePage.internal p))) := by
        have : bpm1.pages l.parent_page_id = some (BPlusTreePage.internal p0) := by
          rw [hb1, if_neg hPl, hp0]
        simp [BPlusTree.bubbleUp, BufferPoolManager.internalAt, BPlusTree.withPool, this, hi0',
          Nat.pos_of_ne_zero hi0, hset]
      have hcor := CoalesceOrRedistributeLeaf_then_left_borrow (f + 1)
        (((t1.withPool (t1.buffer_pool_manager_.write leaf1
            (BPlusTreePage.leaf (l.RemoveAndDeleteRecord key).1))).withPool bpm1).withPool
            (bpm1.write l.parent_page_id (BPlusTreePage.internal p)))
        leaf1 sib S (l.RemoveAndDeleteRecord key).1 sb p p1 g s i j
        (by simp [BPlusTree.withPool, BufferPoolManager.write, hb1, hPl.symm])
        (by rw [hpar]; exact hnr)
        (by rw [hpar]; simp [BPlusTree.withPool, BufferPoolManager.write])
        hi hi0 hsib
        (by simp [BPlusTree.withPool, BufferPoolManager.write, hb1, hsl, hsP, hsb])
        hu hc hrm hGr (by rw [hpar]; exact hGP)
        (by simp [BPlusTree.withPool, BufferPoolManager.write, hb1, hGl, hGP, hg])
        (by rw [hpar]; exact hj) hj0 hS (by rw [hpar]; exact hSP)
        (by simp [BPlusTree.withPool, BufferPoolManager.write, hb1, hSl, hSP, hs])
        hu2 hb2
      have hla : t1.buffer_pool_manager_.leafAt leaf1 = some l := by
        simp [BufferPoolManager.leafAt, hpg, hl]
      simp only [BPlusTree.Remove, he, hfl, hla, hfound, hroot, hpar, hf1, hk0, hwalk, hu, hcor,
        Bool.false_eq_true, if_false, if_true, Bool.not_false]


set_option maxRecDepth 1000000 in
theorem treeDown13_reachable : Reachable treeDown13 :=
  reachable_applyOps 6 _ (Reachable.empty 0 4 4) (applyOps_get (by decide))

set_option maxRecDepth 1000000 in
/-- C23 (failing input): internal `Redistribute` with a nonzero index returns in no state:
after the move it reads the key of slot `GetSize()` of the left sibling, one past
its last slot.  With capacity 4, in the reachable tree holding 13, 12, …, 1 the
root 9 has the children 4 (four children, last slot `(8, 6)`) and 8 (two
leaves); `Remove(13)` merges the leaves of node 8, node 8 underflows at index 1
and would borrow `(8, 6)` from node 4: the call returns nothing, whatever the
budget, so the separator never becomes the moved key 8. -/
theorem internal_borrow_from_left_never_returns :
    (∀ (t : BPlusTree) (neighbor_node node parent : page_id_t) (index : Nat), index ≠ 0 →
      t.RedistributeInternal neighbor_node node parent index = none) ∧
    Reachable treeDown13 ∧ treeDown13.root_page_id_ = 9 ∧
    (treeDown13.buffer_pool_manager_.internalAt 9).map (fun n => n.slots) =
      some [(0, 4), (10, 8)] ∧
    (treeDown13.buffer_pool_manager_.internalAt 4).map (fun n => n.slots) =
      some [(0, 2), (4, 10), (6, 7), (8, 6)] ∧
    (treeDown13.buffer_pool_manager_.internalAt 8).map (fun n => n.slots) =
      some [(10, 5), (12, 3)] ∧
    (treeDown13.buffer_pool_manager_.leafAt 5).map (fun l => l.slots) =
      some [(10, 10), (11, 11)] ∧
    (treeDown13.buffer_pool_manager_.leafAt 3).map (fun l => l.slots) =
      some [(12, 12), (13, 13)] ∧
    ∀ fuel, treeDown13.Remove fuel 13 = none :=
  ⟨RedistributeInternal_left_none, treeDown13_reachable, by decide, by decide, by decide,
    by decide, by decide, by decide,
    Remove_internal_borrow_left_none 3 treeDown13 13 12 3 5 4
      { parent_page_id := 8, max_size := 4, next_page_id := INVALID_PAGE_ID,
        slots := [(12, 12), (13, 13)] }
      { parent_page_id := 8, max_size := 4, next_page_id := 3, slots := [(10, 10), (11, 11)] }
      { parent_page_id := 9, max_size := 4, slots := [(10, 5), (12, 3)] }
      { parent_page_id := 9, max_size := 4, slots := [(10, 5), (12, 3)] }
      { parent_page_id := 9, max_size := 4, slots := [(10, 5)] }
      { parent_page_id := INVALID_PAGE_ID, max_size := 4, slots := [(0, 4), (10, 8)] }
      { parent_page_id := 9, max_size := 4, slots := [(0, 2), (4, 10), (6, 7), (8, 6)] }
      1 1 (by decide) (by decide) (by decide) (by decide) (by decide) (by decide) (by decide)
      (by decide) (by decide) (by decide) (by decide) (by decide) (by decide) (by decide)
      (by decide) (by decide) (by decide) (by decide) (by decide) (by decide) (by decide)
      (by decide) (by decide) (by decide) (by decide) (by decide) (by decide)⟩

/-! ## Leaves at one depth -/

theorem LeafAtDepth_rank {pg : page_id_t → Option BPlusTreePage} {nx : page_id_t}
    {rk : page_id_t → Nat} (hr : Ranked pg nx rk) {x : page_id_t} {d : Nat}
    (h : LeafAtDepth pg x d) : rk x = d := by
  induction h with
  | leaf hx => exact hr.2.1 _ _ hx
  | step hx hc _ ih =>
    obtain ⟨e, he, rfl⟩ := List.mem_map.mp hc
    have := (hr.2.2 _ _ hx e he).2
    omega

theorem Ranked_put_leaf {pg : page_id_t → Option BPlusTreePage} {nx : page_id_t}
    {rk : page_id_t → Nat} (hr : Ranked pg nx rk) {x : page_id_t} (hx : x < nx)
    (h0 : rk x = 0) (l1 : LeafPage) :
    Ranked (fun i => if i = x then some (BPlusTreePage.leaf l1) else pg i) nx rk := by
  refine ⟨?_, ?_, ?_⟩
  · intro y p hy
    by_cases h : y = x
    · subst h; exact hx
    · simp only [if_neg h] at hy; exact hr.1 _ _ hy
  · intro y l2 hy
    by_cases h : y = x
    · subst h; exact h0
    · simp only [if_neg h] at hy; exact hr.2.1 _ _ hy
  · intro y n hy
    by_cases h : y = x
    · subst h; simp at hy
    · simp only [if_neg h] at hy; exact hr.2.2 _ _ hy

theorem Ranked_put_internal {pg : page_id_t → Option BPlusTreePage} {nx : page_id_t}
    {rk : page_id_t → Nat} (hr : Ranked pg nx rk) {x : page_id_t} (hx : x < nx)
    (n1 : InternalPage) (hs : ∀ e ∈ n1.slots, e.2 < nx ∧ rk e.2 + 1 = rk x) :
    Ranked (fun i => if i = x then some (BPlusTreePage.internal n1) else pg i) nx rk := by
  refine ⟨?_, ?_, ?_⟩
  · intro y p hy
    by_cases h : y = x
    · subst h; exact hx
    · simp only [if_neg h] at hy; exact hr.1 _ _ hy
  · intro y l2 hy
    by_cases h : y = x
    · subst h; simp at hy
    · simp only [if_neg h] at hy; exact hr.2.1 _ _ hy
  · intro y n2 hy
    by_cases h : y = x
    · subst h
      simp only [if_true, Option.some.injEq, BPlusTreePage.internal.injEq] at hy
      subst hy; exact hs
    · simp only [if_neg h] at hy; exact hr.2.2 _ _ hy

theorem Ranked_setParent {pg : page_id_t → Option BPlusTreePage} {nx : page_id_t}
    {rk : page_id_t → Nat} (hr : Ranked pg nx rk) {x : page_id_t} {p : BPlusTreePage}
    (hx : pg x = some p) (q : page_id_t) :
    Ranked (fun i => if i = x then some (p.SetParentPageId q) else pg i) nx rk := by
  cases p with
  | leaf l => exact Ranked_put_leaf hr (hr.1 _ _ hx) (hr.2.1 _ _ hx) _
  | internal n => exact Ranked_put_internal hr (hr.1 _ _ hx) _ (hr.2.2 x n hx)

theorem Ranked_delete {pg : page_id_t → Option BPlusTreePage} {nx : page_id_t}
    {rk : page_id_t → Nat} (hr : Ranked pg nx rk) (x : page_id_t) :
    Ranked (fun i => if i = x then none else pg i) nx rk := by
  refine ⟨?_, ?_, ?_⟩
  · intro y p hy
    by_cases h : y = x
    · subst h; simp at hy
    · simp only [if_neg h] at hy; exact hr.1 _ _ hy
  · intro y l2 hy
    by_cases h : y = x
    · subst h; simp at hy
    · simp only [if_neg h] at hy; exact hr.2.1 _ _ hy
  · intro y n2 hy
    by_cases h : y = x
    · subst h; simp at hy
    · simp only [if_neg h] at hy; exact hr.2.2 _ _ hy

theorem Ranked_alloc {pg : page_id_t → Option BPlusTreePage} {nx : page_id_t}
    {rk : page_id_t → Nat} (hr : Ranked pg nx rk) (p : BPlusTreePage) (r : Nat)
    (hl : ∀ l, p = BPlusTreePage.leaf l → r = 0)
    (hs : ∀ n, p = BPlusTreePage.internal n → ∀ e ∈ n.slots, e.2 < nx ∧ rk e.2 + 1 = r) :
    Ranked (fun i => if i = nx then some p else pg i) (nx + 1)
      (fun i => if i = nx then r else rk i) := by
  have hlt : ∀ y q, pg y = some q → y ≠ nx := by
    intro y q hy h
    have := hr.1 _ _ hy
    rw [h] at this
    exact lt_irrefl _ this
  refine ⟨?_, ?_, ?_⟩
  · intro y q hy
    by_cases h : y = nx
    · subst h; exact Int.lt_succ_self _
    · simp only [if_neg h] at hy
      exact lt_trans (hr.1 _ _ hy) (Int.lt_succ_self _)
  · intro y l hy
    by_cases h : y = nx
    · subst h
      simp only [if_true, Option.some.injEq] at hy ⊢
      exact hl _ hy
    · simp only [if_neg h] at hy ⊢
      exact hr.2.1 _ _ hy
  · intro y n hy e he
    by_cases h : y = nx
    · subst h
      simp only [if_true, Option.some.injEq] at hy ⊢
      obtain ⟨h1, h2⟩ := hs _ hy e he
      have hne : e.2 ≠ y := ne_of_lt h1
      simp only [if_neg hne]
      exact ⟨lt_trans h1 (Int.lt_succ_self _), h2⟩
    · simp only [if_neg h] at hy ⊢
      obtain ⟨h1, h2⟩ := hr.2.2 _ _ hy e he
      have hne : e.2 ≠ nx := ne_of_lt h1
      simp only [if_neg hne]
      exact ⟨lt_trans h1 (Int.lt_succ_self _), h2⟩

theorem ValueIndex_mem {n : InternalPage} {c : page_id_t} {i : Nat}
    (h : n.ValueIndex c = some i) : ∃ e ∈ n.slots, e.2 = c := by
  unfold InternalPage.ValueIndex at h
  split at h
  · rename_i hlt
    have := @List.findIdx_getElem _ (fun e : GenericKey × page_id_t => e.2 == c) n.slots hlt
    exact ⟨_, List.getElem_mem _, by simpa using this⟩
  · simp at h

theorem ValueAt_mem_slots {n : InternalPage} {c : page_id_t} {i : Nat}
    (h : n.ValueAt i = some c) : ∃ e ∈ n.slots, e.2 = c := by
  unfold InternalPage.ValueAt at h
  cases hg : n.slots.get? i with
  | none => rw [hg] at h; simp at h
  | some e =>
    rw [hg] at h
    simp only [Option.map_some', Option.some.injEq] at h
    exact ⟨e, List.get?_mem hg, h⟩

theorem leafAt_page {bpm : BufferPoolManager} {x : page_id_t} {l : LeafPage}
    (h : bpm.leafAt x = some l) : bpm.pages x = some (BPlusTreePage.leaf l) := by
  unfold BufferPoolManager.leafAt at h
  split at h
  · simp only [Option.some.injEq] at h; subst h; assumption
  · simp at h

theorem internalAt_page {bpm : BufferPoolManager} {x : page_id_t} {n : InternalPage}
    (h : bpm.internalAt x = some n) : bpm.pages x = some (BPlusTreePage.internal n) := by
  unfold BufferPoolManager.internalAt at h
  split at h
  · simp only [Option.some.injEq] at h; subst h; assumption
  · simp at h

theorem RankedPool_fetch {bpm bpm1 : BufferPoolManager} {id : page_id_t} {p : BPlusTreePage}
    {rk : page_id_t → Nat} (h : bpm.FetchPage id = some (bpm1, p)) (hr : RankedPool bpm rk) :
    RankedPool bpm1 rk := by
  obtain ⟨-, h2, -, h4⟩ := FetchPage_eq_some h
  unfold RankedPool
  rw [h2, h4]
  exact hr

theorem SetKeyAt_sub {n n1 : InternalPage} {i : Nat} {k : GenericKey}
    (h : n.SetKeyAt i k = some n1) : ∀ e ∈ n1.slots, ∃ e0 ∈ n.slots, e0.2 = e.2 := by
  unfold InternalPage.SetKeyAt at h
  split at h
  · simp at h
  · rename_i e0 he0
    simp only [Option.some.injEq] at h
    subst h
    intro e he
    rcases List.mem_or_eq_of_mem_set he with h1 | h1
    · exact ⟨e, h1, rfl⟩
    · exact ⟨e0, List.get?_mem he0, by rw [h1]⟩

theorem Remove_sub {n n1 : InternalPage} {i : Nat} (h : n.Remove i = some n1) :
    ∀ e ∈ n1.slots, ∃ e0 ∈ n.slots, e0.2 = e.2 := by
  unfold InternalPage.Remove at h
  split at h
  · simp only [Option.some.injEq] at h
    subst h
    intro e he
    exact ⟨e, List.mem_of_mem_eraseIdx he, rfl⟩
  · simp at h

theorem Ranked_children_sub {pg : page_id_t → Option BPlusTreePage} {nx : page_id_t}
    {rk : page_id_t → Nat} (hr : Ranked pg nx rk) {x : page_id_t} {n : InternalPage}
    (hx : pg x = some (BPlusTreePage.internal n)) {s : List (GenericKey × page_id_t)}
    (hsub : ∀ e ∈ s, ∃ e0 ∈ n.slots, e0.2 = e.2) :
    ∀ e ∈ s, e.2 < nx ∧ rk e.2 + 1 = rk x := by
  intro e he
  obtain ⟨e0, h0, h1⟩ := hsub e he
  rw [← h1]
  exact hr.2.2 x n hx e0 h0

theorem bubbleUp_ranked (rk : page_id_t → Nat) : ∀ (fuel : Nat) (t t1 : BPlusTree)
    (parent now : page_id_t) (k : Option GenericKey), RankedPool t.buffer_pool_manager_ rk →
    BPlusTree.bubbleUp fuel t parent now k = some t1 → RankedPool t1.buffer_pool_manager_ rk := by
  intro fuel
  induction fuel with
  | zero => intro t t1 parent now k _ h; simp [BPlusTree.bubbleUp] at h
  | succ f ih =>
    intro t t1 parent now k hr h
    simp only [BPlusTree.bubbleUp] at h
    split at h
    · simp at h
    · rename_i p hp
      split at h
      · simp at h
      · rename_i i hi
        split at h
        · split at h
          · simp at h
          · rename_i p1 hset
            simp only [Option.some.injEq] at h
            subst h
            obtain ⟨k0, -, hk⟩ := Option.bind_eq_some.mp hset
            exact Ranked_put_internal hr (hr.1 _ _ (internalAt_page hp)) _
              (Ranked_children_sub hr (internalAt_page hp) (SetKeyAt_sub hk))
        · split at h
          · simp only [Option.some.injEq] at h
            subst h; exact hr
          · split at h
            · simp at h
            · rename_i bpm1 q hf
              exact ih _ _ _ _ _ (RankedPool_fetch hf hr) h

theorem reparent_ranked {bpm bpm1 : BufferPoolManager} {rk : page_id_t → Nat}
    {parent child : page_id_t} (hr : RankedPool bpm rk)
    (h : bpm.reparent parent child = some bpm1) : RankedPool bpm1 rk := by
  unfold BufferPoolManager.reparent at h
  split at h
  · simp at h
  · rename_i b0 p hf
    simp only [Option.some.injEq] at h
    subst h
    obtain ⟨h1, h2, -, -⟩ := FetchPage_eq_some hf
    exact Ranked_setParent (RankedPool_fetch hf hr) (by rw [h2]; exact h1) _

theorem reparentAll_ranked {rk : page_id_t → Nat} (parent : page_id_t) :
    ∀ (cs : List page_id_t) (bpm bpm1 : BufferPoolManager), RankedPool bpm rk →
    bpm.reparentAll parent cs = some bpm1 → RankedPool bpm1 rk := by
  intro cs
  induction cs with
  | nil =>
    intro bpm bpm1 hr h
    simp only [BufferPoolManager.reparentAll, Option.some.injEq] at h
    subst h; exact hr
  | cons c cs ih =>
    intro bpm bpm1 hr h
    simp only [BufferPoolManager.reparentAll] at h
    split at h
    · simp at h
    · rename_i b0 hb
      exact ih _ _ (reparent_ranked hr hb) h

theorem RedistributeLeaf_ranked {rk : page_id_t → Nat} {t t1 : BPlusTree}
    {neighbor_node node parent : page_id_t} {index : Nat}
    (hr : RankedPool t.buffer_pool_manager_ rk)
    (h : t.RedistributeLeaf neighbor_node node parent index = some t1) :
    RankedPool t1.buffer_pool_manager_ rk := by
  simp only [BPlusTree.RedistributeLeaf] at h
  split at h
  · rename_i nb nd p hnb hnd hp
    have hnb1 := leafAt_page hnb
    have hnd1 := leafAt_page hnd
    have hp1 := internalAt_page hp
    have key : ∀ (nb1 nd1 : LeafPage) (p1 : InternalPage) (i : Nat) (k0 : GenericKey),
        p.SetKeyAt i k0 = some p1 →
        RankedPool (((t.buffer_pool_manager_.write node (BPlusTreePage.leaf nd1)).write
          neighbor_node (BPlusTreePage.leaf nb1)).write parent (BPlusTreePage.internal p1)) rk := by
      intro nb1 nd1 p1 i k0 hk
      exact Ranked_put_internal
        (Ranked_put_leaf (Ranked_put_leaf hr (hr.1 _ _ hnd1) (hr.2.1 _ _ hnd1) _)
          (hr.1 _ _ hnb1) (hr.2.1 _ _ hnb1) _)
        (hr.1 _ _ hp1) _ (Ranked_children_sub hr hp1 (SetKeyAt_sub hk))
    split at h
    · split at h
      · simp at h
      · split at h
        · simp at h
        · rename_i p1 hset
          simp only [Option.some.injEq] at h
          subst h
          obtain ⟨k0, -, hk⟩ := Option.bind_eq_some.mp hset
          exact key _ _ _ _ _ hk
    · split at h
      · simp at h
      · split at h
        · simp at h
        · rename_i p1 hset
          simp only [Option.some.injEq] at h
          subst h
          obtain ⟨k0, -, hk⟩ := Option.bind_eq_some.mp hset
          exact key _ _ _ _ _ hk
  · simp at h

theorem InternalMoveAllTo_ranked {bpm bpm1 : BufferPoolManager} {rk : page_id_t → Nat}
    {src dst : page_id_t} {k : GenericKey} (hr : RankedPool bpm rk) (hrk : rk src = rk dst)
    (h : bpm.InternalMoveAllTo src dst k = some bpm1) : RankedPool bpm1 rk := by
  simp only [BufferPoolManager.InternalMoveAllTo] at h
  split at h
  · rename_i n d hn hd
    have hn1 := internalAt_page hn
    have hd1 := internalAt_page hd
    split at h
    · simp at h
    · rename_i e rest hs
      refine reparentAll_ranked dst _ _ _ ?_ h
      refine Ranked_put_internal (Ranked_put_internal hr (hr.1 _ _ hd1) _ ?_) (hr.1 _ _ hn1) _ ?_
      · intro e1 he1
        rcases List.mem_append.mp he1 with h1 | h1
        · exact hr.2.2 _ _ hd1 e1 h1
        · rw [← hrk]
          rcases List.mem_cons.mp h1 with h2 | h2
          · rw [h2]
            exact hr.2.2 _ _ hn1 e (by rw [hs]; exact List.mem_cons_self _ _)
          · exact hr.2.2 _ _ hn1 e1 (by rw [hs]; exact List.mem_cons_of_mem _ h2)
      · intro e1 he1
        simp at he1
  · simp at h

theorem InternalMoveFirstToEndOf_ranked {bpm bpm1 : BufferPoolManager} {rk : page_id_t → Nat}
    {src dst : page_id_t} {k : GenericKey} (hr : RankedPool bpm rk) (hrk : rk src = rk dst)
    (h : bpm.InternalMoveFirstToEndOf src dst k = some bpm1) : RankedPool bpm1 rk := by
  simp only [BufferPoolManager.InternalMoveFirstToEndOf] at h
  split at h
  · rename_i n d hn hd
    have hn1 := internalAt_page hn
    have hd1 := internalAt_page hd
    split at h
    · simp at h
    · rename_i e rest hs
      refine reparent_ranked ?_ h
      refine Ranked_put_internal (Ranked_put_internal hr (hr.1 _ _ hd1) _ ?_) (hr.1 _ _ hn1) _ ?_
      · intro e1 he1
        rcases List.mem_append.mp he1 with h1 | h1
        · exact hr.2.2 _ _ hd1 e1 h1
        · rw [← hrk]
          rw [List.mem_singleton.mp h1]
          exact hr.2.2 _ _ hn1 e (by rw [hs]; exact List.mem_cons_self _ _)
      · intro e1 he1
        exact hr.2.2 _ _ hn1 e1 (by rw [hs]; exact List.mem_cons_of_mem _ he1)
  · simp at h

theorem RedistributeInternal_ranked {rk : page_id_t → Nat} {t t1 : BPlusTree}
    {neighbor_node node parent : page_id_t} {index : Nat}
    (hr : RankedPool t.buffer_pool_manager_ rk) (hrk : rk neighbor_node = rk node)
    (h : t.RedistributeInternal neighbor_node node parent index = some t1) :
    RankedPool t1.buffer_pool_manager_ rk := by
  by_cases hi : index = 0
  · simp only [BPlusTree.RedistributeInternal, hi, if_true] at h
    split at h
    · simp at h
    · rename_i p hp
      split at h
      · simp at h
      · rename_i bpm1 hm
        obtain ⟨k0, -, hk⟩ := Option.bind_eq_some.mp hm
        have hr1 := InternalMoveFirstToEndOf_ranked hr hrk hk
        split at h
        · rename_i nb1 p1 hnb1 hp1
          split at h
          · simp at h
          · rename_i p2 hset
            simp only [Option.some.injEq] at h
            subst h
            obtain ⟨k1, -, hk1⟩ := Option.bind_eq_some.mp hset
            have hpp := internalAt_page hp1
            exact Ranked_put_internal hr1 (hr1.1 _ _ hpp) _
              (Ranked_children_sub hr1 hpp (SetKeyAt_sub hk1))
        · simp at h
  · rw [RedistributeInternal_left_none _ _ _ _ _ hi] at h
    simp at h

theorem RankedPool_UpdateRootPageId {rk : page_id_t → Nat} {t : BPlusTree} (b : Bool)
    (hr : RankedPool t.buffer_pool_manager_ rk) :
    RankedPool (t.UpdateRootPageId b).buffer_pool_manager_ rk := by
  unfold RankedPool
  rw [UpdateRootPageId_pages, UpdateRootPageId_next]
  exact hr

theorem AdjustRoot_ranked {rk : page_id_t → Nat} {t t1 : BPlusTree} {x : page_id_t} {b : Bool}
    (hr : RankedPool t.buffer_pool_manager_ rk) (h : t.AdjustRoot x = some (t1, b)) :
    RankedPool t1.buffer_pool_manager_ rk := by
  simp only [BPlusTree.AdjustRoot] at h
  split at h
  · simp at h
  · split at h
    · simp only [Option.some.injEq, Prod.mk.injEq] at h
      obtain ⟨rfl, -⟩ := h
      exact @RankedPool_UpdateRootPageId rk { t with root_page_id_ := INVALID_PAGE_ID } false hr
    · simp only [Option.some.injEq, Prod.mk.injEq] at h
      obtain ⟨rfl, -⟩ := h
      exact hr
  · rename_i n hn
    split at h
    · split at h
      · simp at h
      · rename_i root1 c hrc
        have hroot1 : root1.slots = [] := by
          unfold InternalPage.RemoveAndReturnOnlyChild at hrc
          split at hrc
          · simp at hrc
          · simp only [Option.some.injEq, Prod.mk.injEq] at hrc
            rw [← hrc.1]
        have hr1 : RankedPool (t.buffer_pool_manager_.write x (BPlusTreePage.internal root1)) rk :=
          Ranked_put_internal hr (hr.1 _ _ hn) _ (by rw [hroot1]; intro e he; simp at he)
        split at h
        · simp at h
        · rename_i bpm2 page hf
          simp only [Option.some.injEq, Prod.mk.injEq] at h
          obtain ⟨rfl, -⟩ := h
          obtain ⟨h1, h2, -, -⟩ := FetchPage_eq_some hf
          have hr2 : RankedPool ((bpm2.write c (page.SetParentPageId INVALID_PAGE_ID)).UnpinPage
              c true) rk :=
            Ranked_setParent (RankedPool_fetch hf hr1) (by rw [h2]; exact h1) _
          exact @RankedPool_UpdateRootPageId rk
            { t with root_page_id_ := c,
                     buffer_pool_manager_ :=
                       (bpm2.write c (page.SetParentPageId INVALID_PAGE_ID)).UnpinPage c true }
            false hr2
    · simp only [Option.some.injEq, Prod.mk.injEq] at h
      obtain ⟨rfl, -⟩ := h
      exact hr

theorem siblings_same_rank {pg : page_id_t → Option BPlusTreePage} {nx : page_id_t}
    {rk : page_id_t → Nat} (hr : Ranked pg nx rk) {x : page_id_t} {p : InternalPage}
    (hx : pg x = some (BPlusTreePage.internal p)) {node sibling : page_id_t} {i j : Nat}
    (hi : p.ValueIndex node = some i) (hj : p.ValueAt j = some sibling) :
    rk sibling = rk node := by
  obtain ⟨e1, he1, h1⟩ := ValueIndex_mem hi
  obtain ⟨e2, he2, h2⟩ := ValueAt_mem_slots hj
  have a := (hr.2.2 x p hx e1 he1).2
  have b := (hr.2.2 x p hx e2 he2).2
  rw [h1] at a
  rw [h2] at b
  omega

theorem CoalesceInternal_ranked {rk : page_id_t → Nat}
    (cor : BPlusTree → page_id_t → Option (BPlusTree × Bool))
    (hcor : ∀ (t t1 : BPlusTree) (x : page_id_t) (b : Bool),
      RankedPool t.buffer_pool_manager_ rk → cor t x = some (t1, b) →
      RankedPool t1.buffer_pool_manager_ rk)
    {t t1 : BPlusTree} {neighbor_node node parent : page_id_t} {index : Nat} {b : Bool}
    (hr : RankedPool t.buffer_pool_manager_ rk) (hrk : rk neighbor_node = rk node)
    (h : BPlusTree.CoalesceInternal cor t neighbor_node node parent index = some (t1, b)) :
    RankedPool t1.buffer_pool_manager_ rk := by
  simp only [BPlusTree.CoalesceInternal] at h
  split at h
  · simp at h
  · rename_i p hp
    have hmerged : ∀ (src dst victim : page_id_t) (i : Nat) (bpm2 : BufferPoolManager),
        rk src = rk dst →
        (match (p.KeyAt i).bind (fun k => t.buffer_pool_manager_.InternalMoveAllTo src dst k) with
          | none => none
          | some bpm1 =>
            match (bpm1.internalAt parent).bind (fun p1 => p1.Remove i) with
            | none => none
            | some p2 =>
              some ((bpm1.write parent (BPlusTreePage.internal p2)).DeletePage victim)) =
          some bpm2 → RankedPool bpm2 rk := by
      intro src dst victim i bpm2 hsd hm
      split at hm
      · simp at hm
      · rename_i bpm1 hmv
        obtain ⟨k0, -, hk⟩ := Option.bind_eq_some.mp hmv
        have hr1 := InternalMoveAllTo_ranked hr hsd hk
        split at hm
        · simp at hm
        · rename_i p2 hrm
          simp only [Option.some.injEq] at hm
          subst hm
          obtain ⟨p1, hp1, hrm1⟩ := Option.bind_eq_some.mp hrm
          have hpp := internalAt_page hp1
          exact Ranked_delete (Ranked_put_internal hr1 (hr1.1 _ _ hpp) _
            (Ranked_children_sub hr1 hpp (Remove_sub hrm1))) _
    split at h
    · simp at h
    · rename_i bpm2 hm
      have hr2 : RankedPool bpm2 rk := by
        by_cases hi : index = 0
        · simp only [hi, if_true] at hm
          exact hmerged _ _ _ _ _ hrk hm
        · simp only [if_neg hi] at hm
          exact hmerged _ _ _ _ _ hrk.symm hm
      split at h
      · simp at h
      · rename_i t2 hc
        simp only [Option.some.injEq, Prod.mk.injEq] at h
        obtain ⟨rfl, -⟩ := h
        exact Ranked_delete (hcor _ _ _ _ hr2 hc) _
      · rename_i t2 hc
        simp only [Option.some.injEq, Prod.mk.injEq] at h
        obtain ⟨rfl, -⟩ := h
        exact (hcor _ t2 _ _ hr2 hc : RankedPool t2.buffer_pool_manager_ rk)

theorem CoalesceOrRedistributeInternal_ranked (rk : page_id_t → Nat) : ∀ (fuel : Nat)
    (t t1 : BPlusTree) (node : page_id_t) (b : Bool), RankedPool t.buffer_pool_manager_ rk →
    BPlusTree.CoalesceOrRedistributeInternal fuel t node = some (t1, b) →
    RankedPool t1.buffer_pool_manager_ rk := by
  intro fuel
  induction fuel with
  | zero => intro t t1 node b _ h; simp [BPlusTree.CoalesceOrRedistributeInternal] at h
  | succ f ih =>
    intro t t1 node b hr h
    simp only [BPlusTree.CoalesceOrRedistributeInternal] at h
    split at h
    · simp at h
    · rename_i nd hnd
      split at h
      · exact AdjustRoot_ranked hr h
      · split at h
        · rename_i bpm1 parent hf1
          have hr1 := RankedPool_fetch hf1 hr
          obtain ⟨hpar, hpg1, -, -⟩ := FetchPage_eq_some hf1
          split at h
          · simp at h
          · rename_i index hidx
            split at h
            · simp at h
            · rename_i sibling hsib
              have hrk : rk sibling = rk node := siblings_same_rank hr hpar hidx hsib
              split at h
              · rename_i bpm2 sb hf2
                have hr2 := RankedPool_fetch hf2 hr1
                split at h
                · simp only [Option.some.injEq, Prod.mk.injEq] at h
                  obtain ⟨rfl, -⟩ := h
                  exact hr2
                · split at h
                  · split at h
                    · simp at h
                    · rename_i t2 hred
                      simp only [Option.some.injEq, Prod.mk.injEq] at h
                      obtain ⟨rfl, -⟩ := h
                      exact @RedistributeInternal_ranked rk (t.withPool bpm2) t2 _ _ _ _ hr2 hrk
                        hred
                  · split at h
                    · simp at h
                    · rename_i t2 b2 hco
                      simp only [Option.some.injEq, Prod.mk.injEq] at h
                      obtain ⟨rfl, -⟩ := h
                      exact @CoalesceInternal_ranked rk _ ih (t.withPool bpm2) t2 _ _ _ _ _ hr2
                        hrk hco
              · simp at h
        · simp at h

theorem CoalesceLeaf_ranked {rk : page_id_t → Nat} {fuel : Nat} {t t1 : BPlusTree}
    {neighbor_node node parent : page_id_t} {index : Nat} {b : Bool}
    (hr : RankedPool t.buffer_pool_manager_ rk)
    (h : BPlusTree.CoalesceLeaf fuel t neighbor_node node parent index = some (t1, b)) :
    RankedPool t1.buffer_pool_manager_ rk := by
  simp only [BPlusTree.CoalesceLeaf] at h
  split at h
  · rename_i nb nd p hnb hnd hp
    have hnb1 := leafAt_page hnb
    have hnd1 := leafAt_page hnd
    have hp1 := internalAt_page hp
    have hmerged : ∀ (a c victim : page_id_t) (la lc : LeafPage) (i : Nat)
        (bpm2 : BufferPoolManager), a < t.buffer_pool_manager_.next_page_id → rk a = 0 →
        c < t.buffer_pool_manager_.next_page_id → rk c = 0 →
        (match p.Remove i with
          | none => none
          | some p1 =>
            some ((((t.buffer_pool_manager_.write a (BPlusTreePage.leaf la)).write c
              (BPlusTreePage.leaf lc)).write parent (BPlusTreePage.internal p1)).DeletePage
              victim)) = some bpm2 → RankedPool bpm2 rk := by
      intro a c victim la lc i bpm2 ha ha0 hc hc0 hm
      split at hm
      · simp at hm
      · rename_i p1 hrm
        simp only [Option.some.injEq] at hm
        subst hm
        exact Ranked_delete (Ranked_put_internal
          (Ranked_put_leaf (Ranked_put_leaf hr ha ha0 _) hc hc0 _) (hr.1 _ _ hp1) _
          (Ranked_children_sub hr hp1 (Remove_sub hrm))) _
    split at h
    · simp at h
    · rename_i bpm1 hm
      have hr1 : RankedPool bpm1 rk := by
        by_cases hi : index = 0
        · simp only [hi, if_true] at hm
          exact hmerged _ _ _ _ _ _ _ (hr.1 _ _ hnd1) (hr.2.1 _ _ hnd1) (hr.1 _ _ hnb1)
            (hr.2.1 _ _ hnb1) hm
        · simp only [if_neg hi] at hm
          exact hmerged _ _ _ _ _ _ _ (hr.1 _ _ hnb1) (hr.2.1 _ _ hnb1) (hr.1 _ _ hnd1)
            (hr.2.1 _ _ hnd1) hm
      split at h
      · simp at h
      · rename_i t2 hc
        simp only [Option.some.injEq, Prod.mk.injEq] at h
        obtain ⟨rfl, -⟩ := h
        exact CoalesceOrRedistributeInternal_ranked rk _ _ _ _ _ hr1 hc
      · rename_i t2 hc
        simp only [Option.some.injEq, Prod.mk.injEq] at h
        obtain ⟨rfl, -⟩ := h
        exact (CoalesceOrRedistributeInternal_ranked rk _ _ t2 _ _ hr1 hc :
          RankedPool t2.buffer_pool_manager_ rk)
  · simp at h

theorem CoalesceOrRedistributeLeaf_ranked {rk : page_id_t → Nat} {fuel : Nat} {t t1 : BPlusTree}
    {node : page_id_t} {b : Bool} (hr : RankedPool t.buffer_pool_manager_ rk)
    (h : BPlusTree.CoalesceOrRedistributeLeaf fuel t node = some (t1, b)) :
    RankedPool t1.buffer_pool_manager_ rk := by
  simp only [BPlusTree.CoalesceOrRedistributeLeaf] at h
  split at h
  · simp at h
  · rename_i nd hnd
    split at h
    · exact AdjustRoot_ranked hr h
    · split at h
      · rename_i bpm1 parent hf1
        have hr1 := RankedPool_fetch hf1 hr
        split at h
        · simp at h
        · rename_i index hidx
          split at h
          · simp at h
          · rename_i sibling hsib
            split at h
            · rename_i bpm2 sb hf2
              have hr2 := RankedPool_fetch hf2 hr1
              split at h
              · simp only [Option.some.injEq, Prod.mk.injEq] at h
                obtain ⟨rfl, -⟩ := h
                exact hr2
              · split at h
                · split at h
                  · simp at h
                  · rename_i t2 hred
                    simp only [Option.some.injEq, Prod.mk.injEq] at h
                    obtain ⟨rfl, -⟩ := h
                    exact @RedistributeLeaf_ranked rk (t.withPool bpm2) t2 _ _ _ _ hr2 hred
                · split at h
                  · simp at h
                  · rename_i t2 b2 hco
                    simp only [Option.some.injEq, Prod.mk.injEq] at h
                    obtain ⟨rfl, -⟩ := h
                    exact @CoalesceLeaf_ranked rk _ (t.withPool bpm2) t2 _ _ _ _ _ hr2 hco
            · simp at h
      · simp at h

theorem Remove_ranked {rk : page_id_t → Nat} {fuel : Nat} {t t1 : BPlusTree} {key : GenericKey}
    (hr : RankedPool t.buffer_pool_manager_ rk) (h : t.Remove fuel key = some t1) :
    RankedPool t1.buffer_pool_manager_ rk := by
  simp only [BPlusTree.Remove] at h
  split at h
  · simp only [Option.some.injEq] at h
    subst h; exact hr
  · split at h
    · simp at h
    · rename_i t2 leaf hfl
      obtain ⟨-, hsc⟩ := BPlusTree.FindLeafPage_descend _ _ _ _ _ _ _ hfl
      have hr2 : RankedPool t2.buffer_pool_manager_ rk := by
        unfold RankedPool
        rw [hsc.2.2.2.2.1, hsc.2.2.2.2.2.2]
        exact hr
      split at h
      · simp at h
      · rename_i l hl
        have hl1 := leafAt_page hl
        split at h
        · have hr3 : RankedPool (t2.buffer_pool_manager_.write leaf
              (BPlusTreePage.leaf (l.RemoveAndDeleteRecord key).1)) rk :=
            Ranked_put_leaf hr2 (hr2.1 _ _ hl1) (hr2.2.1 _ _ hl1) _
          split at h
          · simp at h
          · rename_i t3 hw
            have hr4 : RankedPool t3.buffer_pool_manager_ rk := by
              split at hw
              · split at hw
                · simp at hw
                · rename_i bpm1 q hf
                  exact bubbleUp_ranked rk _ _ _ _ _ _
                    (@RankedPool_fetch _ bpm1 _ _ rk hf hr3) hw
              · simp only [Option.some.injEq] at hw
                subst hw; exact hr3
            split at h
            · split at h
              · simp at h
              · rename_i t4 hc
                simp only [Option.some.injEq] at h
                subst h
                exact CoalesceOrRedistributeLeaf_ranked hr4 hc
              · rename_i t4 hc
                simp only [Option.some.injEq] at h
                subst h
                exact (CoalesceOrRedistributeLeaf_ranked hr4 hc :
                  RankedPool t4.buffer_pool_manager_ rk)
            · simp only [Option.some.injEq] at h
              subst h; exact hr4
        · simp only [Option.some.injEq] at h
          subst h; exact hr2

theorem InternalMoveHalfTo_ranked {bpm bpm1 : BufferPoolManager} {rk : page_id_t → Nat}
    {src dst : page_id_t} (hr : RankedPool bpm rk) (hrk : rk src = rk dst)
    (h : bpm.InternalMoveHalfTo src dst = some bpm1) : RankedPool bpm1 rk := by
  simp only [BufferPoolManager.InternalMoveHalfTo] at h
  split at h
  · rename_i n d hn hd
    have hn1 := internalAt_page hn
    have hd1 := internalAt_page hd
    refine reparentAll_ranked dst _ _ _ ?_ h
    refine Ranked_put_internal (Ranked_put_internal hr (hr.1 _ _ hd1) _ ?_) (hr.1 _ _ hn1) _ ?_
    · intro e1 he1
      rcases List.mem_append.mp he1 with h1 | h1
      · exact hr.2.2 _ _ hd1 e1 h1
      · rw [← hrk]
        exact hr.2.2 _ _ hn1 e1 (List.mem_of_mem_drop h1)
    · intro e1 he1
      exact hr.2.2 _ _ hn1 e1 (List.mem_of_mem_take he1)
  · simp at h

theorem reparent_next {bpm bpm1 : BufferPoolManager} {parent child : page_id_t}
    (h : bpm.reparent parent child = some bpm1) : bpm1.next_page_id = bpm.next_page_id := by
  unfold BufferPoolManager.reparent at h
  split at h
  · simp at h
  · rename_i b0 p hf
    simp only [Option.some.injEq] at h
    subst h
    exact (FetchPage_eq_some hf).2.2.2

theorem reparentAll_next (parent : page_id_t) : ∀ (cs : List page_id_t)
    (bpm bpm1 : BufferPoolManager), bpm.reparentAll parent cs = some bpm1 →
    bpm1.next_page_id = bpm.next_page_id := by
  intro cs
  induction cs with
  | nil =>
    intro bpm bpm1 h
    simp only [BufferPoolManager.reparentAll, Option.some.injEq] at h
    subst h; rfl
  | cons c cs ih =>
    intro bpm bpm1 h
    simp only [BufferPoolManager.reparentAll] at h
    split at h
    · simp at h
    · rename_i b0 hb
      rw [ih _ _ h, reparent_next hb]

theorem InternalMoveHalfTo_next {bpm bpm1 : BufferPoolManager} {src dst : page_id_t}
    (h : bpm.InternalMoveHalfTo src dst = some bpm1) :
    bpm1.next_page_id = bpm.next_page_id := by
  simp only [BufferPoolManager.InternalMoveHalfTo] at h
  split at h
  · rw [reparentAll_next _ _ _ _ h]; rfl
  · simp at h

theorem StartNewTree_ranked {rk : page_id_t → Nat} (t : BPlusTree) (key : GenericKey)
    (value : RowId) (hr : RankedPool t.buffer_pool_manager_ rk) :
    ∃ rk1, RankedPool (t.StartNewTree key value).buffer_pool_manager_ rk1 := by
  refine ⟨fun i => if i = t.buffer_pool_manager_.next_page_id then 0 else rk i, ?_⟩
  have h1 := Ranked_alloc hr
    (BPlusTreePage.leaf ((LeafPage.Init INVALID_PAGE_ID t.leaf_max_size_).Insert key value).1) 0
    (fun _ _ => rfl) (fun n hn => by cases hn)
  unfold RankedPool
  simp only [BPlusTree.StartNewTree, BPlusTree.withPool_pool, BufferPoolManager.UnpinPage]
  rw [UpdateRootPageId_pages, UpdateRootPageId_next]
  exact h1

theorem SplitLeaf_ranked {rk : page_id_t → Nat} {t t1 : BPlusTree} {node new_node : page_id_t}
    (hr : RankedPool t.buffer_pool_manager_ rk) (h : t.SplitLeaf node = some (t1, new_node)) :
    ∃ rk1, RankedPool t1.buffer_pool_manager_ rk1 ∧ rk1 node = rk1 new_node ∧
      new_node < t1.buffer_pool_manager_.next_page_id := by
  simp only [BPlusTree.SplitLeaf] at h
  split at h
  · simp at h
  · rename_i n hn
    simp only [Option.some.injEq, Prod.mk.injEq] at h
    obtain ⟨rfl, rfl⟩ := h
    have hn1 : t.buffer_pool_manager_.pages node = some (BPlusTreePage.leaf n) := leafAt_page hn
    have hlt := hr.1 _ _ hn1
    have hne : node ≠ t.buffer_pool_manager_.next_page_id := ne_of_lt hlt
    have h0 := hr.2.1 _ _ hn1
    refine ⟨fun i => if i = t.buffer_pool_manager_.next_page_id then 0 else rk i, ?_, ?_, ?_⟩
    · exact Ranked_put_leaf (Ranked_alloc hr _ 0 (fun _ _ => rfl) (fun n hn => by cases hn))
        (lt_trans hlt (Int.lt_succ_self _)) (by simp only [if_neg hne]; exact h0) _
    · simp only [if_neg hne, BufferPoolManager.NewPage, if_true]
      exact h0
    · exact Int.lt_succ_self _

theorem SplitInternal_ranked {rk : page_id_t → Nat} {t t1 : BPlusTree}
    {node new_node : page_id_t} (hr : RankedPool t.buffer_pool_manager_ rk)
    (h : t.SplitInternal node = some (t1, new_node)) :
    ∃ rk1, RankedPool t1.buffer_pool_manager_ rk1 ∧ rk1 node = rk1 new_node ∧
      new_node < t1.buffer_pool_manager_.next_page_id := by
  simp only [BPlusTree.SplitInternal] at h
  split at h
  · simp at h
  · rename_i n hn
    split at h
    · simp at h
    · rename_i bpm3 hm
      simp only [Option.some.injEq, Prod.mk.injEq] at h
      obtain ⟨rfl, rfl⟩ := h
      have hn1 : t.buffer_pool_manager_.pages node = some (BPlusTreePage.internal n) :=
        internalAt_page hn
      have hlt := hr.1 _ _ hn1
      have hne : node ≠ t.buffer_pool_manager_.next_page_id := ne_of_lt hlt
      have hsame : (fun i => if i = t.buffer_pool_manager_.next_page_id then rk node else rk i)
          node = (fun i => if i = t.buffer_pool_manager_.next_page_id then rk node else rk i)
            t.buffer_pool_manager_.NewPage.2 := by
        simp only [if_neg hne, BufferPoolManager.NewPage, if_true]
      have hr2 : RankedPool (t.buffer_pool_manager_.NewPage.1.write t.buffer_pool_manager_.NewPage.2
          (BPlusTreePage.internal (InternalPage.Init n.parent_page_id t.internal_max_size_)))
          (fun i => if i = t.buffer_pool_manager_.next_page_id then rk node else rk i) :=
        Ranked_alloc hr _ (rk node) (fun l hl => by cases hl)
          (fun m hm e he => by
            simp only [BPlusTreePage.internal.injEq] at hm
            subst hm
            simp [InternalPage.Init] at he)
      have hr3 := InternalMoveHalfTo_ranked hr2 hsame hm
      have hnext : bpm3.next_page_id = t.buffer_pool_manager_.next_page_id + 1 :=
        InternalMoveHalfTo_next hm
      exact ⟨_, hr3, hsame, by
        show t.buffer_pool_manager_.next_page_id < bpm3.next_page_id
        rw [hnext]; exact Int.lt_succ_self _⟩

theorem InsertNodeAfter_sub {n n1 : InternalPage} {old new : page_id_t} {key : GenericKey}
    (h : n.InsertNodeAfter old key new = some n1) :
    (∃ e ∈ n.slots, e.2 = old) ∧ ∀ e ∈ n1.slots, e ∈ n.slots ∨ e = (key, new) := by
  unfold InternalPage.InsertNodeAfter at h
  split at h
  · simp at h
  · rename_i i hi
    simp only [Option.some.injEq] at h
    subst h
    refine ⟨ValueIndex_mem hi, ?_⟩
    intro e he
    rcases List.mem_append.mp he with h1 | h1
    · exact Or.inl (List.mem_of_mem_take h1)
    · rcases List.mem_cons.mp h1 with h2 | h2
      · exact Or.inr h2
      · exact Or.inl (List.mem_of_mem_drop h2)

theorem InsertIntoParent_ranked : ∀ (fuel : Nat) (rk : page_id_t → Nat) (t t1 : BPlusTree)
    (old_node new_node : page_id_t) (key : GenericKey),
    RankedPool t.buffer_pool_manager_ rk →
    new_node < t.buffer_pool_manager_.next_page_id → rk old_node = rk new_node →
    BPlusTree.InsertIntoParent fuel t old_node key new_node = some t1 →
    ∃ rk1, RankedPool t1.buffer_pool_manager_ rk1 := by
  intro fuel
  induction fuel with
  | zero => intro rk t t1 o n k _ _ _ h; simp [BPlusTree.InsertIntoParent] at h
  | succ f ih =>
    intro rk t t1 old_node new_node key hr hnew hrk h
    simp only [BPlusTree.InsertIntoParent] at h
    split at h
    · simp at h
    · rename_i old_page hold
      have hlt := hr.1 _ _ hold
      have hne : old_node ≠ t.buffer_pool_manager_.next_page_id := ne_of_lt hlt
      split at h
      · split at h
        · simp at h
        · rename_i new_page hnp
          simp only [Option.some.injEq] at h
          subst h
          refine ⟨fun i => if i = t.buffer_pool_manager_.next_page_id then rk old_node + 1
            else rk i, ?_⟩
          have h2 : RankedPool (t.buffer_pool_manager_.NewPage.1.write
              t.buffer_pool_manager_.NewPage.2
              (BPlusTreePage.internal ((InternalPage.Init INVALID_PAGE_ID
                t.internal_max_size_).PopulateNewRoot old_node key new_node)))
              (fun i => if i = t.buffer_pool_manager_.next_page_id then rk old_node + 1
                else rk i) :=
            Ranked_alloc hr _ (rk old_node + 1) (fun l hl => by cases hl)
              (fun m hm e he => by
                simp only [BPlusTreePage.internal.injEq] at hm
                subst hm
                simp only [InternalPage.PopulateNewRoot, List.mem_cons, List.mem_singleton,
                  List.not_mem_nil, or_false] at he
                rcases he with h1 | h1
                · rw [h1]; exact ⟨hlt, rfl⟩
                · rw [h1]; exact ⟨hnew, by rw [hrk]⟩)
          have h3 := Ranked_setParent h2
            (show (t.buffer_pool_manager_.NewPage.1.write t.buffer_pool_manager_.NewPage.2
              (BPlusTreePage.internal ((InternalPage.Init INVALID_PAGE_ID
                t.internal_max_size_).PopulateNewRoot old_node key new_node))).pages old_node =
              some old_page by
                simp only [BufferPoolManager.write, BufferPoolManager.NewPage, if_neg hne]
                exact hold)
            t.buffer_pool_manager_.NewPage.2
          have h4 := Ranked_setParent h3 hnp t.buffer_pool_manager_.NewPage.2
          unfold RankedPool
          simp only [BPlusTree.withPool_pool, BufferPoolManager.UnpinPage]
          rw [UpdateRootPageId_pages, UpdateRootPageId_next]
          exact h4
      · split at h
        · rename_i bpm1 parent_page hf
          have hr1 := RankedPool_fetch hf hr
          obtain ⟨hpar, hpg1, -, hnx1⟩ := FetchPage_eq_some hf
          have hpar1 : bpm1.pages old_page.GetParentPageId =
              some (BPlusTreePage.internal parent_page) := by rw [hpg1]; exact hpar
          split at h
          · simp at h
          · rename_i parent1 hins
            obtain ⟨⟨e0, he0, he0o⟩, hsub⟩ := InsertNodeAfter_sub hins
            have hr2 : RankedPool (bpm1.write old_page.GetParentPageId
                (BPlusTreePage.internal parent1)) rk := by
              refine Ranked_put_internal hr1 (hr1.1 _ _ hpar1) _ ?_
              intro e he
              rcases hsub e he with h1 | h1
              · exact hr1.2.2 _ _ hpar1 e h1
              · rw [h1]
                refine ⟨by rw [hnx1]; exact hnew, ?_⟩
                have := (hr1.2.2 _ _ hpar1 e0 he0).2
                rw [he0o] at this
                rw [← this, hrk]
            split at h
            · split at h
              · simp at h
              · rename_i t2 np hsp
                obtain ⟨rk1, hrs, hrk1, hnp⟩ := @SplitInternal_ranked rk _ _ _ _ hr2 hsp
                split at h
                · simp at h
                · rename_i key1 hk1
                  split at h
                  · simp at h
                  · rename_i t3 hrec
                    simp only [Option.some.injEq] at h
                    subst h
                    obtain ⟨rk2, hr4⟩ := ih rk1 _ _ _ _ _ hrs hnp hrk1 hrec
                    exact ⟨rk2, hr4⟩
            · simp only [Option.some.injEq] at h
              subst h
              exact ⟨rk, hr2⟩
        · simp at h

theorem InsertIntoLeaf_ranked {rk : page_id_t → Nat} {fuel : Nat} {t t1 : BPlusTree}
    {key : GenericKey} {value : RowId} {b : Bool} (hr : RankedPool t.buffer_pool_manager_ rk)
    (h : t.InsertIntoLeaf fuel key value = some (t1, b)) :
    ∃ rk1, RankedPool t1.buffer_pool_manager_ rk1 := by
  simp only [BPlusTree.InsertIntoLeaf] at h
  split at h
  · simp at h
  · rename_i t2 leaf hfl
    obtain ⟨-, hsc⟩ := BPlusTree.FindLeafPage_descend _ _ _ _ _ _ _ hfl
    have hr2 : RankedPool t2.buffer_pool_manager_ rk := by
      unfold RankedPool
      rw [hsc.2.2.2.2.1, hsc.2.2.2.2.2.2]
      exact hr
    split at h
    · simp at h
    · rename_i l hl
      have hl1 := leafAt_page hl
      split at h
      · simp only [Option.some.injEq, Prod.mk.injEq] at h
        obtain ⟨rfl, -⟩ := h
        exact ⟨rk, hr2⟩
      · split at h
        · have hr3 : RankedPool (t2.buffer_pool_manager_.write leaf
              (BPlusTreePage.leaf (l.Insert key value).1)) rk :=
            Ranked_put_leaf hr2 (hr2.1 _ _ hl1) (hr2.2.1 _ _ hl1) _
          split at h
          · split at h
            · simp at h
            · rename_i t3 new_leaf hsp
              obtain ⟨rk1, hrs, hrk1, hnp⟩ := @SplitLeaf_ranked rk
                (t2.withPool (t2.buffer_pool_manager_.write leaf
                  (BPlusTreePage.leaf (l.Insert key value).1))) _ _ _ hr3 hsp
              split at h
              · simp at h
              · rename_i key1 hk1
                split at h
                · simp at h
                · rename_i t4 hrec
                  simp only [Option.some.injEq, Prod.mk.injEq] at h
                  obtain ⟨rfl, -⟩ := h
                  obtain ⟨rk2, hr4⟩ := InsertIntoParent_ranked _ rk1 _ _ _ _ _ hrs hnp hrk1 hrec
                  exact ⟨rk2, hr4⟩
          · simp only [Option.some.injEq, Prod.mk.injEq] at h
            obtain ⟨rfl, -⟩ := h
            exact ⟨rk, hr3⟩
        · simp only [Option.some.injEq, Prod.mk.injEq] at h
          obtain ⟨rfl, -⟩ := h
          exact ⟨rk, hr2⟩

theorem Insert_ranked {rk : page_id_t → Nat} {fuel : Nat} {t t1 : BPlusTree}
    {key : GenericKey} {value : RowId} {b : Bool} (hr : RankedPool t.buffer_pool_manager_ rk)
    (h : t.Insert fuel key value = some (t1, b)) :
    ∃ rk1, RankedPool t1.buffer_pool_manager_ rk1 := by
  simp only [BPlusTree.Insert] at h
  split at h
  · simp only [Option.some.injEq, Prod.mk.injEq] at h
    obtain ⟨rfl, -⟩ := h
    exact StartNewTree_ranked t key value hr
  · exact InsertIntoLeaf_ranked hr h

theorem Reachable_ranked {t : BPlusTree} (h : Reachable t) :
    ∃ rk, RankedPool t.buffer_pool_manager_ rk := by
  induction h with
  | empty index_id lm im =>
    refine ⟨fun _ => 0, ?_, ?_, ?_⟩
    · intro x p hx; simp [BPlusTree.create, BufferPoolManager.fresh,
        BufferPoolManager.FetchIndexRoots, BufferPoolManager.UnpinPage] at hx
    · intro x l hx; rfl
    · intro x n hx; simp [BPlusTree.create, BufferPoolManager.fresh,
        BufferPoolManager.FetchIndexRoots, BufferPoolManager.UnpinPage] at hx
  | insert fuel key value res _ hi ih =>
    obtain ⟨rk, hr⟩ := ih
    exact Insert_ranked hr hi
  | remove fuel key _ hrm ih =>
    obtain ⟨rk, hr⟩ := ih
    exact ⟨rk, Remove_ranked hr hrm⟩

/-! ### C24 -/

/-- C24: in every state reachable from the empty tree by `Insert` and `Remove` calls, any
two paths of child pointers from the root to a leaf pass through the same number
of internal nodes. -/
theorem leaves_at_same_depth (t : BPlusTree) (hreach : Reachable t) (d1 d2 : Nat)
    (h1 : LeafAtDepth t.buffer_pool_manager_.pages t.root_page_id_ d1)
    (h2 : LeafAtDepth t.buffer_pool_manager_.pages t.root_page_id_ d2) : d1 = d2 := by
  obtain ⟨rk, hr⟩ := Reachable_ranked hreach
  rw [← LeafAtDepth_rank hr h1, ← LeafAtDepth_rank hr h2]

set_option maxRecDepth 1000000 in
/-- C24, at a concrete input: with capacity 4 the tree holding 1..14 has the root 9 over
the internal nodes 4 and 8; the path 9, 8, leaf 7 passes through two internal
nodes, and so does every path from the root to a leaf. -/
theorem leaves_at_same_depth_witness :
    Reachable tree14 ∧
    LeafAtDepth tree14.buffer_pool_manager_.pages tree14.root_page_id_ 2 ∧
    ∀ d, LeafAtDepth tree14.buffer_pool_manager_.pages tree14.root_page_id_ d → d = 2 := by
  have hpath : LeafAtDepth tree14.buffer_pool_manager_.pages tree14.root_page_id_ 2 :=
    @LeafAtDepth.step _ 9 8
      { parent_page_id := INVALID_PAGE_ID, max_size := 4, slots := [(0, 4), (10, 8)] } 1
      (by decide) (by decide)
      (@LeafAtDepth.step _ 8 7 { parent_page_id := 9, max_size := 4, slots := [(10, 6), (13, 7)] } 0
        (by decide) (by decide)
        (@LeafAtDepth.leaf _ 7
          { parent_page_id := 8, max_size := 4, next_page_id := INVALID_PAGE_ID,
            slots := [(13, 13), (14, 14)] } (by decide)))
  exact ⟨tree14_reachable, hpath,
    fun d hd => leaves_at_same_depth tree14 tree14_reachable d 2 hd hpath⟩

end BPlusTreeIndex
